import Mathlib

/-!
dosbuf.c : DOS text handling of grep

A shallow embedding of `src/dosbuf.c` (file type guessing, in-place CR
stripping with the byte-offset table, and the offset translation) and the
properties proved about it.

Conventions of the embedding

* A byte is a natural number (only the values NUL = 0, LF = 10 and CR = 13 are
  ever compared).  Memory is a total map from addresses to bytes; a `char *`
  is an address.  A chunk `(buf, buflen)` is the address range
  `[buf, buf + buflen)`.
* `off_t` and `int` values are integers; the table `dos_pos_map` is a total
  map from integer indices to entries, so that an entry that was never written
  simply holds whatever the table held before (the contents `xrealloc` leaves
  behind are not determined by the program).  `xrealloc` keeps the old entries.
* The names that dosbuf.c uses without declaring them (`O_BINARY`, `totalcc`,
  `out_byte`, `bufbeg`) are collected in `Env`.
* Integer arithmetic is exact: `int` and `off_t` overflow is not modelled.  The
  capacity of the table is the variable `dos_pos_map_size`; the indices the
  bookkeeping writes are listed by `record_run_writes` and checked against it
  by `strip_loop_in_bounds`.
* The loops take a bound on the number of iterations as first argument; the
  lemmas `strip_loop_exit`, `strip_loop_fuel`, `search_up_exit` and
  `search_down_exit` show that the bound used is never what ends them.
-/

namespace Dosbuf

/-! ## Data model -/

/-- The enumeration `File_type` (lines 33-35). -/
inductive File_type where
  | UNKNOWN
  | DOS_BINARY
  | DOS_TEXT
  | UNIX_TEXT
deriving DecidableEq, Repr

/-- One table entry, `struct dos_map` (lines 37-40). -/
structure dos_map where
  /-- position in buffer passed to matcher -/
  pos : Int
  /-- how much to add when reporting char position -/
  add : Int
deriving DecidableEq, Repr

/-- Memory: address to byte. -/
abbrev Mem := Nat → Nat

/-- The file-scope variables of dosbuf.c (lines 42-50). -/
structure Globals where
  dos_report_unix_offset : Int
  dos_file_type : File_type
  dos_use_file_type : File_type
  dos_stripped_crs : Int
  dos_pos_map : Int → dos_map
  dos_pos_map_size : Int
  dos_pos_map_used : Int
  inp_map_idx : Int
  out_map_idx : Int

/-- The names dosbuf.c reads but does not declare: the platform constant
`O_BINARY`, and grep's `totalcc` (bytes consumed before the buffer),
`out_byte` (the -b option) and `bufbeg` (address of the buffer's beginning). -/
structure Env where
  O_BINARY : Int
  totalcc : Nat
  out_byte : Int
  bufbeg : Nat

/-- The initial values of the file-scope variables (lines 42-50); the table
pointer is not yet allocated, `tbl` stands for whatever memory it will get. -/
def initial (tbl : Int → dos_map) : Globals :=
  { dos_report_unix_offset := 0
    dos_file_type := File_type.UNKNOWN
    dos_use_file_type := File_type.UNKNOWN
    dos_stripped_crs := 0
    dos_pos_map := tbl
    dos_pos_map_size := 0
    dos_pos_map_used := 0
    inp_map_idx := 0
    out_map_idx := 1 }

/-- The character constant NUL. -/
def NUL : Nat := 0
/-- The character constant LF, written \n in C. -/
def LF : Nat := 10
/-- The character constant CR, written \r in C. -/
def CR : Nat := 13

/-- The bytes of the chunk `[buf, buf + buflen)`, first to last. -/
def chunk (mem : Mem) : Nat → Nat → List Nat
  | _, 0 => []
  | buf, n + 1 => mem buf :: chunk mem (buf + 1) n

/-- Memory holding the bytes `bs` from address 0 on, and `fill` elsewhere. -/
def memOf (bs : List Nat) (fill : Nat) : Mem := fun a => bs.getD a fill

/-! ## The two configuration functions (lines 52-66) -/

/-- The function `dos_binary ()`: set the default file type to binary. -/
def dos_binary (env : Env) (g : Globals) : Globals :=
  if env.O_BINARY ≠ 0 then { g with dos_use_file_type := File_type.DOS_BINARY } else g

/-- The function `dos_unix_byte_offsets ()`: report Unix offsets. -/
def dos_unix_byte_offsets (env : Env) (g : Globals) : Globals :=
  if env.O_BINARY ≠ 0 then { g with dos_report_unix_offset := 1 } else g

/-! ## guess_type (lines 69-90) -/

/-- The loop of `guess_type`: `n` is `buflen` at the loop test, `bp` the scan
pointer, `crlf_seen` the flag.  In the body `buflen` has already been
decremented, so `buflen && bp[1] == LF` tests the decremented count. -/
def guess_type_loop (mem : Mem) : Nat → Nat → Bool → File_type
  | 0, _, crlf_seen => if crlf_seen then File_type.DOS_TEXT else File_type.UNIX_TEXT
  | buflen + 1, bp, crlf_seen =>
    if mem bp = NUL then File_type.DOS_BINARY
    else if mem bp = CR ∧ buflen ≠ 0 ∧ mem (bp + 1) = LF then
      guess_type_loop mem buflen (bp + 1) true
    else guess_type_loop mem buflen (bp + 1) crlf_seen

/-- The function `guess_type (buf, buflen)`. -/
def guess_type (mem : Mem) (buf buflen : Nat) : File_type :=
  guess_type_loop mem buflen buf false

/-- Some byte of the chunk is NUL. -/
def hasNul (mem : Mem) (buf buflen : Nat) : Prop :=
  ∃ i, i < buflen ∧ mem (buf + i) = NUL

/-- Some CR of the chunk is directly followed by an LF of the chunk. -/
def hasCrLf (mem : Mem) (buf buflen : Nat) : Prop :=
  ∃ i, i < buflen ∧ (i + 1 < buflen ∧ mem (buf + i) = CR ∧ mem (buf + i + 1) = LF)

instance (mem : Mem) (buf buflen : Nat) : Decidable (hasNul mem buf buflen) := by
  unfold hasNul; infer_instance

instance (mem : Mem) (buf buflen : Nat) : Decidable (hasCrLf mem buf buflen) := by
  unfold hasCrLf; infer_instance

/-- The reference classifier, following the wording of the specification:
binary when a NUL occurs, else DOS text when a CR-LF pair occurs inside the
chunk, else Unix text. -/
def guess_type_ref (mem : Mem) (buf buflen : Nat) : File_type :=
  if hasNul mem buf buflen then File_type.DOS_BINARY
  else if hasCrLf mem buf buflen then File_type.DOS_TEXT
  else File_type.UNIX_TEXT

/-! ## undossify_input (lines 95-183) -/

/-- Table update `dos_pos_map[i].pos = v`. -/
def setPos (m : Int → dos_map) (i v : Int) : Int → dos_map :=
  fun j => if j = i then { m j with pos := v } else m j

/-- Table update `dos_pos_map[i].add = v`. -/
def setAdd (m : Int → dos_map) (i v : Int) : Int → dos_map :=
  fun j => if j = i then { m j with add := v } else m j

/-- Store `*p = v`. -/
def store (mem : Mem) (p v : Nat) : Mem :=
  fun a => if a = p then v else mem a

/-- The local variables of the stripping loop together with everything the
loop changes: the memory, the read pointer `buf`, the write pointer `destp`,
the remaining count `buflen`, the result `bytes_left` and the globals. -/
structure Strip where
  mem : Mem
  buf : Nat
  destp : Nat
  buflen : Nat
  bytes_left : Nat
  g : Globals

/-- The inner loop (lines 137-142): `while (buflen && *buf == CR)`, counting
each skipped CR.  Returns the new `buflen`, `buf` and `dos_stripped_crs`. -/
def skip_crs (mem : Mem) : Nat → Nat → Int → Nat × Nat × Int
  | 0, buf, crs => (0, buf, crs)
  | buflen + 1, buf, crs =>
    if mem buf = CR then skip_crs mem buflen (buf + 1) (crs + 1)
    else (buflen + 1, buf, crs)

/-- The bookkeeping of one stripped CR run (lines 136-174), entered after the
`buf++` of line 133; `st.buf` already points behind the first CR. -/
def record_run (env : Env) (st : Strip) : Strip :=
  let g := st.g
  -- lines 136-142
  let r := skip_crs st.mem st.buflen st.buf (g.dos_stripped_crs + 1)
  let buflen := r.1
  let buf := r.2.1
  let crs := r.2.2
  -- lines 143-149
  let size :=
    if g.inp_map_idx ≥ g.dos_pos_map_size - 1 then
      (if g.inp_map_idx ≠ 0 then g.inp_map_idx * 2 else 1000)
    else g.dos_pos_map_size
  -- lines 151-159
  let map1 :=
    if g.inp_map_idx = 0 then
      setAdd (setAdd (setPos g.dos_pos_map g.inp_map_idx 0) g.inp_map_idx 0)
        (g.inp_map_idx + 1) 0
    else g.dos_pos_map
  let idx1 := if g.inp_map_idx = 0 then g.inp_map_idx + 1 else g.inp_map_idx
  -- lines 167-174
  let idx := idx1 + 1
  let map2 := setPos map1 (idx - 1)
    (((if st.mem buf = LF then (st.destp : Int) + 1 else (st.destp : Int))
      - (env.bufbeg : Int)) + (env.totalcc : Int))
  let map3 := setAdd map2 idx crs
  let map4 := setPos map3 idx ((st.destp : Int) - (env.bufbeg : Int) + (env.totalcc : Int) + 1)
  { st with
    buf := buf
    buflen := buflen
    g := { g with
      dos_stripped_crs := crs
      dos_pos_map := map4
      dos_pos_map_size := size
      dos_pos_map_used := idx
      inp_map_idx := idx } }

/-- The body of the stripping loop (lines 125-177), entered after the
`buflen--` of the loop test: `st.buflen` is the decremented count. -/
def strip_body (env : Env) (st : Strip) : Strip :=
  if st.mem st.buf ≠ CR then
    { st with
      mem := store st.mem st.destp (st.mem st.buf)
      destp := st.destp + 1
      buf := st.buf + 1
      bytes_left := st.bytes_left + 1 }
  else if env.out_byte ≠ 0 ∧ st.g.dos_report_unix_offset = 0 then
    record_run env { st with buf := st.buf + 1 }
  else { st with buf := st.buf + 1 }

/-- The stripping loop `while (buflen--)` (lines 124-177).  The first argument
bounds the number of iterations; every iteration consumes at least one byte, so
`st.buflen` iterations always suffice (`strip_loop_exit`, `strip_loop_fuel`). -/
def strip_loop (env : Env) : Nat → Strip → Strip
  | 0, st => st
  | fuel + 1, st =>
    match st.buflen with
    | 0 => st
    | n + 1 => strip_loop env fuel (strip_body env { st with buflen := n })

/-- What a call of `undossify_input` yields: the returned count, the memory
and the globals. -/
structure Undossified where
  ret : Nat
  mem : Mem
  g : Globals

/-- Lines 103-112: forget the previous file when `totalcc == 0`. -/
def new_file_reset (env : Env) (g : Globals) : Globals :=
  if env.totalcc = 0 then
    { g with
      inp_map_idx := 0
      out_map_idx := 1
      dos_pos_map_used := 0
      dos_stripped_crs := 0
      dos_file_type := g.dos_use_file_type }
  else g

/-- Lines 114-116: guess the type unless it is already known. -/
def classify (mem : Mem) (buf buflen : Nat) (g : Globals) : Globals :=
  if g.dos_file_type = File_type.UNKNOWN then
    { g with dos_file_type := guess_type mem buf buflen }
  else g

/-- Lines 118-182: strip the CRs of a DOS text file, pass anything else
through. -/
def strip (env : Env) (mem : Mem) (buf buflen : Nat) (g : Globals) : Undossified :=
  if g.dos_file_type = File_type.DOS_TEXT then
    let st := strip_loop env buflen
      { mem := mem, buf := buf, destp := buf, buflen := buflen, bytes_left := 0, g := g }
    { ret := st.bytes_left, mem := st.mem, g := st.g }
  else { ret := buflen, mem := mem, g := g }

/-- The function `undossify_input (buf, buflen)`. -/
def undossify_input (env : Env) (g : Globals) (mem : Mem) (buf buflen : Nat) : Undossified :=
  if env.O_BINARY = 0 then { ret := buflen, mem := mem, g := g }
  else strip env mem buf buflen (classify mem buf buflen (new_file_reset env g))

/-! ## undossify_input_mthread (lines 186-274) -/

/-- The bookkeeping of one stripped CR run in `undossify_input_mthread`
(lines 227-265), entered after the `buf++` of line 224; positions are taken
relative to the argument `bufbeg_local`. -/
def record_run_mthread (env : Env) (bufbeg_local : Nat) (st : Strip) : Strip :=
  let g := st.g
  -- lines 227-233
  let r := skip_crs st.mem st.buflen st.buf (g.dos_stripped_crs + 1)
  let buflen := r.1
  let buf := r.2.1
  let crs := r.2.2
  -- lines 234-240
  let size :=
    if g.inp_map_idx ≥ g.dos_pos_map_size - 1 then
      (if g.inp_map_idx ≠ 0 then g.inp_map_idx * 2 else 1000)
    else g.dos_pos_map_size
  -- lines 242-250
  let map1 :=
    if g.inp_map_idx = 0 then
      setAdd (setAdd (setPos g.dos_pos_map g.inp_map_idx 0) g.inp_map_idx 0)
        (g.inp_map_idx + 1) 0
    else g.dos_pos_map
  let idx1 := if g.inp_map_idx = 0 then g.inp_map_idx + 1 else g.inp_map_idx
  -- lines 258-265
  let idx := idx1 + 1
  let map2 := setPos map1 (idx - 1)
    (((if st.mem buf = LF then (st.destp : Int) + 1 else (st.destp : Int))
      - (bufbeg_local : Int)) + (env.totalcc : Int))
  let map3 := setAdd map2 idx crs
  let map4 := setPos map3 idx
    ((st.destp : Int) - (bufbeg_local : Int) + (env.totalcc : Int) + 1)
  { st with
    buf := buf
    buflen := buflen
    g := { g with
      dos_stripped_crs := crs
      dos_pos_map := map4
      dos_pos_map_size := size
      dos_pos_map_used := idx
      inp_map_idx := idx } }

/-- The body of the loop of `undossify_input_mthread` (lines 216-268), entered
after the `buflen--` of the loop test. -/
def strip_body_mthread (env : Env) (bufbeg_local : Nat) (st : Strip) : Strip :=
  if st.mem st.buf ≠ CR then
    { st with
      mem := store st.mem st.destp (st.mem st.buf)
      destp := st.destp + 1
      buf := st.buf + 1
      bytes_left := st.bytes_left + 1 }
  else if env.out_byte ≠ 0 ∧ st.g.dos_report_unix_offset = 0 then
    record_run_mthread env bufbeg_local { st with buf := st.buf + 1 }
  else { st with buf := st.buf + 1 }

/-- The loop `while (buflen--)` of `undossify_input_mthread` (lines 215-268);
the first argument bounds the number of iterations as in `strip_loop`
(`strip_loop_mthread_exit`). -/
def strip_loop_mthread (env : Env) (bufbeg_local : Nat) : Nat → Strip → Strip
  | 0, st => st
  | fuel + 1, st =>
    match st.buflen with
    | 0 => st
    | n + 1 =>
      strip_loop_mthread env bufbeg_local fuel
        (strip_body_mthread env bufbeg_local { st with buflen := n })

/-- The function `undossify_input_mthread (buf, buflen, bufbeg_local)`. -/
def undossify_input_mthread (env : Env) (g : Globals) (mem : Mem)
    (buf buflen bufbeg_local : Nat) : Undossified :=
  if env.O_BINARY = 0 then { ret := buflen, mem := mem, g := g }
  else
    -- lines 194-203
    let g1 :=
      if env.totalcc = 0 then
        { g with
          inp_map_idx := 0
          out_map_idx := 1
          dos_pos_map_used := 0
          dos_stripped_crs := 0
          dos_file_type := g.dos_use_file_type }
      else g
    -- lines 205-207
    let g2 :=
      if g1.dos_file_type = File_type.UNKNOWN then
        { g1 with dos_file_type := guess_type mem buf buflen }
      else g1
    -- lines 209-273
    if g2.dos_file_type = File_type.DOS_TEXT then
      let st := strip_loop_mthread env bufbeg_local buflen
        { mem := mem, buf := buf, destp := buf, buflen := buflen, bytes_left := 0, g := g2 }
      { ret := st.bytes_left, mem := st.mem, g := st.g }
    else { ret := buflen, mem := mem, g := g2 }

/-! ## dossified_pos (lines 277-313) -/

/-- The forward search (lines 300-302); the first argument bounds the number
of iterations, `dos_pos_map_used - out_map_idx` always suffice
(`search_up_exit`). -/
def search_up (map : Int → dos_map) (used byteno : Int) : Nat → Int → Int
  | 0, out_map_idx => out_map_idx
  | fuel + 1, out_map_idx =>
    if out_map_idx < used ∧ byteno ≥ (map out_map_idx).pos then
      search_up map used byteno fuel (out_map_idx + 1)
    else out_map_idx

/-- The backward search (lines 308-309); the first argument bounds the number
of iterations, `out_map_idx - 1` always suffice (`search_down_exit`). -/
def search_down (map : Int → dos_map) (byteno : Int) : Nat → Int → Int
  | 0, out_map_idx => out_map_idx
  | fuel + 1, out_map_idx =>
    if out_map_idx > 1 ∧ byteno < (map (out_map_idx - 1)).pos then
      search_down map byteno fuel (out_map_idx - 1)
    else out_map_idx

/-- Lines 292-310: the cursor `out_map_idx` after the search that starts at
the previous cursor. -/
def cursor_search (g : Globals) (byteno : Int) : Int :=
  let pos_lo := (g.dos_pos_map (g.out_map_idx - 1)).pos
  let pos_hi := (g.dos_pos_map g.out_map_idx).pos
  if byteno ≥ pos_hi then
    search_up g.dos_pos_map g.dos_pos_map_used byteno
      (g.dos_pos_map_used - (g.out_map_idx + 1)).toNat (g.out_map_idx + 1)
  else if byteno < pos_lo then
    search_down g.dos_pos_map byteno (g.out_map_idx - 1 - 1).toNat (g.out_map_idx - 1)
  else g.out_map_idx

/-- The function `dossified_pos (byteno)`: the returned offset and the globals
after the call (only the cursor `out_map_idx` can change). -/
def dossified_pos (env : Env) (g : Globals) (byteno : Int) : Int × Globals :=
  if env.O_BINARY = 0 then (byteno, g)
  else if g.dos_file_type ≠ File_type.DOS_TEXT ∨ g.dos_report_unix_offset ≠ 0 then
    (byteno, g)
  else
    let idx := cursor_search g byteno
    (byteno + (g.dos_pos_map idx).add, { g with out_map_idx := idx })

/-- A sequence of `dossified_pos` calls, one per offset, threading the
globals; returns the reported offsets and the final globals. -/
def dossified_seq (env : Env) : Globals → List Int → List Int × Globals
  | g, [] => ([], g)
  | g, b :: bs =>
    let r := dossified_pos env g b
    let rs := dossified_seq env r.2 bs
    (r.1 :: rs.1, rs.2)

/-! ## Auxiliary functions used to state the properties -/

/-- Number of CR bytes at the start of the region `[p, p + n)`. -/
def run_len (mem : Mem) : Nat → Nat → Nat
  | _, 0 => 0
  | p, n + 1 => if mem p = CR then run_len mem (p + 1) n + 1 else 0

/-- Number of CR bytes in `[p, p + n)`. -/
def crs_in (mem : Mem) (p n : Nat) : Nat := (chunk mem p n).count CR

/-- Number of bytes other than CR in `[p, p + n)`. -/
def kept_in (mem : Mem) (p n : Nat) : Nat :=
  ((chunk mem p n).filter (fun b => decide (b ≠ CR))).length

/-- Number of CR runs that begin in `[p, p + n)`; `prev` tells whether the byte
before `p` is a CR of the same region, in which case a CR at `p` continues
that run and does not begin one. -/
def count_runs (mem : Mem) : Nat → Nat → Bool → Nat
  | 0, _, _ => 0
  | n + 1, p, prev =>
    (if mem p = CR ∧ prev = false then 1 else 0) + count_runs mem n (p + 1) (decide (mem p = CR))

/-- Number of CR runs that begin in `[p, p + n)`, a CR at `p` beginning one. -/
def runs_in (mem : Mem) (p n : Nat) : Nat := count_runs mem n p false

/-- The addresses `[a, a + k)` are a maximal run of CR bytes of the region
`[p, p + n)`: `k ≥ 1` CR bytes, not preceded and not followed by a CR of the
region. -/
def max_run (mem : Mem) (p n a k : Nat) : Prop :=
  p ≤ a ∧ a + k ≤ p + n ∧ 1 ≤ k
  ∧ (∀ x, x < k → mem (a + x) = CR)
  ∧ (a = p ∨ mem (a - 1) ≠ CR)
  ∧ (a + k = p + n ∨ mem (a + k) ≠ CR)

instance (mem : Mem) (p n a k : Nat) : Decidable (max_run mem p n a k) := by
  unfold max_run; infer_instance

/-- One more byte for a run that is directly followed by LF (line 169). -/
def lf_shift (mem : Mem) (q : Nat) : Nat := if mem q = LF then 1 else 0

/-- The first `n` entries of the table. -/
def table_prefix (g : Globals) (n : Nat) : List dos_map :=
  (List.range n).map (fun i => g.dos_pos_map (i : Int))

/-- The from-scratch search the cursor search is compared with, following the
wording of the claim: the first entry index `c ≥ 1` whose `pos` is greater than
the offset, or the last entry `dos_pos_map_used` when there is none. -/
def naive_idx (g : Globals) (byteno : Int) : Int :=
  match (List.range (g.dos_pos_map_used.toNat + 1)).find?
      (fun c => decide (1 ≤ c ∧ byteno < (g.dos_pos_map (c : Int)).pos)) with
  | some c => (c : Int)
  | none => g.dos_pos_map_used

/-- The offset the from-scratch search reports: `offset + map[c].add`. -/
def naive_pos (g : Globals) (byteno : Int) : Int :=
  byteno + (g.dos_pos_map (naive_idx g byteno)).add

/-- Two sets of globals agree on everything a file depends on: the two
configuration variables, the classification, the CR count, the cursors, and
the table entries `0 .. inp_map_idx` once the table is in use.  The capacity
`dos_pos_map_size` and the entries beyond `inp_map_idx` may differ. -/
def same_file (g1 g2 : Globals) : Prop :=
  g1.dos_report_unix_offset = g2.dos_report_unix_offset
  ∧ g1.dos_file_type = g2.dos_file_type
  ∧ g1.dos_use_file_type = g2.dos_use_file_type
  ∧ g1.dos_stripped_crs = g2.dos_stripped_crs
  ∧ g1.dos_pos_map_used = g2.dos_pos_map_used
  ∧ g1.inp_map_idx = g2.inp_map_idx
  ∧ g1.out_map_idx = g2.out_map_idx
  ∧ g1.dos_pos_map_used = g1.inp_map_idx
  ∧ (g1.inp_map_idx ≠ 0 →
      ∀ i, 0 ≤ i → i ≤ g1.inp_map_idx → g1.dos_pos_map i = g2.dos_pos_map i)

/-- Two loop states with the same locals and memory whose globals agree in the
sense of `same_file`. -/
def same_strip (a b : Strip) : Prop :=
  a.mem = b.mem ∧ a.buf = b.buf ∧ a.destp = b.destp ∧ a.buflen = b.buflen
  ∧ a.bytes_left = b.bytes_left ∧ same_file a.g b.g

/-- The position `destp - bufbeg + totalcc` of the write pointer, as lines 169
and 174 compute it. -/
def write_pos (env : Env) (st : Strip) : Int :=
  (st.destp : Int) - (env.bufbeg : Int) + (env.totalcc : Int)

/-- The ordering the loop keeps within one chunk once the table is in use:
the `pos` fields of the entries `1 .. inp_map_idx` never decrease, the last
confirmed entry lies at most one byte ahead of the write pointer, and not
ahead of it when the next byte to read is a CR. -/
def table_ordered (env : Env) (st : Strip) : Prop :=
  st.g.inp_map_idx ≠ 0 →
    (∀ i, 1 ≤ i → i < st.g.inp_map_idx →
      (st.g.dos_pos_map i).pos ≤ (st.g.dos_pos_map (i + 1)).pos)
    ∧ (st.g.dos_pos_map (st.g.inp_map_idx - 1)).pos ≤ write_pos env st + 1
    ∧ (st.buflen ≠ 0 → st.mem st.buf = CR →
        (st.g.dos_pos_map (st.g.inp_map_idx - 1)).pos ≤ write_pos env st)

/-- The table is empty, or it begins with the sentinel `(0, 0)` followed by an
entry whose `pos` is not negative; in both cases `dos_pos_map_used` is
`inp_map_idx`. -/
def table_started (g : Globals) : Prop :=
  g.dos_pos_map_used = g.inp_map_idx
  ∧ (g.inp_map_idx = 0
      ∨ (2 ≤ g.inp_map_idx ∧ g.dos_pos_map 0 = ⟨0, 0⟩ ∧ 0 ≤ (g.dos_pos_map 1).pos))

/-- One call of `undossify_input` as the caller makes it: the values of the
names of `Env` at the call, the memory, and the two arguments. -/
structure Call where
  env : Env
  mem : Mem
  buf : Nat
  buflen : Nat

/-- The globals after a sequence of calls of `undossify_input`, each starting
from the globals the call before left. -/
def feed : Globals → List Call → Globals
  | g, [] => g
  | g, c :: cs => feed (undossify_input c.env g c.mem c.buf c.buflen).g cs

/-- The number of bytes a sequence of calls removed: the sum of
`buflen - ret` over the calls. -/
def removed : Globals → List Call → Nat
  | _, [] => 0
  | g, c :: cs =>
    (c.buflen - (undossify_input c.env g c.mem c.buf c.buflen).ret)
      + removed (undossify_input c.env g c.mem c.buf c.buflen).g cs

/-- The number of CR bytes in the chunks of a sequence of calls. -/
def crs_of : List Call → Nat
  | [] => 0
  | c :: cs => crs_in c.mem c.buf c.buflen + crs_of cs

/-- The capacity `dos_pos_map_size` after lines 143-149, given the globals the
bookkeeping of a run is entered with. -/
def grown_size (g : Globals) : Int :=
  if g.inp_map_idx ≥ g.dos_pos_map_size - 1 then
    (if g.inp_map_idx ≠ 0 then g.inp_map_idx * 2 else 1000)
  else g.dos_pos_map_size

/-- The table indices the bookkeeping of a run writes, in program order:
lines 154, 155 and 158 for the sentinel when `inp_map_idx` is 0, then lines
168, 170 and 174. -/
def record_run_writes (g : Globals) : List Int :=
  let sentinel :=
    if g.inp_map_idx = 0 then [g.inp_map_idx, g.inp_map_idx, g.inp_map_idx + 1] else []
  let idx1 := if g.inp_map_idx = 0 then g.inp_map_idx + 1 else g.inp_map_idx
  let idx := idx1 + 1
  sentinel ++ [idx - 1, idx, idx]

/-- Every write of the bookkeeping of a run is at an index of the table as it
is allocated after line 149. -/
def run_in_bounds (g : Globals) : Bool :=
  (record_run_writes g).all (fun i => decide (0 ≤ i ∧ i < grown_size g))

/-- The stripping loop with the table writes checked: every iteration that
records a run (CR met, bookkeeping active) writes within the table. -/
def strip_loop_in_bounds (env : Env) : Nat → Strip → Bool
  | 0, _ => true
  | fuel + 1, st =>
    match st.buflen with
    | 0 => true
    | n + 1 =>
      (if st.mem st.buf = CR ∧ (env.out_byte ≠ 0 ∧ st.g.dos_report_unix_offset = 0) then
        run_in_bounds st.g else true)
      && strip_loop_in_bounds env fuel (strip_body env { st with buflen := n })

/-- A call of `undossify_input` with the table writes checked. -/
def undossify_input_in_bounds (env : Env) (g : Globals) (mem : Mem) (buf buflen : Nat) : Bool :=
  if env.O_BINARY = 0 then true
  else if (classify mem buf buflen (new_file_reset env g)).dos_file_type = File_type.DOS_TEXT then
    strip_loop_in_bounds env buflen
      { mem := mem, buf := buf, destp := buf, buflen := buflen, bytes_left := 0,
        g := classify mem buf buflen (new_file_reset env g) }
  else true

/-- The globals that calls of the functions of dosbuf.c can produce from the
initial values. -/
inductive Reachable : Globals → Prop where
  | start (tbl : Int → dos_map) : Reachable (initial tbl)
  | binary (env : Env) (g : Globals) : Reachable g → Reachable (dos_binary env g)
  | unix_offsets (env : Env) (g : Globals) :
      Reachable g → Reachable (dos_unix_byte_offsets env g)
  | undossify (env : Env) (g : Globals) (mem : Mem) (buf buflen : Nat) :
      Reachable g → Reachable (undossify_input env g mem buf buflen).g
  | position (env : Env) (g : Globals) (byteno : Int) :
      Reachable g → Reachable (dossified_pos env g byteno).2

/-- The capacity invariant: `inp_map_idx` is 0 or at least 2, the capacity is
0 or at least 1000, and a table in use has room behind `inp_map_idx`. -/
def capacity_ok (g : Globals) : Prop :=
  (g.inp_map_idx = 0 ∨ 2 ≤ g.inp_map_idx)
  ∧ (g.dos_pos_map_size = 0 ∨ 1000 ≤ g.dos_pos_map_size)
  ∧ (g.inp_map_idx ≠ 0 → g.inp_map_idx < g.dos_pos_map_size)

/-- The normalized offset at which the output of a call begins:
`buf - bufbeg + totalcc`, the value lines 169 and 174 would record before any
byte of the chunk is copied. -/
def Call.start_pos (c : Call) : Int :=
  (c.buf : Int) - (c.env.bufbeg : Int) + (c.env.totalcc : Int)

/-- The normalized offset at which the output of a call on a DOS text file
ends: its start plus the number of bytes of the chunk that are not CR. -/
def Call.end_pos (c : Call) : Int :=
  c.start_pos + (kept_in c.mem c.buf c.buflen : Int)

/-- The chunk of a call does not end with a CR: every CR run of the chunk
ends inside it, so that the byte line 169 looks at belongs to the chunk. -/
def ends_inside (c : Call) : Prop :=
  c.buflen ≠ 0 → c.mem (c.buf + c.buflen - 1) ≠ CR

instance (c : Call) : Decidable (ends_inside c) :=
  inferInstanceAs (Decidable (c.buflen ≠ 0 → c.mem (c.buf + c.buflen - 1) ≠ CR))

/-- The call `d` continues the call `c` of the same file: the chunk of `c`
does not end with a CR, and the output of `d` begins at or behind the offset
at which the output of `c` ended. -/
def continues (c d : Call) : Prop := ends_inside c ∧ c.end_pos ≤ d.start_pos

instance (c d : Call) : Decidable (continues c d) :=
  inferInstanceAs (Decidable (ends_inside c ∧ c.end_pos ≤ d.start_pos))

/-- The table as a call may find or leave it, seen from the normalized offset
`P`: it is empty or begins with the sentinel, `P` is not negative, the `pos`
fields of the entries `1 .. inp_map_idx` never decrease, and the last
confirmed entry does not lie behind `P`. -/
def table_behind (g : Globals) (P : Int) : Prop :=
  table_started g ∧ 0 ≤ P
  ∧ (g.inp_map_idx ≠ 0 →
      (∀ i, 1 ≤ i → i < g.inp_map_idx →
        (g.dos_pos_map i).pos ≤ (g.dos_pos_map (i + 1)).pos)
      ∧ (g.dos_pos_map (g.inp_map_idx - 1)).pos ≤ P)

/-- The `pos` fields of the entries `0 .. dos_pos_map_used` never decrease
with the index, and a table in use begins with the sentinel `(0, 0)`. -/
def table_sorted (g : Globals) : Prop :=
  (∀ i, 0 ≤ i → i < g.dos_pos_map_used →
    (g.dos_pos_map i).pos ≤ (g.dos_pos_map (i + 1)).pos)
  ∧ (g.dos_pos_map_used ≠ 0 → g.dos_pos_map 0 = ⟨0, 0⟩)

/-- Two loop states with the same locals and globals whose memories agree on
the rest of the chunk, `[buf, buf + buflen)`, and on the output written from
`lo` on, `[lo, destp)`. -/
def same_chunk (lo : Nat) (a b : Strip) : Prop :=
  a.buf = b.buf ∧ a.destp = b.destp ∧ a.buflen = b.buflen
  ∧ a.bytes_left = b.bytes_left ∧ a.g = b.g
  ∧ (∀ x, a.buf ≤ x → x < a.buf + a.buflen → a.mem x = b.mem x)
  ∧ (∀ x, lo ≤ x → x < a.destp → a.mem x = b.mem x)

/-! ## Concrete inputs used in the examples -/

/-- A table whose entries all hold `(0, 0)`. -/
def blank_table : Int → dos_map := fun _ => { pos := 0, add := 0 }

/-- The setting of a DOS build printing byte offsets (`grep -b`) at the start
of a file whose buffer begins at address 0. -/
def env_dos : Env := { O_BINARY := 1, totalcc := 0, out_byte := 1, bufbeg := 0 }

/-- The setting of a DOS build that does not print byte offsets. -/
def env_quiet : Env := { O_BINARY := 1, totalcc := 0, out_byte := 0, bufbeg := 0 }

/-- The setting of `env_dos` for a later chunk of the file, two bytes of which
have been consumed. -/
def env_dos_later : Env := { O_BINARY := 1, totalcc := 2, out_byte := 1, bufbeg := 0 }

/-- The bytes of the text "ab", LF, "cd". -/
def unix_text : List Nat := [97, 98, LF, 99, 100]

/-- The bytes of "a", CR, LF, "b", CR, CR, LF. -/
def dos_text : List Nat := [97, CR, LF, 98, CR, CR, LF]

/-- The bytes of "line1", CR, LF, "line2", CR, LF, "line3". -/
def crlf_lines : List Nat :=
  [108, 105, 110, 101, 49, CR, LF, 108, 105, 110, 101, 50, CR, LF, 108, 105, 110, 101, 51]

/-- The bytes of "line1", LF, "line2", LF, "line3". -/
def lf_lines : List Nat :=
  [108, 105, 110, 101, 49, LF, 108, 105, 110, 101, 50, LF, 108, 105, 110, 101, 51]

/-- The bytes CR, LF. -/
def crlf : List Nat := [CR, LF]

/-- The bytes CR, LF, CR, LF. -/
def two_crlf : List Nat := [CR, LF, CR, LF]

/-- The bytes CR, CR, CR, CR, LF, "a". -/
def four_cr : List Nat := [CR, CR, CR, CR, LF, 97]

/-- The bytes of "A", CR, CR, CR, "B". -/
def a_crs_b : List Nat := [65, CR, CR, CR, 66]

/-- The bytes of "A", CR, CR, CR, "B", CR, LF. -/
def a_crs_b_crlf : List Nat := [65, CR, CR, CR, 66, CR, LF]

/-- The bytes of "a", CR, LF, CR, "b". -/
def a_crlf_cr_b : List Nat := [97, CR, LF, CR, 98]

/-- The globals after the one-chunk file `four_cr`, read as the first file of
the process with a table that held `(0, 0)` everywhere. -/
def after_four_cr : Globals :=
  (undossify_input env_dos (initial blank_table) (memOf four_cr 0) 0 6).g

/-- The globals after the one-chunk file `two_crlf` followed by the one-chunk
file `four_cr`. -/
def after_two_files : Globals :=
  (undossify_input env_dos
    (undossify_input env_dos (initial blank_table) (memOf two_crlf 0) 0 4).g
    (memOf four_cr 0) 0 6).g

/-- The first call for a file: the chunk `dos_text`. -/
def call_first : Call := { env := env_dos, mem := memOf dos_text 0, buf := 0, buflen := 7 }

/-- A later call for the same file: the chunk `a_crs_b`. -/
def call_later : Call := { env := env_dos_later, mem := memOf a_crs_b 0, buf := 0, buflen := 5 }

/-- The loop state of the first call on `crlf_lines` when line 136 is reached
for the first CR: five bytes are copied and `buf` points behind the CR. -/
def at_first_cr : Strip :=
  { mem := memOf crlf_lines 0, buf := 6, destp := 5, buflen := 13, bytes_left := 5,
    g := classify (memOf crlf_lines 0) 0 19 (new_file_reset env_dos (initial blank_table)) }

/-- A loop state at line 136 for the second CR of `crlf_lines`: eleven bytes
are copied and the globals are those the first run left.  (The memory is shown
as it was before the compaction; lines 136-174 read it from `buf` on only.) -/
def at_second_cr : Strip :=
  { mem := memOf crlf_lines 0, buf := 13, destp := 11, buflen := 6, bytes_left := 11,
    g := (record_run env_dos at_first_cr).g }

/-- The bytes CR, LF, "a", CR: a chunk that ends with a CR. -/
def cr_at_end : List Nat := [CR, LF, 97, CR]

/-- The bytes "a", CR, CR: a chunk that ends inside a CR run. -/
def split_left : List Nat := [97, CR, CR]

/-- The bytes CR, LF, "b": the chunk that continues `split_left`. -/
def split_right : List Nat := [CR, LF, 98]

/-- The globals after the one-chunk beginning `crlf` of a DOS text file. -/
def after_crlf : Globals :=
  (undossify_input env_dos (initial blank_table) (memOf crlf 0) 0 2).g

/-- The setting of `env_dos` for a later chunk of the file, four normalized
bytes of which have been consumed. -/
def env_dos_next : Env := { O_BINARY := 1, totalcc := 4, out_byte := 1, bufbeg := 0 }

/-- The call that continues `call_first`, whose output is four bytes long: the
chunk `a_crs_b`. -/
def call_next : Call := { env := env_dos_next, mem := memOf a_crs_b 0, buf := 0, buflen := 5 }

/-- The setting of `env_dos` for a later chunk of the file, three normalized
bytes of which have been consumed. -/
def env_dos_third : Env := { O_BINARY := 1, totalcc := 3, out_byte := 1, bufbeg := 0 }

/-- The bytes "a", CR, LF, "b", CR, and behind them a LF that is not part of
the five-byte chunk. -/
def chunk_then_lf : List Nat := [97, CR, LF, 98, CR, LF]

/-- The bytes CR, "c". -/
def cr_c : List Nat := [CR, 99]

/-- The memory after the caller has read the bytes `bs` into the buffer at
`buf`: the addresses `[buf, buf + bs.length)` hold `bs`, every other address
keeps what it held. -/
def read_into (mem : Mem) (buf : Nat) (bs : List Nat) : Mem :=
  fun a => if buf ≤ a ∧ a < buf + bs.length then bs.getD (a - buf) 0 else mem a

/-- The bytes of "abcd", LF: a five-byte UNIX text file. -/
def abcd_lf : List Nat := [97, 98, 99, 100, LF]

/-- The bytes of "abcde": a five-byte UNIX text file. -/
def abcde : List Nat := [97, 98, 99, 100, 101]

/-- The result of the call for the one-chunk file `abcd_lf`, read into the
buffer at address 0 as the first file of the process. -/
def after_abcd_lf : Undossified :=
  undossify_input env_dos (initial blank_table) (read_into (memOf [] 0) 0 abcd_lf) 0 5

/-- The result of the call for the one-chunk file `abcde`, read into the
buffer at address 0 as the first file of the process. -/
def after_abcde : Undossified :=
  undossify_input env_dos (initial blank_table) (read_into (memOf [] 0) 0 abcde) 0 5

/-- The call for the next file, whose four bytes `cr_at_end` are read into
the same buffer, after the previous file left the state `r`. -/
def next_file (r : Undossified) : Undossified :=
  undossify_input env_dos r.g (read_into r.mem 0 cr_at_end) 0 4

/-- The first call for a file whose chunk "a CR LF b CR" ends with a CR and
has a LF stored behind it. -/
def call_cr_end : Call :=
  { env := env_dos, mem := memOf chunk_then_lf 0, buf := 0, buflen := 5 }

/-- The call that continues `call_cr_end`, whose output is three bytes long:
the chunk `cr_c`. -/
def call_cr_c : Call := { env := env_dos_third, mem := memOf cr_c 0, buf := 0, buflen := 2 }

/-- The first call for a file whose chunk is "a CR LF b". -/
def call_a_crlf_b : Call :=
  { env := env_dos, mem := memOf [97, CR, LF, 98] 0, buf := 0, buflen := 4 }

/-- A call for the chunk `cr_c` that places it at the normalized offset 1. -/
def call_misplaced : Call :=
  { env := { O_BINARY := 1, totalcc := 1, out_byte := 1, bufbeg := 0 },
    mem := memOf cr_c 0, buf := 0, buflen := 2 }

/-! # Properties -/

theorem hasNul_succ (mem : Mem) (bp n : Nat) :
    hasNul mem bp (n + 1) ↔ mem bp = NUL ∨ hasNul mem (bp + 1) n := by
  unfold hasNul
  constructor
  · rintro ⟨i, hi, h⟩
    cases i with
    | zero => left; simpa using h
    | succ j =>
      right
      refine ⟨j, by omega, ?_⟩
      rw [← h]; congr 1; omega
  · rintro (h | ⟨j, hj, h⟩)
    · exact ⟨0, by omega, by simpa using h⟩
    · refine ⟨j + 1, by omega, ?_⟩
      rw [← h]; congr 1; omega

theorem hasCrLf_succ (mem : Mem) (bp n : Nat) :
    hasCrLf mem bp (n + 1) ↔
      (mem bp = CR ∧ n ≠ 0 ∧ mem (bp + 1) = LF) ∨ hasCrLf mem (bp + 1) n := by
  unfold hasCrLf
  constructor
  · rintro ⟨i, hi, h1, h2, h3⟩
    cases i with
    | zero => left; exact ⟨by simpa using h2, by omega, by simpa using h3⟩
    | succ j =>
      right
      refine ⟨j, by omega, by omega, ?_, ?_⟩
      · rw [← h2]; congr 1; omega
      · rw [← h3]; congr 1; omega
  · rintro (⟨h1, h2, h3⟩ | ⟨j, hj, hj1, h2, h3⟩)
    · exact ⟨0, by omega, by omega, by simpa using h1, by simpa using h3⟩
    · refine ⟨j + 1, by omega, by omega, ?_, ?_⟩
      · rw [← h2]; congr 1; omega
      · rw [← h3]; congr 1; omega

theorem hasNul_zero (mem : Mem) (bp : Nat) : ¬ hasNul mem bp 0 := by
  rintro ⟨i, hi, _⟩; omega

theorem hasCrLf_zero (mem : Mem) (bp : Nat) : ¬ hasCrLf mem bp 0 := by
  rintro ⟨i, hi, _⟩; omega

/-- The scan loop computes the reference verdict of the rest of the chunk,
with the flag remembering a CR-LF pair seen earlier. -/
theorem guess_type_loop_eq (mem : Mem) (n bp : Nat) (seen : Bool) :
    guess_type_loop mem n bp seen =
      if hasNul mem bp n then File_type.DOS_BINARY
      else if seen = true ∨ hasCrLf mem bp n then File_type.DOS_TEXT
      else File_type.UNIX_TEXT := by
  induction n generalizing bp seen with
  | zero =>
    simp [guess_type_loop, hasNul_zero, hasCrLf_zero]
  | succ n ih =>
    rw [guess_type_loop]
    by_cases h0 : mem bp = NUL
    · simp [h0, hasNul_succ]
    · by_cases hc : mem bp = CR ∧ n ≠ 0 ∧ mem (bp + 1) = LF
      · rw [if_neg h0, if_pos hc, ih]
        have hne : CR ≠ NUL := by decide
        simp [hasNul_succ, hasCrLf_succ, hc, hne]
      · rw [if_neg h0, if_neg hc, ih]
        simp only [hasNul_succ, hasCrLf_succ, h0, hc, false_or]

/-- C1: `guess_type` equals the reference classifier on every memory, buffer
address and length: DOS_BINARY exactly when a byte of the chunk is NUL,
otherwise DOS_TEXT exactly when some index `i` with `i + 1 < buflen` holds CR
followed by LF, otherwise UNIX_TEXT; a CR in the last byte of the chunk is
therefore not a CR-LF pair even when an LF is stored right behind the chunk,
and UNKNOWN is never returned. -/
theorem guess_type_eq_ref (mem : Mem) (buf buflen : Nat) :
    guess_type mem buf buflen = guess_type_ref mem buf buflen
    ∧ (guess_type mem buf buflen = File_type.DOS_BINARY ↔
        ∃ i, i < buflen ∧ mem (buf + i) = NUL)
    ∧ (guess_type mem buf buflen = File_type.DOS_TEXT ↔
        (¬ ∃ i, i < buflen ∧ mem (buf + i) = NUL) ∧
        ∃ i, i + 1 < buflen ∧ mem (buf + i) = CR ∧ mem (buf + i + 1) = LF)
    ∧ (guess_type mem buf buflen = File_type.UNIX_TEXT ↔
        (¬ ∃ i, i < buflen ∧ mem (buf + i) = NUL) ∧
        ¬ ∃ i, i + 1 < buflen ∧ mem (buf + i) = CR ∧ mem (buf + i + 1) = LF)
    ∧ guess_type mem buf buflen ≠ File_type.UNKNOWN
    ∧ guess_type (memOf [97, CR, LF] 0) 0 2 = File_type.UNIX_TEXT := by
  have hcr : hasCrLf mem buf buflen ↔
      ∃ i, i + 1 < buflen ∧ mem (buf + i) = CR ∧ mem (buf + i + 1) = LF := by
    unfold hasCrLf
    constructor
    · rintro ⟨i, _, h⟩; exact ⟨i, h⟩
    · rintro ⟨i, h⟩; exact ⟨i, by omega, h⟩
  have hn : hasNul mem buf buflen ↔ ∃ i, i < buflen ∧ mem (buf + i) = NUL := Iff.rfl
  have key := guess_type_loop_eq mem buflen buf false
  have e : guess_type mem buf buflen = guess_type_ref mem buf buflen := by
    unfold guess_type guess_type_ref
    rw [key]; simp
  refine ⟨e, ?_, ?_, ?_, ?_, by decide⟩
  all_goals
    rw [e]
    try rw [← hn]
    try rw [← hcr]
    unfold guess_type_ref
    by_cases h1 : hasNul mem buf buflen <;> by_cases h2 : hasCrLf mem buf buflen <;>
      simp [h1, h2]

/-- C10: when the platform gate `O_BINARY` is off, or the file is not
classified DOS_TEXT, or `dos_report_unix_offset` is set, `dossified_pos`
returns its argument and leaves every global, the cursor `out_map_idx`
included, as it was. -/
theorem dossified_pos_identity (env : Env) (g : Globals) (byteno : Int)
    (h : env.O_BINARY = 0 ∨ g.dos_file_type ≠ File_type.DOS_TEXT ∨
      g.dos_report_unix_offset ≠ 0) :
    dossified_pos env g byteno = (byteno, g)
    ∧ (dossified_pos env g byteno).2.out_map_idx = g.out_map_idx := by
  have e : dossified_pos env g byteno = (byteno, g) := by
    unfold dossified_pos
    by_cases hO : env.O_BINARY = 0
    · rw [if_pos hO]
    · rw [if_neg hO]
      rcases h with h | h
      · exact absurd h hO
      · rw [if_pos h]
  exact ⟨e, by rw [e]⟩

theorem dossified_pos_identity_witness :
    (env_dos.O_BINARY = 0 ∨ (initial blank_table).dos_file_type ≠ File_type.DOS_TEXT ∨
      (initial blank_table).dos_report_unix_offset ≠ 0)
    ∧ (dossified_pos env_dos (initial blank_table) 7 = (7, initial blank_table)
      ∧ (dossified_pos env_dos (initial blank_table) 7).2.out_map_idx =
          (initial blank_table).out_map_idx) :=
  ⟨Or.inr (Or.inl (by decide)),
   dossified_pos_identity env_dos (initial blank_table) 7 (Or.inr (Or.inl (by decide)))⟩

/-- C3: on a DOS build, when the classification reached after the reset and
guessing steps is DOS_BINARY or UNIX_TEXT, `undossify_input` returns `buflen`,
leaves the memory as it was, and leaves the globals exactly as the
classification step left them: no table entry is touched, `inp_map_idx`,
`dos_pos_map_used` and `dos_stripped_crs` keep their values. -/
theorem undossify_input_passthrough (env : Env) (g : Globals) (mem : Mem) (buf buflen : Nat)
    (hO : env.O_BINARY ≠ 0)
    (ht : (classify mem buf buflen (new_file_reset env g)).dos_file_type = File_type.DOS_BINARY ∨
      (classify mem buf buflen (new_file_reset env g)).dos_file_type = File_type.UNIX_TEXT) :
    (undossify_input env g mem buf buflen).ret = buflen
    ∧ (undossify_input env g mem buf buflen).mem = mem
    ∧ (undossify_input env g mem buf buflen).g = classify mem buf buflen (new_file_reset env g)
    ∧ (undossify_input env g mem buf buflen).g.inp_map_idx =
        (classify mem buf buflen (new_file_reset env g)).inp_map_idx
    ∧ (undossify_input env g mem buf buflen).g.dos_pos_map_used =
        (classify mem buf buflen (new_file_reset env g)).dos_pos_map_used
    ∧ (undossify_input env g mem buf buflen).g.dos_pos_map =
        (classify mem buf buflen (new_file_reset env g)).dos_pos_map
    ∧ (undossify_input env g mem buf buflen).g.dos_stripped_crs =
        (classify mem buf buflen (new_file_reset env g)).dos_stripped_crs := by
  have hne : (classify mem buf buflen (new_file_reset env g)).dos_file_type ≠
      File_type.DOS_TEXT := by
    rcases ht with h | h <;> rw [h] <;> decide
  have e : undossify_input env g mem buf buflen =
      { ret := buflen, mem := mem, g := classify mem buf buflen (new_file_reset env g) } := by
    unfold undossify_input strip
    rw [if_neg hO, if_neg hne]
  rw [e]
  exact ⟨rfl, rfl, rfl, rfl, rfl, rfl, rfl⟩

theorem undossify_input_passthrough_witness :
    (env_dos.O_BINARY ≠ 0
      ∧ ((classify (memOf unix_text 0) 0 5 (new_file_reset env_dos (initial blank_table))).dos_file_type
            = File_type.DOS_BINARY ∨
          (classify (memOf unix_text 0) 0 5 (new_file_reset env_dos (initial blank_table))).dos_file_type
            = File_type.UNIX_TEXT))
    ∧ (undossify_input env_dos (initial blank_table) (memOf unix_text 0) 0 5).ret = 5
    ∧ (undossify_input env_dos (initial blank_table) (memOf unix_text 0) 0 5).mem = memOf unix_text 0 :=
  ⟨⟨by decide, Or.inr (by decide)⟩,
   (undossify_input_passthrough env_dos (initial blank_table) (memOf unix_text 0) 0 5
      (by decide) (Or.inr (by decide))).1,
   (undossify_input_passthrough env_dos (initial blank_table) (memOf unix_text 0) 0 5
      (by decide) (Or.inr (by decide))).2.1⟩

/-! ## The stripping loop: bytes -/

theorem chunk_length (mem : Mem) (p n : Nat) : (chunk mem p n).length = n := by
  induction n generalizing p with
  | zero => rfl
  | succ n ih => simp [chunk, ih]

theorem chunk_congr (m1 m2 : Mem) (p n : Nat)
    (h : ∀ a, p ≤ a → a < p + n → m1 a = m2 a) : chunk m1 p n = chunk m2 p n := by
  induction n generalizing p with
  | zero => rfl
  | succ n ih =>
    simp only [chunk]
    rw [h p (by omega) (by omega), ih (p + 1) (fun a h1 h2 => h a (by omega) (by omega))]

theorem run_len_le (mem : Mem) (p n : Nat) : run_len mem p n ≤ n := by
  induction n generalizing p with
  | zero => simp [run_len]
  | succ n ih =>
    rw [run_len]
    split
    · have := ih (p + 1); omega
    · omega

theorem run_len_all_cr (mem : Mem) (p n a : Nat) (h1 : p ≤ a) (h2 : a < p + run_len mem p n) :
    mem a = CR := by
  induction n generalizing p with
  | zero => simp [run_len] at h2; omega
  | succ n ih =>
    rw [run_len] at h2
    by_cases hc : mem p = CR
    · rw [if_pos hc] at h2
      by_cases ha : a = p
      · rw [ha]; exact hc
      · exact ih (p + 1) (by omega) (by omega)
    · rw [if_neg hc] at h2; omega

theorem run_len_stop (mem : Mem) (p n : Nat) (h : run_len mem p n < n) :
    mem (p + run_len mem p n) ≠ CR := by
  induction n generalizing p with
  | zero => omega
  | succ n ih =>
    rw [run_len] at h ⊢
    by_cases hc : mem p = CR
    · rw [if_pos hc] at h ⊢
      have := ih (p + 1) (by omega)
      rw [show p + (run_len mem (p + 1) n + 1) = p + 1 + run_len mem (p + 1) n by omega]
      exact this
    · rw [if_neg hc]; simpa using hc

theorem skip_crs_eq (mem : Mem) (n p : Nat) (c : Int) :
    skip_crs mem n p c =
      (n - run_len mem p n, p + run_len mem p n, c + (run_len mem p n : Int)) := by
  induction n generalizing p c with
  | zero => simp [skip_crs, run_len]
  | succ n ih =>
    rw [skip_crs, run_len]
    by_cases hc : mem p = CR
    · rw [if_pos hc, if_pos hc, ih]
      refine Prod.ext ?_ (Prod.ext ?_ ?_)
      · simp only; omega
      · simp only; omega
      · simp only; push_cast; omega
    · rw [if_neg hc, if_neg hc]; simp

theorem filter_run_len (mem : Mem) (p n : Nat) :
    (chunk mem p n).filter (fun b => decide (b ≠ CR)) =
      (chunk mem (p + run_len mem p n) (n - run_len mem p n)).filter
        (fun b => decide (b ≠ CR)) := by
  induction n generalizing p with
  | zero => simp [run_len, chunk]
  | succ n ih =>
    rw [run_len]
    by_cases hc : mem p = CR
    · rw [if_pos hc]
      rw [show p + (run_len mem (p + 1) n + 1) = p + 1 + run_len mem (p + 1) n by omega,
        show n + 1 - (run_len mem (p + 1) n + 1) = n - run_len mem (p + 1) n by omega, ← ih]
      simp [chunk, hc]
    · rw [if_neg hc]; simp

theorem record_run_mem (env : Env) (st : Strip) : (record_run env st).mem = st.mem := rfl
theorem record_run_destp (env : Env) (st : Strip) : (record_run env st).destp = st.destp := rfl
theorem record_run_bytes_left (env : Env) (st : Strip) :
    (record_run env st).bytes_left = st.bytes_left := rfl
theorem record_run_buf (env : Env) (st : Strip) :
    (record_run env st).buf = st.buf + run_len st.mem st.buf st.buflen := by
  show (skip_crs st.mem st.buflen st.buf (st.g.dos_stripped_crs + 1)).2.1 = _
  rw [skip_crs_eq]
theorem record_run_buflen (env : Env) (st : Strip) :
    (record_run env st).buflen = st.buflen - run_len st.mem st.buf st.buflen := by
  show (skip_crs st.mem st.buflen st.buf (st.g.dos_stripped_crs + 1)).1 = _
  rw [skip_crs_eq]

/-- The number of bytes one iteration consumes beyond the first: the rest of
the CR run when the bookkeeping is active, nothing otherwise. -/
theorem strip_body_cr (env : Env) (st : Strip) (hc : st.mem st.buf = CR) :
    ∃ k, k ≤ st.buflen ∧ (strip_body env st).mem = st.mem
      ∧ (strip_body env st).destp = st.destp
      ∧ (strip_body env st).bytes_left = st.bytes_left
      ∧ (strip_body env st).buf = st.buf + 1 + k
      ∧ (strip_body env st).buflen = st.buflen - k
      ∧ (chunk st.mem (st.buf + 1) st.buflen).filter (fun b => decide (b ≠ CR)) =
          (chunk st.mem (st.buf + 1 + k) (st.buflen - k)).filter (fun b => decide (b ≠ CR)) := by
  by_cases hb : env.out_byte ≠ 0 ∧ st.g.dos_report_unix_offset = 0
  · refine ⟨run_len st.mem (st.buf + 1) st.buflen, run_len_le _ _ _, ?_⟩
    have e : strip_body env st = record_run env { st with buf := st.buf + 1 } := by
      unfold strip_body
      rw [if_neg (by simpa using hc), if_pos hb]
    rw [e, record_run_mem, record_run_destp, record_run_bytes_left, record_run_buf,
      record_run_buflen]
    exact ⟨rfl, rfl, rfl, rfl, rfl, filter_run_len _ _ _⟩
  · refine ⟨0, by omega, ?_⟩
    have e : strip_body env st = { st with buf := st.buf + 1 } := by
      unfold strip_body
      rw [if_neg (by simpa using hc), if_neg hb]
    rw [e]
    exact ⟨rfl, rfl, rfl, rfl, rfl, rfl⟩

theorem strip_body_other (env : Env) (st : Strip) (hc : st.mem st.buf ≠ CR) :
    strip_body env st =
      { st with
        mem := store st.mem st.destp (st.mem st.buf)
        destp := st.destp + 1
        buf := st.buf + 1
        bytes_left := st.bytes_left + 1 } := by
  unfold strip_body
  rw [if_pos hc]

theorem strip_loop_done (env : Env) (fuel : Nat) (st : Strip) (h : st.buflen = 0) :
    strip_loop env fuel st = st := by
  cases fuel with
  | zero => rfl
  | succ f => rw [strip_loop, h]

theorem strip_loop_step (env : Env) (fuel n : Nat) (st : Strip) (h : st.buflen = n + 1) :
    strip_loop env (fuel + 1) st = strip_loop env fuel (strip_body env { st with buflen := n }) := by
  rw [strip_loop, h]

/-- What the stripping loop does to the bytes: it appends the non-CR bytes of
the rest of the chunk, in order, at the write pointer, touches nothing else,
and ends with `buflen = 0`, having read the whole chunk. -/
theorem strip_loop_bytes (env : Env) (fuel : Nat) (st : Strip)
    (hd : st.destp ≤ st.buf) (hf : st.buflen ≤ fuel) :
    (strip_loop env fuel st).destp =
        st.destp + ((chunk st.mem st.buf st.buflen).filter (fun b => decide (b ≠ CR))).length
    ∧ (strip_loop env fuel st).bytes_left =
        st.bytes_left + ((chunk st.mem st.buf st.buflen).filter (fun b => decide (b ≠ CR))).length
    ∧ chunk (strip_loop env fuel st).mem st.destp
          ((chunk st.mem st.buf st.buflen).filter (fun b => decide (b ≠ CR))).length =
        (chunk st.mem st.buf st.buflen).filter (fun b => decide (b ≠ CR))
    ∧ (∀ a, a < st.destp ∨ st.buf + st.buflen ≤ a → (strip_loop env fuel st).mem a = st.mem a)
    ∧ (strip_loop env fuel st).buflen = 0
    ∧ (strip_loop env fuel st).buf = st.buf + st.buflen := by
  induction fuel generalizing st with
  | zero =>
    have h0 : st.buflen = 0 := by omega
    simp [strip_loop, h0, chunk]
  | succ fuel ih =>
    rcases Nat.eq_zero_or_pos st.buflen with h0 | hpos
    · rw [strip_loop_done env _ st h0]
      simp [h0, chunk]
    · obtain ⟨n, hn⟩ : ∃ n, st.buflen = n + 1 := ⟨st.buflen - 1, by omega⟩
      rw [strip_loop_step env fuel n st hn, hn]
      by_cases hc : st.mem st.buf = CR
      · obtain ⟨k, hk, hmem, hdestp, hbl, hbuf, hlen, hfil⟩ :=
          strip_body_cr env { st with buflen := n } hc
        simp only [] at hk hmem hdestp hbl hbuf hlen hfil
        have IH := ih (strip_body env { st with buflen := n })
          (by rw [hdestp, hbuf]; omega) (by rw [hlen]; omega)
        rw [hmem, hdestp, hbl, hbuf, hlen] at IH
        have hch : (chunk st.mem st.buf (n + 1)).filter (fun b => decide (b ≠ CR)) =
            (chunk st.mem (st.buf + 1 + k) (n - k)).filter (fun b => decide (b ≠ CR)) := by
          rw [← hfil]; simp [chunk, hc]
        rw [hch]
        obtain ⟨i1, i2, i3, i4, i5, i6⟩ := IH
        refine ⟨i1, i2, i3, ?_, i5, ?_⟩
        · intro a ha
          exact i4 a (by omega)
        · rw [i6]; omega
      · rw [strip_body_other env { st with buflen := n } hc]
        have IH := ih
          { st with
            buflen := n
            mem := store st.mem st.destp (st.mem st.buf)
            destp := st.destp + 1
            buf := st.buf + 1
            bytes_left := st.bytes_left + 1 }
          (by simp only []; omega) (by simp only []; omega)
        simp only [] at IH
        have hcg : chunk (store st.mem st.destp (st.mem st.buf)) (st.buf + 1) n =
            chunk st.mem (st.buf + 1) n := by
          apply chunk_congr
          intro a h1 h2
          unfold store
          rw [if_neg (by omega)]
        rw [hcg] at IH
        have hch : (chunk st.mem st.buf (n + 1)).filter (fun b => decide (b ≠ CR)) =
            st.mem st.buf :: (chunk st.mem (st.buf + 1) n).filter (fun b => decide (b ≠ CR)) := by
          simp [chunk, hc]
        rw [hch]
        obtain ⟨i1, i2, i3, i4, i5, i6⟩ := IH
        refine ⟨?_, ?_, ?_, ?_, i5, ?_⟩
        · rw [i1]; simp only [List.length_cons]; omega
        · rw [i2]; simp only [List.length_cons]; omega
        · simp only [List.length_cons, chunk]
          rw [i3, i4 st.destp (by omega)]
          simp [store]
        · intro a ha
          rw [i4 a (by omega)]
          unfold store
          rw [if_neg (by omega)]
        · rw [i6]; omega

theorem filter_length_add_count (l : List Nat) :
    (l.filter (fun b => decide (b ≠ CR))).length + l.count CR = l.length := by
  induction l with
  | nil => rfl
  | cons b l ih =>
    by_cases hb : b = CR
    · subst hb
      simp only [ne_eq, not_true_eq_false, decide_False, Bool.false_eq_true, not_false_eq_true,
        List.filter_cons_of_neg, List.count_cons_self, List.length_cons] at ih ⊢
      omega
    · rw [List.filter_cons_of_pos (by simpa using hb), List.count_cons_of_ne (Ne.symm hb)]
      simp only [List.length_cons]
      omega

/-- C2: on a DOS build, whenever the classification reached after the reset
and guessing steps is DOS_TEXT, and whatever `out_byte` and
`dos_report_unix_offset` are (bookkeeping on or off), the first `ret` bytes of
the buffer after `undossify_input` are the bytes of the input chunk with every
CR deleted, in the original order; they contain no CR, and `ret` plus the
number of CR bytes of the input chunk is the input length. -/
theorem undossify_input_strips_cr (env : Env) (g : Globals) (mem : Mem) (buf buflen : Nat)
    (hO : env.O_BINARY ≠ 0)
    (ht : (classify mem buf buflen (new_file_reset env g)).dos_file_type = File_type.DOS_TEXT) :
    chunk (undossify_input env g mem buf buflen).mem buf (undossify_input env g mem buf buflen).ret
        = (chunk mem buf buflen).filter (fun b => decide (b ≠ CR))
    ∧ CR ∉ chunk (undossify_input env g mem buf buflen).mem buf
        (undossify_input env g mem buf buflen).ret
    ∧ (undossify_input env g mem buf buflen).ret + (chunk mem buf buflen).count CR = buflen := by
  have e : undossify_input env g mem buf buflen =
      { ret := (strip_loop env buflen
          { mem := mem, buf := buf, destp := buf, buflen := buflen, bytes_left := 0,
            g := classify mem buf buflen (new_file_reset env g) }).bytes_left
        mem := (strip_loop env buflen
          { mem := mem, buf := buf, destp := buf, buflen := buflen, bytes_left := 0,
            g := classify mem buf buflen (new_file_reset env g) }).mem
        g := (strip_loop env buflen
          { mem := mem, buf := buf, destp := buf, buflen := buflen, bytes_left := 0,
            g := classify mem buf buflen (new_file_reset env g) }).g } := by
    unfold undossify_input strip
    rw [if_neg hO, if_pos ht]
  obtain ⟨-, h2, h3, -, -, -⟩ := strip_loop_bytes env buflen
    { mem := mem, buf := buf, destp := buf, buflen := buflen, bytes_left := 0,
      g := classify mem buf buflen (new_file_reset env g) } (Nat.le_refl _) (Nat.le_refl _)
  simp only [Nat.zero_add] at h2 h3
  rw [e]
  simp only []
  rw [h2, h3]
  refine ⟨rfl, ?_, ?_⟩
  · intro hmem
    have := (List.mem_filter.mp hmem).2
    simp at this
  · have := filter_length_add_count (chunk mem buf buflen)
    rw [chunk_length] at this
    exact this

theorem undossify_input_strips_cr_witness :
    (env_quiet.O_BINARY ≠ 0
      ∧ (classify (memOf dos_text 0) 0 7 (new_file_reset env_quiet (initial blank_table))).dos_file_type
          = File_type.DOS_TEXT)
    ∧ (chunk (undossify_input env_quiet (initial blank_table) (memOf dos_text 0) 0 7).mem 0
          (undossify_input env_quiet (initial blank_table) (memOf dos_text 0) 0 7).ret
        = (chunk (memOf dos_text 0) 0 7).filter (fun b => decide (b ≠ CR))
      ∧ CR ∉ chunk (undossify_input env_quiet (initial blank_table) (memOf dos_text 0) 0 7).mem 0
          (undossify_input env_quiet (initial blank_table) (memOf dos_text 0) 0 7).ret
      ∧ (undossify_input env_quiet (initial blank_table) (memOf dos_text 0) 0 7).ret
          + (chunk (memOf dos_text 0) 0 7).count CR = 7) :=
  ⟨⟨by decide, by decide⟩,
   undossify_input_strips_cr env_quiet (initial blank_table) (memOf dos_text 0) 0 7
     (by decide) (by decide)⟩

/-! ## Independence of the previous file -/

theorem record_run_same (env : Env) (a b : Strip) (h : same_strip a b) :
    same_strip (record_run env a) (record_run env b) := by
  obtain ⟨mem, buf, destp, buflen, bl, g1⟩ := a
  obtain ⟨mem2, buf2, destp2, buflen2, bl2, g2⟩ := b
  obtain ⟨h1, h2, h3, h4, h5, c1, c2, c3, c4, c5, c6, c7, c8, c9⟩ := h
  simp only at h1 h2 h3 h4 h5 c1 c2 c3 c4 c5 c6 c7 c8 c9
  subst h1 h2 h3 h4 h5
  refine ⟨rfl, ?_, rfl, ?_, rfl, ?_⟩
  · simp only [record_run, c4]
  · simp only [record_run, c4]
  · refine ⟨c1, c2, c3, ?_, ?_, ?_, c7, ?_, ?_⟩
    · simp only [record_run, c4]
    · simp only [record_run, c6]
    · simp only [record_run, c6]
    · simp only [record_run]
    · intro _ i hi0 hi
      simp only [record_run] at hi ⊢
      rw [← c6, ← c4]
      by_cases hz : g1.inp_map_idx = 0
      · simp only [hz, if_true] at hi ⊢
        have : i = 0 ∨ i = 1 ∨ i = 2 := by omega
        rcases this with rfl | rfl | rfl <;> simp [setPos, setAdd]
      · simp only [hz, if_false] at hi ⊢
        have hag := c9 hz
        by_cases hi1 : i = g1.inp_map_idx + 1
        · subst hi1
          simp [setPos, setAdd]
        · by_cases hi2 : i = g1.inp_map_idx
          · subst hi2
            have := hag g1.inp_map_idx hi0 (le_refl _)
            simp [setPos, setAdd, this]
          · have := hag i hi0 (by omega)
            simp [setPos, setAdd, hi1, hi2, this]

theorem strip_body_same (env : Env) (a b : Strip) (h : same_strip a b) :
    same_strip (strip_body env a) (strip_body env b) := by
  obtain ⟨mem, buf, destp, buflen, bl, g1⟩ := a
  obtain ⟨mem2, buf2, destp2, buflen2, bl2, g2⟩ := b
  obtain ⟨h1, h2, h3, h4, h5, c⟩ := h
  simp only at h1 h2 h3 h4 h5 c
  subst h1 h2 h3 h4 h5
  unfold strip_body
  simp only [← c.1]
  by_cases hc : mem buf ≠ CR
  · rw [if_pos hc, if_pos hc]
    exact ⟨rfl, rfl, rfl, rfl, rfl, c⟩
  · rw [if_neg hc, if_neg hc]
    by_cases hb : env.out_byte ≠ 0 ∧ g1.dos_report_unix_offset = 0
    · rw [if_pos hb, if_pos hb]
      exact record_run_same env _ _ ⟨rfl, rfl, rfl, rfl, rfl, c⟩
    · rw [if_neg hb, if_neg hb]
      exact ⟨rfl, rfl, rfl, rfl, rfl, c⟩

theorem strip_loop_same (env : Env) (fuel : Nat) (a b : Strip) (h : same_strip a b) :
    same_strip (strip_loop env fuel a) (strip_loop env fuel b) := by
  induction fuel generalizing a b with
  | zero => exact h
  | succ fuel ih =>
    rcases Nat.eq_zero_or_pos a.buflen with h0 | hpos
    · rw [strip_loop_done env _ a h0, strip_loop_done env _ b (by rw [← h.2.2.2.1]; exact h0)]
      exact h
    · obtain ⟨n, hn⟩ : ∃ n, a.buflen = n + 1 := ⟨a.buflen - 1, by omega⟩
      rw [strip_loop_step env fuel n a hn,
        strip_loop_step env fuel n b (by rw [← h.2.2.2.1]; exact hn)]
      apply ih
      apply strip_body_same
      exact ⟨h.1, h.2.1, h.2.2.1, rfl, h.2.2.2.2.1, h.2.2.2.2.2⟩

theorem reset_classify_same (env : Env) (g1 g2 : Globals) (mem : Mem) (buf buflen : Nat)
    (h0 : env.totalcc = 0)
    (hu : g1.dos_use_file_type = g2.dos_use_file_type)
    (hr : g1.dos_report_unix_offset = g2.dos_report_unix_offset) :
    same_file (classify mem buf buflen (new_file_reset env g1))
      (classify mem buf buflen (new_file_reset env g2)) := by
  unfold classify new_file_reset
  rw [if_pos h0, if_pos h0]
  simp only [hu]
  by_cases ht : g2.dos_use_file_type = File_type.UNKNOWN
  · rw [if_pos ht, if_pos ht]
    exact ⟨hr, rfl, rfl, rfl, rfl, rfl, rfl, rfl, fun h => absurd rfl h⟩
  · rw [if_neg ht, if_neg ht]
    exact ⟨hr, rfl, rfl, rfl, rfl, rfl, rfl, rfl, fun h => absurd rfl h⟩

theorem strip_same (env : Env) (g1 g2 : Globals) (mem : Mem) (buf buflen : Nat)
    (h : same_file g1 g2) :
    (strip env mem buf buflen g1).ret = (strip env mem buf buflen g2).ret
    ∧ (strip env mem buf buflen g1).mem = (strip env mem buf buflen g2).mem
    ∧ same_file (strip env mem buf buflen g1).g (strip env mem buf buflen g2).g := by
  unfold strip
  rw [← h.2.1]
  by_cases ht : g1.dos_file_type = File_type.DOS_TEXT
  · rw [if_pos ht, if_pos ht]
    have := strip_loop_same env buflen
      { mem := mem, buf := buf, destp := buf, buflen := buflen, bytes_left := 0, g := g1 }
      { mem := mem, buf := buf, destp := buf, buflen := buflen, bytes_left := 0, g := g2 }
      ⟨rfl, rfl, rfl, rfl, rfl, h⟩
    exact ⟨this.2.2.2.2.1, this.1, this.2.2.2.2.2⟩
  · rw [if_neg ht, if_neg ht]
    exact ⟨rfl, rfl, h⟩

/-- The reset at a file boundary, with the memory held fixed: on a DOS build a
call with `totalcc = 0` first sets `dos_stripped_crs = 0`, `inp_map_idx = 0`,
`dos_pos_map_used = 0`, `out_map_idx = 1` and the classification to
`dos_use_file_type`, whatever globals the previous file left; and two calls on
the same memory from any two sets of globals with the same configuration
(`dos_use_file_type`, `dos_report_unix_offset`) return the same length and
leave the same memory, CR count, classification, cursors and, when the table
is not empty, the same table entries `0 .. dos_pos_map_used`.  (The memory
behind the chunk is part of what is held fixed here.) -/
theorem undossify_input_new_file (env : Env) (g1 g2 : Globals) (mem : Mem) (buf buflen : Nat)
    (hO : env.O_BINARY ≠ 0) (h0 : env.totalcc = 0)
    (hu : g1.dos_use_file_type = g2.dos_use_file_type)
    (hr : g1.dos_report_unix_offset = g2.dos_report_unix_offset) :
    ((new_file_reset env g1).dos_stripped_crs = 0
      ∧ (new_file_reset env g1).inp_map_idx = 0
      ∧ (new_file_reset env g1).dos_pos_map_used = 0
      ∧ (new_file_reset env g1).out_map_idx = 1
      ∧ (new_file_reset env g1).dos_file_type = g1.dos_use_file_type)
    ∧ undossify_input env g1 mem buf buflen =
        strip env mem buf buflen (classify mem buf buflen (new_file_reset env g1))
    ∧ (undossify_input env g1 mem buf buflen).ret = (undossify_input env g2 mem buf buflen).ret
    ∧ (undossify_input env g1 mem buf buflen).mem = (undossify_input env g2 mem buf buflen).mem
    ∧ (undossify_input env g1 mem buf buflen).g.dos_stripped_crs =
        (undossify_input env g2 mem buf buflen).g.dos_stripped_crs
    ∧ (undossify_input env g1 mem buf buflen).g.dos_file_type =
        (undossify_input env g2 mem buf buflen).g.dos_file_type
    ∧ (undossify_input env g1 mem buf buflen).g.inp_map_idx =
        (undossify_input env g2 mem buf buflen).g.inp_map_idx
    ∧ (undossify_input env g1 mem buf buflen).g.out_map_idx =
        (undossify_input env g2 mem buf buflen).g.out_map_idx
    ∧ (undossify_input env g1 mem buf buflen).g.dos_pos_map_used =
        (undossify_input env g2 mem buf buflen).g.dos_pos_map_used
    ∧ ((undossify_input env g1 mem buf buflen).g.dos_pos_map_used ≠ 0 →
        ∀ i, 0 ≤ i → i ≤ (undossify_input env g1 mem buf buflen).g.dos_pos_map_used →
          (undossify_input env g1 mem buf buflen).g.dos_pos_map i =
            (undossify_input env g2 mem buf buflen).g.dos_pos_map i) := by
  have e1 : undossify_input env g1 mem buf buflen =
      strip env mem buf buflen (classify mem buf buflen (new_file_reset env g1)) := by
    unfold undossify_input; rw [if_neg hO]
  have e2 : undossify_input env g2 mem buf buflen =
      strip env mem buf buflen (classify mem buf buflen (new_file_reset env g2)) := by
    unfold undossify_input; rw [if_neg hO]
  obtain ⟨s1, s2, c1, c2, c3, c4, c5, c6, c7, c8, c9⟩ := strip_same env _ _ mem buf buflen
    (reset_classify_same env g1 g2 mem buf buflen h0 hu hr)
  refine ⟨?_, e1, ?_⟩
  · unfold new_file_reset
    rw [if_pos h0]
    exact ⟨rfl, rfl, rfl, rfl, rfl⟩
  · rw [e1, e2]
    refine ⟨s1, s2, c4, c2, c6, c7, c5, ?_⟩
    intro hne i hi0 hi
    rw [c8] at hne hi
    exact c9 hne i hi0 hi

theorem undossify_input_new_file_witness :
    (env_dos.O_BINARY ≠ 0 ∧ env_dos.totalcc = 0
      ∧ (undossify_input env_dos (initial blank_table) (memOf dos_text 0) 0 7).g.dos_use_file_type
          = (initial blank_table).dos_use_file_type
      ∧ (undossify_input env_dos (initial blank_table) (memOf dos_text 0) 0 7).g.dos_report_unix_offset
          = (initial blank_table).dos_report_unix_offset)
    ∧ (undossify_input env_dos (initial blank_table) (memOf dos_text 0) 0 7).g.dos_stripped_crs = 3
    ∧ (new_file_reset env_dos
        (undossify_input env_dos (initial blank_table) (memOf dos_text 0) 0 7).g).dos_stripped_crs = 0
    ∧ (undossify_input env_dos
          (undossify_input env_dos (initial blank_table) (memOf dos_text 0) 0 7).g
          (memOf unix_text 0) 0 5).ret
        = (undossify_input env_dos (initial blank_table) (memOf unix_text 0) 0 5).ret :=
  ⟨⟨by decide, by decide, by decide, by decide⟩, by decide,
   (undossify_input_new_file env_dos
      (undossify_input env_dos (initial blank_table) (memOf dos_text 0) 0 7).g
      (initial blank_table) (memOf unix_text 0) 0 5
      (by decide) (by decide) (by decide) (by decide)).1.1,
   (undossify_input_new_file env_dos
      (undossify_input env_dos (initial blank_table) (memOf dos_text 0) 0 7).g
      (initial blank_table) (memOf unix_text 0) 0 5
      (by decide) (by decide) (by decide) (by decide)).2.2.1⟩

/-! ### The memory outside the chunk -/

theorem guess_type_loop_congr (m1 m2 : Mem) (n bp : Nat) (seen : Bool)
    (h : ∀ x, bp ≤ x → x < bp + n → m1 x = m2 x) :
    guess_type_loop m1 n bp seen = guess_type_loop m2 n bp seen := by
  induction n generalizing bp seen with
  | zero => rfl
  | succ n ih =>
    rw [guess_type_loop, guess_type_loop, h bp (le_refl _) (by omega)]
    have ih1 := fun s => ih (bp + 1) s (fun x hx1 hx2 => h x (by omega) (by omega))
    rw [ih1 true, ih1 seen]
    by_cases hn : n = 0
    · subst hn
      simp
    · rw [h (bp + 1) (by omega) (by omega)]

theorem run_len_congr_in (m1 m2 : Mem) (p n : Nat)
    (h : ∀ x, p ≤ x → x < p + n → m1 x = m2 x) :
    run_len m1 p n = run_len m2 p n := by
  induction n generalizing p with
  | zero => rfl
  | succ n ih =>
    rw [run_len, run_len, h p (le_refl _) (by omega),
      ih (p + 1) (fun x hx1 hx2 => h x (by omega) (by omega))]

/-- The bookkeeping of a run depends on the memory only through the rest of
the chunk and the byte behind the run. -/
theorem record_run_congr (env : Env) (a b : Strip)
    (h1 : a.buf = b.buf) (h2 : a.destp = b.destp) (h3 : a.buflen = b.buflen)
    (h5 : a.g = b.g)
    (hag : ∀ x, a.buf ≤ x → x < a.buf + a.buflen → a.mem x = b.mem x)
    (hla : a.mem (a.buf + run_len a.mem a.buf a.buflen)
      = b.mem (a.buf + run_len a.mem a.buf a.buflen)) :
    (record_run env a).g = (record_run env b).g
    ∧ (record_run env a).buf = (record_run env b).buf
    ∧ (record_run env a).buflen = (record_run env b).buflen := by
  obtain ⟨m1, buf, destp, buflen, bl, g⟩ := a
  obtain ⟨m2, buf2, destp2, buflen2, bl2, g2⟩ := b
  simp only at h1 h2 h3 h5 hag hla
  subst h1 h2 h3 h5
  have hL := run_len_congr_in m1 m2 buf buflen hag
  refine ⟨?_, ?_, ?_⟩
  · simp only [record_run, skip_crs_eq]
    rw [← hL, hla]
  · rw [record_run_buf, record_run_buf]
    simp only []
    rw [hL]
  · rw [record_run_buflen, record_run_buflen]
    simp only []
    rw [hL]

/-- The stripping loop depends on the memory only through the chunk, when the
chunk does not end with a CR.  `m` is the memory as the loop finds it from the
read pointer on. -/
theorem strip_loop_chunk (env : Env) (m : Mem) (lo : Nat) (fuel : Nat) (a b : Strip)
    (hs : same_chunk lo a b) (hd : a.destp ≤ a.buf)
    (hm : ∀ x, a.buf ≤ x → a.mem x = m x)
    (hE : a.buflen ≠ 0 → m (a.buf + a.buflen - 1) ≠ CR) :
    same_chunk lo (strip_loop env fuel a) (strip_loop env fuel b) := by
  induction fuel generalizing a b with
  | zero => exact hs
  | succ fuel ih =>
    obtain ⟨s1, s2, s3, s4, s5, s6, s7⟩ := hs
    rcases Nat.eq_zero_or_pos a.buflen with h0 | hlen
    · rw [strip_loop_done env _ a h0, strip_loop_done env _ b (by omega)]
      exact ⟨s1, s2, s3, s4, s5, s6, s7⟩
    · obtain ⟨n, hn⟩ : ∃ n, a.buflen = n + 1 := ⟨a.buflen - 1, by omega⟩
      rw [strip_loop_step env fuel n a hn, strip_loop_step env fuel n b (by omega)]
      have hab : a.mem a.buf = b.mem b.buf := by
        rw [← s1]
        exact s6 _ (le_refl _) (by omega)
      have hlast : m (a.buf + n) ≠ CR := by
        have := hE (by omega)
        rw [hn] at this
        exact this
      by_cases hc : a.mem a.buf = CR
      · have hcb : b.mem b.buf = CR := by rw [← hab]; exact hc
        by_cases hb : env.out_byte ≠ 0 ∧ a.g.dos_report_unix_offset = 0
        · have ea : strip_body env { a with buflen := n } =
              record_run env { a with buflen := n, buf := a.buf + 1 } := by
            unfold strip_body
            rw [if_neg (by simpa using hc), if_pos hb]
          have eb : strip_body env { b with buflen := n } =
              record_run env { b with buflen := n, buf := b.buf + 1 } := by
            unfold strip_body
            rw [if_neg (by simpa using hcb), if_pos (by rw [← s5]; exact hb)]
          have hLn := run_len_le a.mem (a.buf + 1) n
          have hL : run_len a.mem (a.buf + 1) n < n := by
            rcases Nat.lt_or_ge (run_len a.mem (a.buf + 1) n) n with h | h
            · exact h
            · exfalso
              rcases Nat.eq_zero_or_pos n with hz | hp
              · apply hlast
                rw [hz, ← hm _ (by omega)]
                exact hc
              · apply hlast
                rw [← hm _ (by omega)]
                exact run_len_all_cr a.mem (a.buf + 1) n _ (by omega) (by omega)
          obtain ⟨r1, r2, r3⟩ := record_run_congr env
            { a with buflen := n, buf := a.buf + 1 } { b with buflen := n, buf := b.buf + 1 }
            (by simp only []; omega) s2 rfl s5
            (fun x hx1 hx2 => s6 x (by simp only [] at hx1; omega)
              (by simp only [] at hx2; omega))
            (s6 _ (by simp only []; omega) (by simp only []; omega))
          have hbuf := record_run_buf env { a with buflen := n, buf := a.buf + 1 }
          have hbl := record_run_buflen env { a with buflen := n, buf := a.buf + 1 }
          have hmem := record_run_mem env { a with buflen := n, buf := a.buf + 1 }
          have hmemb := record_run_mem env { b with buflen := n, buf := b.buf + 1 }
          have hde := record_run_destp env { a with buflen := n, buf := a.buf + 1 }
          have hdeb := record_run_destp env { b with buflen := n, buf := b.buf + 1 }
          have hby := record_run_bytes_left env { a with buflen := n, buf := a.buf + 1 }
          have hbyb := record_run_bytes_left env { b with buflen := n, buf := b.buf + 1 }
          simp only [] at hbuf hbl hmem hmemb hde hdeb hby hbyb
          rw [ea, eb]
          apply ih
          · refine ⟨r2, by rw [hde, hdeb]; exact s2, r3, by rw [hby, hbyb]; exact s4, r1, ?_, ?_⟩
            · intro x hx1 hx2
              rw [hmem, hmemb]
              rw [hbuf] at hx1 hx2
              rw [hbl] at hx2
              exact s6 x (by omega) (by omega)
            · intro x hx1 hx2
              rw [hmem, hmemb]
              rw [hde] at hx2
              exact s7 x hx1 hx2
          · rw [hde, hbuf]; omega
          · intro x hx
            rw [hmem]
            rw [hbuf] at hx
            exact hm x (by omega)
          · intro _
            rw [hbuf, hbl]
            rw [show a.buf + 1 + run_len a.mem (a.buf + 1) n
              + (n - run_len a.mem (a.buf + 1) n) - 1 = a.buf + n by omega]
            exact hlast
        · have ea : strip_body env { a with buflen := n } =
              { a with buflen := n, buf := a.buf + 1 } := by
            unfold strip_body
            rw [if_neg (by simpa using hc), if_neg hb]
          have eb : strip_body env { b with buflen := n } =
              { b with buflen := n, buf := b.buf + 1 } := by
            unfold strip_body
            rw [if_neg (by simpa using hcb), if_neg (by rw [← s5]; exact hb)]
          rw [ea, eb]
          apply ih
          · refine ⟨by simp only []; omega, s2, rfl, s4, s5, ?_, s7⟩
            intro x hx1 hx2
            simp only [] at hx1 hx2 ⊢
            exact s6 x (by omega) (by omega)
          · simp only []; omega
          · intro x hx
            simp only [] at hx ⊢
            exact hm x (by omega)
          · intro hne
            simp only [] at hne ⊢
            rw [show a.buf + 1 + n - 1 = a.buf + n by omega]
            exact hlast
      · have hcb : b.mem b.buf ≠ CR := by rw [← hab]; exact hc
        rw [strip_body_other env { a with buflen := n } hc,
          strip_body_other env { b with buflen := n } hcb]
        apply ih
        · refine ⟨by simp only []; omega, by simp only []; omega, rfl,
            by simp only []; omega, s5, ?_, ?_⟩
          · intro x hx1 hx2
            simp only [] at hx1 hx2 ⊢
            unfold store
            rw [if_neg (by omega), if_neg (by omega)]
            exact s6 x (by omega) (by omega)
          · intro x hx1 hx2
            simp only [] at hx2 ⊢
            unfold store
            by_cases hx : x = a.destp
            · rw [if_pos hx, if_pos (by omega)]
              exact hab
            · rw [if_neg hx, if_neg (by omega)]
              exact s7 x hx1 (by omega)
        · simp only []; omega
        · intro x hx
          simp only [] at hx ⊢
          unfold store
          rw [if_neg (by omega)]
          exact hm x (by omega)
        · intro hne
          simp only [] at hne ⊢
          rw [show a.buf + 1 + n - 1 = a.buf + n by omega]
          exact hlast

theorem classify_congr (m1 m2 : Mem) (buf buflen : Nat) (g : Globals)
    (hm : ∀ x, buf ≤ x → x < buf + buflen → m1 x = m2 x) :
    classify m1 buf buflen g = classify m2 buf buflen g := by
  unfold classify guess_type
  rw [guess_type_loop_congr m1 m2 buflen buf false hm]

/-- The stripping step depends on the memory only through the chunk, when the
chunk does not end with a CR. -/
theorem strip_congr (env : Env) (g : Globals) (m1 m2 : Mem) (buf buflen : Nat)
    (hm : ∀ x, buf ≤ x → x < buf + buflen → m1 x = m2 x)
    (hend : buflen ≠ 0 → m1 (buf + buflen - 1) ≠ CR) :
    (strip env m1 buf buflen g).ret = (strip env m2 buf buflen g).ret
    ∧ (strip env m1 buf buflen g).g = (strip env m2 buf buflen g).g
    ∧ (∀ x, buf ≤ x → x < buf + (strip env m1 buf buflen g).ret →
        (strip env m1 buf buflen g).mem x = (strip env m2 buf buflen g).mem x) := by
  unfold strip
  by_cases ht : g.dos_file_type = File_type.DOS_TEXT
  · rw [if_pos ht, if_pos ht]
    obtain ⟨-, s2, -, s4, s5, -, s7⟩ := strip_loop_chunk env m1 buf buflen
      { mem := m1, buf := buf, destp := buf, buflen := buflen, bytes_left := 0, g := g }
      { mem := m2, buf := buf, destp := buf, buflen := buflen, bytes_left := 0, g := g }
      ⟨rfl, rfl, rfl, rfl, rfl, hm, fun x h1 h2 => by simp only [] at h2; omega⟩
      (le_refl _) (fun _ _ => rfl) hend
    obtain ⟨b1, b2, -⟩ := strip_loop_bytes env buflen
      { mem := m1, buf := buf, destp := buf, buflen := buflen, bytes_left := 0, g := g }
      (le_refl _) (le_refl _)
    simp only [] at b1 b2
    refine ⟨s4, s5, ?_⟩
    intro x hx1 hx2
    simp only [] at hx2 ⊢
    exact s7 x hx1 (by rw [b1]; rw [b2] at hx2; omega)
  · rw [if_neg ht, if_neg ht]
    exact ⟨rfl, rfl, fun x hx1 hx2 => hm x hx1 hx2⟩

/-- The call for a new file whose chunk does not end with a CR depends on the
chunk and the configuration only: from any two sets of globals with the same
configuration (`dos_use_file_type`, `dos_report_unix_offset`) and any two
memories that hold the same chunk, the two calls return the same length and
leave the same bytes in the chunk, the same CR count, classification and
cursors and, when the table is not empty, the same table entries
`0 .. dos_pos_map_used`. -/
theorem undossify_input_chunk_only (env : Env) (g1 g2 : Globals) (m1 m2 : Mem)
    (buf buflen : Nat)
    (hO : env.O_BINARY ≠ 0) (h0 : env.totalcc = 0)
    (hu : g1.dos_use_file_type = g2.dos_use_file_type)
    (hr : g1.dos_report_unix_offset = g2.dos_report_unix_offset)
    (hm : ∀ x, buf ≤ x → x < buf + buflen → m1 x = m2 x)
    (hend : buflen ≠ 0 → m1 (buf + buflen - 1) ≠ CR) :
    (undossify_input env g1 m1 buf buflen).ret = (undossify_input env g2 m2 buf buflen).ret
    ∧ (∀ x, buf ≤ x → x < buf + (undossify_input env g1 m1 buf buflen).ret →
        (undossify_input env g1 m1 buf buflen).mem x
          = (undossify_input env g2 m2 buf buflen).mem x)
    ∧ (undossify_input env g1 m1 buf buflen).g.dos_stripped_crs =
        (undossify_input env g2 m2 buf buflen).g.dos_stripped_crs
    ∧ (undossify_input env g1 m1 buf buflen).g.dos_file_type =
        (undossify_input env g2 m2 buf buflen).g.dos_file_type
    ∧ (undossify_input env g1 m1 buf buflen).g.inp_map_idx =
        (undossify_input env g2 m2 buf buflen).g.inp_map_idx
    ∧ (undossify_input env g1 m1 buf buflen).g.out_map_idx =
        (undossify_input env g2 m2 buf buflen).g.out_map_idx
    ∧ (undossify_input env g1 m1 buf buflen).g.dos_pos_map_used =
        (undossify_input env g2 m2 buf buflen).g.dos_pos_map_used
    ∧ ((undossify_input env g1 m1 buf buflen).g.dos_pos_map_used ≠ 0 →
        ∀ i, 0 ≤ i → i ≤ (undossify_input env g1 m1 buf buflen).g.dos_pos_map_used →
          (undossify_input env g1 m1 buf buflen).g.dos_pos_map i =
            (undossify_input env g2 m2 buf buflen).g.dos_pos_map i) := by
  obtain ⟨-, -, a1, a2, a3, a4, a5, a6, a7, a8⟩ :=
    undossify_input_new_file env g1 g2 m1 buf buflen hO h0 hu hr
  have e1 : undossify_input env g2 m1 buf buflen =
      strip env m1 buf buflen (classify m1 buf buflen (new_file_reset env g2)) := by
    unfold undossify_input; rw [if_neg hO]
  have e2 : undossify_input env g2 m2 buf buflen =
      strip env m2 buf buflen (classify m1 buf buflen (new_file_reset env g2)) := by
    unfold undossify_input; rw [if_neg hO, classify_congr m1 m2 buf buflen _ hm]
  obtain ⟨c1, c2, c3⟩ := strip_congr env (classify m1 buf buflen (new_file_reset env g2))
    m1 m2 buf buflen hm hend
  rw [← e1, ← e2] at c1 c2 c3
  rw [← c2]
  refine ⟨a1.trans c1, ?_, a3, a4, a5, a6, a7, a8⟩
  intro x hx1 hx2
  rw [a2]
  exact c3 x hx1 (by rw [← a1]; exact hx2)

theorem undossify_input_chunk_only_witness :
    (env_dos.O_BINARY ≠ 0 ∧ env_dos.totalcc = 0
      ∧ after_two_files.dos_use_file_type = (initial blank_table).dos_use_file_type
      ∧ after_two_files.dos_report_unix_offset = (initial blank_table).dos_report_unix_offset
      ∧ (∀ x, 0 ≤ x → x < 0 + 7 →
          memOf dos_text 0 x = read_into (memOf crlf_lines 0) 0 dos_text x)
      ∧ memOf dos_text 0 7 ≠ read_into (memOf crlf_lines 0) 0 dos_text 7
      ∧ ((7 : Nat) ≠ 0 → memOf dos_text 0 (0 + 7 - 1) ≠ CR))
    ∧ (undossify_input env_dos after_two_files (memOf dos_text 0) 0 7).g.dos_pos_map_used = 3
    ∧ ∀ i, 0 ≤ i →
        i ≤ (undossify_input env_dos after_two_files (memOf dos_text 0) 0 7).g.dos_pos_map_used →
        (undossify_input env_dos after_two_files (memOf dos_text 0) 0 7).g.dos_pos_map i
          = (undossify_input env_dos (initial blank_table)
              (read_into (memOf crlf_lines 0) 0 dos_text) 0 7).g.dos_pos_map i :=
  ⟨⟨by decide, by decide, by decide, by decide, by decide, by decide, by decide⟩,
   by decide,
   (undossify_input_chunk_only env_dos after_two_files (initial blank_table)
      (memOf dos_text 0) (read_into (memOf crlf_lines 0) 0 dos_text) 0 7
      (by decide) (by decide) (by decide) (by decide) (by decide) (by decide)).2.2.2.2.2.2.2
      (by decide)⟩

/-- C9 fails on the code: two new files (`totalcc = 0`) with the same
configuration and the same one-chunk content "CR LF a CR" get different
table entries, by what the file before them left in the buffer.  The buffer
at address 0 held the five-byte file "abcd LF" or "abcde" (UNIX text, passed
through unchanged); the four bytes of the next file overwrite its first four
bytes.  The chunk ends with a CR, so line 169 looks at
`buf[buflen]`, the fifth byte of the previous file: entry 2 is (3, 1) after
"abcd LF" and (2, 1) after "abcde", while the returned length, the bytes left
in the chunk, `dos_stripped_crs`, the classification and `dos_pos_map_used`
are the same. -/
theorem new_file_entry_from_previous_file :
    env_dos.O_BINARY ≠ 0 ∧ env_dos.totalcc = 0
    ∧ after_abcd_lf.ret = 5 ∧ after_abcde.ret = 5
    ∧ after_abcd_lf.g.dos_file_type = File_type.UNIX_TEXT
    ∧ after_abcde.g.dos_file_type = File_type.UNIX_TEXT
    ∧ chunk after_abcd_lf.mem 0 5 = abcd_lf ∧ chunk after_abcde.mem 0 5 = abcde
    ∧ after_abcd_lf.g.dos_use_file_type = after_abcde.g.dos_use_file_type
    ∧ after_abcd_lf.g.dos_report_unix_offset = after_abcde.g.dos_report_unix_offset
    ∧ chunk (read_into after_abcd_lf.mem 0 cr_at_end) 0 4 = cr_at_end
    ∧ chunk (read_into after_abcde.mem 0 cr_at_end) 0 4 = cr_at_end
    ∧ (next_file after_abcd_lf).ret = 2 ∧ (next_file after_abcde).ret = 2
    ∧ chunk (next_file after_abcd_lf).mem 0 2 = chunk (next_file after_abcde).mem 0 2
    ∧ (next_file after_abcd_lf).g.dos_stripped_crs = 2
    ∧ (next_file after_abcde).g.dos_stripped_crs = 2
    ∧ (next_file after_abcd_lf).g.dos_file_type = File_type.DOS_TEXT
    ∧ (next_file after_abcde).g.dos_file_type = File_type.DOS_TEXT
    ∧ (next_file after_abcd_lf).g.dos_pos_map_used = 3
    ∧ (next_file after_abcde).g.dos_pos_map_used = 3
    ∧ table_prefix (next_file after_abcd_lf).g 4 = [⟨0, 0⟩, ⟨1, 0⟩, ⟨3, 1⟩, ⟨3, 2⟩]
    ∧ table_prefix (next_file after_abcde).g 4 = [⟨0, 0⟩, ⟨1, 0⟩, ⟨2, 1⟩, ⟨3, 2⟩]
    ∧ (next_file after_abcd_lf).g.dos_pos_map 2 ≠ (next_file after_abcde).g.dos_pos_map 2 := by
  decide

/-! ## The concrete scenario -/

/-- C4 as stated fails: the text "line1 CR LF line2 CR LF line3" has 19 bytes,
not 20, and `undossify_input` returns 17 for it, not 18; with a terminating
NUL as twentieth byte the chunk is classified DOS_BINARY and 20 is returned. -/
theorem scenario_lengths_refuted :
    crlf_lines.length = 19
    ∧ (undossify_input env_dos (initial blank_table) (memOf crlf_lines 0) 0 19).ret = 17
    ∧ (undossify_input env_dos (initial blank_table) (memOf crlf_lines NUL) 0 20).ret = 20
    ∧ (undossify_input env_dos (initial blank_table) (memOf crlf_lines NUL) 0 20).g.dos_file_type
        = File_type.DOS_BINARY
    ∧ lf_lines.length = 17
    ∧ ¬ (crlf_lines.length = 20
        ∧ (undossify_input env_dos (initial blank_table) (memOf crlf_lines 0) 0
            crlf_lines.length).ret = 18) := by
  decide

/-- C4, amended: from the initial state (`totalcc = 0`, no type override,
bookkeeping active, `bufbeg` at the chunk), `undossify_input` on the 19 bytes
"line1 CR LF line2 CR LF line3" classifies the file as DOS_TEXT, returns 17
and leaves the 17 bytes "line1 LF line2 LF line3" at the start of the buffer;
the table then holds (0,0), (6,0), (12,1), (12,2) and a following
`dossified_pos (6)` returns 7. -/
theorem scenario_crlf_lines :
    chunk (memOf crlf_lines 0) 0 19 = crlf_lines
    ∧ (undossify_input env_dos (initial blank_table) (memOf crlf_lines 0) 0 19).g.dos_file_type
        = File_type.DOS_TEXT
    ∧ (undossify_input env_dos (initial blank_table) (memOf crlf_lines 0) 0 19).ret = 17
    ∧ chunk (undossify_input env_dos (initial blank_table) (memOf crlf_lines 0) 0 19).mem 0 17
        = lf_lines
    ∧ table_prefix (undossify_input env_dos (initial blank_table) (memOf crlf_lines 0) 0 19).g 4
        = [⟨0, 0⟩, ⟨6, 0⟩, ⟨12, 1⟩, ⟨12, 2⟩]
    ∧ (undossify_input env_dos (initial blank_table) (memOf crlf_lines 0) 0 19).g.dos_pos_map_used
        = 3
    ∧ (dossified_pos env_dos
        (undossify_input env_dos (initial blank_table) (memOf crlf_lines 0) 0 19).g 6).1 = 7 := by
  decide

/-! ## The cursor search steps past the last entry -/

/-- C5 fails on the code: after the file `two_crlf` and then the file
`four_cr` (table (0,0), (1,0), (1,4), used = 2, entry 3 still (2,2) from the
first file) the calls `dossified_pos (1)`, `dossified_pos (2)` return 5 and 4
while the from-scratch search gives 5 and 6: the second call starts with the
cursor at `dos_pos_map_used`, line 299 increments it to 3 and line 312 reads
entry 3.  With `four_cr` as the first file of the process the same calls read
the never written entry 3 of the new table. -/
theorem cursor_search_differs_from_naive :
    table_prefix after_two_files 4 = [⟨0, 0⟩, ⟨1, 0⟩, ⟨1, 4⟩, ⟨2, 2⟩]
    ∧ after_two_files.dos_pos_map_used = 2
    ∧ after_two_files.dos_file_type = File_type.DOS_TEXT
    ∧ (dossified_seq env_dos after_two_files [1, 2]).1 = [5, 4]
    ∧ [naive_pos after_two_files 1, naive_pos after_two_files 2] = [5, 6]
    ∧ (dossified_seq env_dos after_two_files [1, 2]).2.out_map_idx = 3
    ∧ after_four_cr.dos_pos_map_used = 2
    ∧ (dossified_seq env_dos after_four_cr [1, 2]).2.out_map_idx = 3
    ∧ (dossified_seq env_dos after_four_cr [1, 2]).1 = [5, 2 + (blank_table 3).add]
    ∧ [naive_pos after_four_cr 1, naive_pos after_four_cr 2] = [5, 6] := by
  decide

/-- C6 fails on the code: the file `four_cr` is normalized to the 2 bytes LF,
"a"; read after the file `two_crlf`, the calls `dossified_pos` on 0, 1, 2 in
this order return 0, 5, 4, and read as the first file of the process (table
blank before) they return 0, 5, 2: neither sequence is non-decreasing. -/
theorem offsets_not_monotone :
    (undossify_input env_dos
        (undossify_input env_dos (initial blank_table) (memOf two_crlf 0) 0 4).g
        (memOf four_cr 0) 0 6).ret = 2
    ∧ (dossified_seq env_dos after_two_files [0, 1, 2]).1 = [0, 5, 4]
    ∧ ¬ List.Sorted (fun a b : Int => a ≤ b) (dossified_seq env_dos after_two_files [0, 1, 2]).1
    ∧ (dossified_seq env_dos after_four_cr [0, 1, 2]).1 = [0, 5, 2]
    ∧ ¬ List.Sorted (fun a b : Int => a ≤ b) (dossified_seq env_dos after_four_cr [0, 1, 2]).1 := by
  refine ⟨by decide, by decide, ?_, by decide, ?_⟩
  · rw [show (dossified_seq env_dos after_two_files [0, 1, 2]).1 = [0, 5, 4] by decide]
    decide
  · rw [show (dossified_seq env_dos after_four_cr [0, 1, 2]).1 = [0, 5, 2] by decide]
    decide

/-! ## The stripping loop: the table -/

/-- The table index the next CR run is recorded at: 1 when the table is still
empty (the sentinel takes index 0), `inp_map_idx` otherwise. -/
theorem record_run_table (env : Env) (st : Strip) :
    (record_run env st).g.inp_map_idx =
        (if st.g.inp_map_idx = 0 then 1 else st.g.inp_map_idx) + 1
    ∧ (record_run env st).g.dos_pos_map_used = (record_run env st).g.inp_map_idx
    ∧ (record_run env st).g.dos_stripped_crs =
        st.g.dos_stripped_crs + 1 + (run_len st.mem st.buf st.buflen : Int)
    ∧ ((record_run env st).g.dos_pos_map
          (if st.g.inp_map_idx = 0 then 1 else st.g.inp_map_idx)).pos =
        ((st.destp : Int) + (lf_shift st.mem (st.buf + run_len st.mem st.buf st.buflen) : Int))
          - (env.bufbeg : Int) + (env.totalcc : Int)
    ∧ ((record_run env st).g.dos_pos_map
          ((if st.g.inp_map_idx = 0 then 1 else st.g.inp_map_idx) + 1)).add =
        st.g.dos_stripped_crs + 1 + (run_len st.mem st.buf st.buflen : Int)
    ∧ ((record_run env st).g.dos_pos_map
          ((if st.g.inp_map_idx = 0 then 1 else st.g.inp_map_idx) + 1)).pos =
        (st.destp : Int) - (env.bufbeg : Int) + (env.totalcc : Int) + 1
    ∧ (st.g.inp_map_idx ≠ 0 →
        (∀ i, i < st.g.inp_map_idx → (record_run env st).g.dos_pos_map i = st.g.dos_pos_map i)
        ∧ ((record_run env st).g.dos_pos_map st.g.inp_map_idx).add =
            (st.g.dos_pos_map st.g.inp_map_idx).add)
    ∧ (st.g.inp_map_idx = 0 →
        (record_run env st).g.dos_pos_map 0 = ⟨0, 0⟩
        ∧ ((record_run env st).g.dos_pos_map 1).add = 0)
    ∧ (∀ i, (if st.g.inp_map_idx = 0 then 1 else st.g.inp_map_idx) + 1 < i →
        (record_run env st).g.dos_pos_map i = st.g.dos_pos_map i) := by
  have hs := skip_crs_eq st.mem st.buflen st.buf (st.g.dos_stripped_crs + 1)
  by_cases hz : st.g.inp_map_idx = 0
  · simp only [record_run, hs, hz, if_true, lf_shift]
    refine ⟨by norm_num, trivial, trivial, ?_, ?_, ?_, ?_, ?_, ?_⟩
    · simp only [setPos, setAdd]
      by_cases hl : st.mem (st.buf + run_len st.mem st.buf st.buflen) = LF
      · simp [hl]
      · simp [hl]
    · simp [setPos, setAdd]
    · simp [setPos, setAdd]
    · intro h; exact absurd rfl h
    · intro _; simp [setPos, setAdd]
    · intro i hi
      have h1 : i ≠ 0 := by omega
      have h2 : i ≠ 1 := by omega
      have h3 : i ≠ 2 := by omega
      simp [setPos, setAdd, h1, h2, h3]
  · simp only [record_run, hs, hz, if_false, lf_shift]
    refine ⟨trivial, trivial, trivial, ?_, ?_, ?_, ?_, ?_, ?_⟩
    · simp only [setPos, setAdd]
      by_cases hl : st.mem (st.buf + run_len st.mem st.buf st.buflen) = LF
      · simp [hl]
      · simp [hl]
    · simp [setPos, setAdd]
    · simp [setPos, setAdd]
    · intro _
      refine ⟨?_, ?_⟩
      · intro i hi
        have h1 : i ≠ st.g.inp_map_idx := by omega
        have h2 : i ≠ st.g.inp_map_idx + 1 := by omega
        simp [setPos, setAdd, h1, h2]
      · simp [setPos, setAdd]
    · intro h; exact h.elim
    · intro i hi
      have h1 : i ≠ st.g.inp_map_idx := by omega
      have h2 : i ≠ st.g.inp_map_idx + 1 := by omega
      simp [setPos, setAdd, h1, h2]

/-! ### Counting lemmas -/

theorem crs_in_zero (m : Mem) (p : Nat) : crs_in m p 0 = 0 := rfl

theorem kept_in_zero (m : Mem) (p : Nat) : kept_in m p 0 = 0 := rfl

theorem crs_in_succ_cr (m : Mem) (p n : Nat) (h : m p = CR) :
    crs_in m p (n + 1) = crs_in m (p + 1) n + 1 := by
  simp [crs_in, chunk, h]

theorem crs_in_succ_other (m : Mem) (p n : Nat) (h : m p ≠ CR) :
    crs_in m p (n + 1) = crs_in m (p + 1) n := by
  unfold crs_in
  rw [chunk, List.count_cons_of_ne (Ne.symm h)]

theorem kept_in_succ_cr (m : Mem) (p n : Nat) (h : m p = CR) :
    kept_in m p (n + 1) = kept_in m (p + 1) n := by
  simp [kept_in, chunk, h]

theorem kept_in_succ_other (m : Mem) (p n : Nat) (h : m p ≠ CR) :
    kept_in m p (n + 1) = kept_in m (p + 1) n + 1 := by
  simp [kept_in, chunk, h]

theorem kept_add_crs (m : Mem) (p n : Nat) : kept_in m p n + crs_in m p n = n := by
  have := filter_length_add_count (chunk m p n)
  rw [chunk_length] at this
  exact this

/-- Over `k` CR bytes nothing is kept and `k` CRs are counted. -/
theorem crs_in_run (m : Mem) (p k n : Nat) (h : ∀ x, x < k → m (p + x) = CR) :
    crs_in m p (k + n) = k + crs_in m (p + k) n
    ∧ kept_in m p (k + n) = kept_in m (p + k) n := by
  induction k generalizing p with
  | zero => simp
  | succ k ih =>
    have h0 : m p = CR := by simpa using h 0 (by omega)
    have := ih (p + 1) (fun x hx => by
      have := h (x + 1) (by omega)
      rwa [show p + (x + 1) = p + 1 + x by omega] at this)
    rw [show k + 1 + n = (k + n) + 1 by omega, crs_in_succ_cr m p _ h0,
      kept_in_succ_cr m p _ h0, this.1, this.2,
      show p + 1 + k = p + (k + 1) by omega]
    exact ⟨by omega, rfl⟩

theorem count_runs_congr_prev (m : Mem) (n p : Nat) (h : n = 0 ∨ m p ≠ CR) :
    count_runs m n p true = count_runs m n p false := by
  cases n with
  | zero => rfl
  | succ n =>
    have hp : m p ≠ CR := by
      rcases h with h | h
      · omega
      · exact h
    simp [count_runs, hp]

/-- A CR that continues a run begins none. -/
theorem count_runs_run (m : Mem) (p k n : Nat) (h : ∀ x, x < k → m (p + x) = CR) :
    count_runs m (k + n) p true = count_runs m n (p + k) true := by
  induction k generalizing p with
  | zero => simp
  | succ k ih =>
    have h0 : m p = CR := by simpa using h 0 (by omega)
    have := ih (p + 1) (fun x hx => by
      have := h (x + 1) (by omega)
      rwa [show p + (x + 1) = p + 1 + x by omega] at this)
    rw [show k + 1 + n = (k + n) + 1 by omega, count_runs]
    simp only [h0, decide_True, Bool.true_eq_false, and_false, if_false, Nat.zero_add]
    rw [this, show p + 1 + k = p + (k + 1) by omega]

theorem runs_in_succ_other (m : Mem) (p n : Nat) (h : m p ≠ CR) :
    runs_in m p (n + 1) = runs_in m (p + 1) n := by
  simp [runs_in, count_runs, h]

/-- A run of `k + 1` CRs at the start of a region, ended by another byte or by
the end of the region, is one run. -/
theorem runs_in_run (m : Mem) (p k n : Nat) (h : ∀ x, x < k + 1 → m (p + x) = CR)
    (hstop : n = 0 ∨ m (p + (k + 1)) ≠ CR) :
    runs_in m p (k + 1 + n) = runs_in m (p + (k + 1)) n + 1 := by
  have h0 : m p = CR := by simpa using h 0 (by omega)
  unfold runs_in
  rw [show k + 1 + n = (k + n) + 1 by omega, count_runs]
  simp only [h0, decide_True, and_self, if_true]
  rw [count_runs_run m (p + 1) k n (fun x hx => by
      have := h (x + 1) (by omega)
      rwa [show p + (x + 1) = p + 1 + x by omega] at this),
    show p + 1 + k = p + (k + 1) by omega, count_runs_congr_prev m n _ hstop]
  omega

theorem run_len_congr (m1 m2 : Mem) (p n : Nat) (h : ∀ x, p ≤ x → m1 x = m2 x) :
    run_len m1 p n = run_len m2 p n := by
  induction n generalizing p with
  | zero => rfl
  | succ n ih =>
    rw [run_len, run_len, h p (le_refl _), ih (p + 1) (fun x hx => h x (by omega))]

/-- The length of the CR run at the start of a region is determined by its
being all CR and ended by another byte or the end of the region. -/
theorem run_len_unique (m : Mem) (p n j : Nat) (hj : j ≤ n)
    (hall : ∀ x, x < j → m (p + x) = CR) (hstop : j = n ∨ m (p + j) ≠ CR) :
    run_len m p n = j := by
  induction n generalizing p j with
  | zero =>
    have : j = 0 := by omega
    subst this; rfl
  | succ n ih =>
    rw [run_len]
    cases j with
    | zero =>
      have : m p ≠ CR := by
        rcases hstop with h | h
        · omega
        · simpa using h
      rw [if_neg this]
    | succ j =>
      have h0 : m p = CR := by simpa using hall 0 (by omega)
      rw [if_pos h0, ih (p + 1) j (by omega) (fun x hx => by
        have := hall (x + 1) (by omega)
        rwa [show p + (x + 1) = p + 1 + x by omega] at this) (by
        rcases hstop with h | h
        · left; omega
        · right; rwa [show p + (j + 1) = p + 1 + j by omega] at h)]

/-! ### Maximal runs of a region -/

theorem max_run_empty (m : Mem) (p a k : Nat) : ¬ max_run m p 0 a k := by
  rintro ⟨h1, h2, h3, -⟩; omega

/-- When the region starts with another byte, its runs are those of the rest. -/
theorem max_run_other (m : Mem) (p n a k : Nat) (hp : m p ≠ CR)
    (h : max_run m p (n + 1) a k) : p + 1 ≤ a ∧ max_run m (p + 1) n a k := by
  obtain ⟨h1, h2, h3, h4, h5, h6⟩ := h
  have ha : a ≠ p := by
    intro e
    have := h4 0 (by omega)
    rw [e] at this
    exact hp (by simpa using this)
  refine ⟨by omega, by omega, by omega, h3, h4, ?_, ?_⟩
  · rcases h5 with h5 | h5
    · exact absurd h5 ha
    · exact Or.inr h5
  · rcases h6 with h6 | h6
    · left; omega
    · exact Or.inr h6

/-- When the region starts with `j + 1` CRs ended by another byte or the end
of the region, a run of the region is that first run or a run of the rest. -/
theorem max_run_run (m : Mem) (p n j a k : Nat) (hj : j ≤ n)
    (hall : ∀ x, x < j + 1 → m (p + x) = CR) (hstop : j = n ∨ m (p + (j + 1)) ≠ CR)
    (h : max_run m p (n + 1) a k) :
    (a = p ∧ k = j + 1) ∨ (p + (j + 1) < a ∧ max_run m (p + (j + 1)) (n - j) a k) := by
  obtain ⟨h1, h2, h3, h4, h5, h6⟩ := h
  by_cases ha : a = p
  · left
    refine ⟨ha, ?_⟩
    subst ha
    by_contra hk
    rcases Nat.lt_or_gt_of_ne hk with hlt | hgt
    · -- the run stops early although a CR follows
      rcases h6 with h6 | h6
      · omega
      · exact h6 (hall k hlt)
    · rcases hstop with hs | hs
      · omega
      · exact hs (h4 (j + 1) hgt)
  · right
    have hpa : p < a := by omega
    have hprev : m (a - 1) ≠ CR := by
      rcases h5 with h5 | h5
      · exact absurd h5 ha
      · exact h5
    have hgt : p + (j + 1) < a := by
      by_contra hle
      have hle : a ≤ p + (j + 1) := by omega
      by_cases he : a = p + (j + 1)
      · -- the byte at `a` is a CR but the first run is stopped there
        have hc := h4 0 (by omega)
        rcases hstop with hs | hs
        · omega
        · rw [he] at hc; exact hs (by simpa using hc)
      · have := hall (a - 1 - p) (by omega)
        rw [show p + (a - 1 - p) = a - 1 by omega] at this
        exact hprev this
    refine ⟨hgt, by omega, by omega, h3, h4, Or.inr hprev, ?_⟩
    rcases h6 with h6 | h6
    · left; omega
    · exact Or.inr h6

/-! ### What the loop leaves alone -/

theorem strip_body_config (env : Env) (st : Strip) :
    (strip_body env st).g.dos_report_unix_offset = st.g.dos_report_unix_offset
    ∧ (strip_body env st).g.dos_file_type = st.g.dos_file_type
    ∧ (strip_body env st).g.dos_use_file_type = st.g.dos_use_file_type
    ∧ (strip_body env st).g.out_map_idx = st.g.out_map_idx := by
  unfold strip_body
  split
  · exact ⟨rfl, rfl, rfl, rfl⟩
  · split
    · exact ⟨rfl, rfl, rfl, rfl⟩
    · exact ⟨rfl, rfl, rfl, rfl⟩

theorem strip_loop_config (env : Env) (fuel : Nat) (st : Strip) :
    (strip_loop env fuel st).g.dos_report_unix_offset = st.g.dos_report_unix_offset
    ∧ (strip_loop env fuel st).g.dos_file_type = st.g.dos_file_type
    ∧ (strip_loop env fuel st).g.dos_use_file_type = st.g.dos_use_file_type
    ∧ (strip_loop env fuel st).g.out_map_idx = st.g.out_map_idx := by
  induction fuel generalizing st with
  | zero => exact ⟨rfl, rfl, rfl, rfl⟩
  | succ fuel ih =>
    rcases Nat.eq_zero_or_pos st.buflen with h0 | hpos
    · rw [strip_loop_done env _ st h0]
      exact ⟨rfl, rfl, rfl, rfl⟩
    · obtain ⟨n, hn⟩ : ∃ n, st.buflen = n + 1 := ⟨st.buflen - 1, by omega⟩
      rw [strip_loop_step env fuel n st hn]
      obtain ⟨i1, i2, i3, i4⟩ := ih (strip_body env { st with buflen := n })
      obtain ⟨b1, b2, b3, b4⟩ := strip_body_config env { st with buflen := n }
      exact ⟨i1.trans b1, i2.trans b2, i3.trans b3, i4.trans b4⟩

/-- One iteration either leaves the globals alone or records a run. -/
theorem strip_body_globals (env : Env) (st : Strip) :
    (strip_body env st).g = st.g
    ∨ (st.mem st.buf = CR ∧ (env.out_byte ≠ 0 ∧ st.g.dos_report_unix_offset = 0)
        ∧ ∃ st1 : Strip, strip_body env st = record_run env st1 ∧ st1.g = st.g
            ∧ st1.mem = st.mem ∧ st1.buf = st.buf + 1 ∧ st1.destp = st.destp
            ∧ st1.buflen = st.buflen ∧ st1.bytes_left = st.bytes_left) := by
  unfold strip_body
  by_cases hc : st.mem st.buf ≠ CR
  · rw [if_pos hc]; exact Or.inl rfl
  · rw [if_neg hc]
    by_cases hb : env.out_byte ≠ 0 ∧ st.g.dos_report_unix_offset = 0
    · rw [if_pos hb]
      exact Or.inr ⟨by simpa using hc, hb, _, rfl, rfl, rfl, rfl, rfl, rfl, rfl⟩
    · rw [if_neg hb]; exact Or.inl rfl

/-- Once the table is in use, the loop never again changes an entry below
`inp_map_idx`, nor the `add` of the entry at `inp_map_idx`, and `inp_map_idx`
does not decrease. -/
theorem strip_loop_frame (env : Env) (fuel : Nat) (st : Strip) (hpos : 0 < st.g.inp_map_idx) :
    (∀ i, i < st.g.inp_map_idx →
        (strip_loop env fuel st).g.dos_pos_map i = st.g.dos_pos_map i)
    ∧ ((strip_loop env fuel st).g.dos_pos_map st.g.inp_map_idx).add =
        (st.g.dos_pos_map st.g.inp_map_idx).add
    ∧ st.g.inp_map_idx ≤ (strip_loop env fuel st).g.inp_map_idx := by
  induction fuel generalizing st with
  | zero => exact ⟨fun _ _ => rfl, rfl, le_refl _⟩
  | succ fuel ih =>
    rcases Nat.eq_zero_or_pos st.buflen with h0 | hlen
    · rw [strip_loop_done env _ st h0]
      exact ⟨fun _ _ => rfl, rfl, le_refl _⟩
    · obtain ⟨n, hn⟩ : ∃ n, st.buflen = n + 1 := ⟨st.buflen - 1, by omega⟩
      rw [strip_loop_step env fuel n st hn]
      rcases strip_body_globals env { st with buflen := n } with hg | ⟨-, -, st1, hr, hg1, -⟩
      · have := ih (strip_body env { st with buflen := n }) (by rw [hg]; exact hpos)
        rw [hg] at this
        exact this
      · have hg1 : st1.g = st.g := hg1
        have hne : st1.g.inp_map_idx ≠ 0 := by rw [hg1]; omega
        obtain ⟨t1, -, -, -, -, -, t7, -, -⟩ := record_run_table env st1
        rw [if_neg hne] at t1
        obtain ⟨t7a, t7b⟩ := t7 hne
        rw [hr]
        obtain ⟨i1, i2, i3⟩ := ih (record_run env st1) (by rw [t1, hg1]; omega)
        rw [t1] at i1 i3
        rw [hg1] at i1 i3 t7a t7b
        refine ⟨?_, ?_, by omega⟩
        · intro i hi
          rw [i1 i (by omega), t7a i hi]
        · rw [i1 _ (by omega), t7b]

/-- With the bookkeeping active, the iteration that meets a CR records a run. -/
theorem strip_body_run (env : Env) (st : Strip) (hc : st.mem st.buf = CR)
    (hb : env.out_byte ≠ 0 ∧ st.g.dos_report_unix_offset = 0) :
    ∃ st1 : Strip, strip_body env st = record_run env st1 ∧ st1.g = st.g
      ∧ st1.mem = st.mem ∧ st1.buf = st.buf + 1 ∧ st1.destp = st.destp
      ∧ st1.buflen = st.buflen ∧ st1.bytes_left = st.bytes_left := by
  unfold strip_body
  rw [if_neg (by simpa using hc), if_pos hb]
  exact ⟨_, rfl, rfl, rfl, rfl, rfl, rfl, rfl⟩

/-- The table the loop builds, run by run.  `m` is the memory as the loop
finds it from the read pointer on.  The run that begins at `a` is recorded at
the index `base + (number of runs that begin before a)`, where `base` is 1 for
an empty table and `inp_map_idx` otherwise: its `pos` is the write position at
the run (plus one when LF follows), and the entry after it carries the CR
count up to and including the run. -/
theorem strip_loop_table (env : Env) (m : Mem) (fuel : Nat) (st : Strip)
    (hb : env.out_byte ≠ 0 ∧ st.g.dos_report_unix_offset = 0)
    (hd : st.destp ≤ st.buf) (hf : st.buflen ≤ fuel)
    (hm : ∀ x, st.buf ≤ x → st.mem x = m x) (hi : 0 ≤ st.g.inp_map_idx) :
    (strip_loop env fuel st).g.dos_stripped_crs =
        st.g.dos_stripped_crs + (crs_in m st.buf st.buflen : Int)
    ∧ (strip_loop env fuel st).g.inp_map_idx =
        (if runs_in m st.buf st.buflen = 0 then st.g.inp_map_idx
         else (if st.g.inp_map_idx = 0 then 1 else st.g.inp_map_idx)
            + (runs_in m st.buf st.buflen : Int))
    ∧ (strip_loop env fuel st).g.dos_pos_map_used =
        (if runs_in m st.buf st.buflen = 0 then st.g.dos_pos_map_used
         else (strip_loop env fuel st).g.inp_map_idx)
    ∧ ∀ a k, max_run m st.buf st.buflen a k →
        ((strip_loop env fuel st).g.dos_pos_map
            ((if st.g.inp_map_idx = 0 then 1 else st.g.inp_map_idx)
              + (runs_in m st.buf (a - st.buf) : Int))).pos
          = (st.destp : Int) + (kept_in m st.buf (a - st.buf) : Int) + (lf_shift m (a + k) : Int)
              - (env.bufbeg : Int) + (env.totalcc : Int)
        ∧ ((strip_loop env fuel st).g.dos_pos_map
            ((if st.g.inp_map_idx = 0 then 1 else st.g.inp_map_idx)
              + (runs_in m st.buf (a - st.buf) : Int) + 1)).add
          = st.g.dos_stripped_crs + (crs_in m st.buf (a - st.buf) : Int) + (k : Int) := by
  induction fuel generalizing st with
  | zero =>
    have h0 : st.buflen = 0 := by omega
    rw [strip_loop_done env _ st h0, h0]
    refine ⟨by simp [crs_in, chunk], by simp [runs_in, count_runs], by simp [runs_in, count_runs], ?_⟩
    intro a k h
    exact absurd h (max_run_empty m _ a k)
  | succ fuel ih =>
    rcases Nat.eq_zero_or_pos st.buflen with h0 | hlen
    · rw [strip_loop_done env _ st h0, h0]
      refine ⟨by simp [crs_in, chunk], by simp [runs_in, count_runs],
        by simp [runs_in, count_runs], ?_⟩
      intro a k h
      exact absurd h (max_run_empty m _ a k)
    · obtain ⟨n, hn⟩ : ∃ n, st.buflen = n + 1 := ⟨st.buflen - 1, by omega⟩
      rw [strip_loop_step env fuel n st hn, hn]
      have hmb : st.mem st.buf = m st.buf := hm _ (le_refl _)
      by_cases hc : m st.buf = CR
      · -- a run begins at the read pointer
        obtain ⟨st1, hr, hg1, hmem1, hbuf1, hdestp1, hlen1, -⟩ :=
          strip_body_run env { st with buflen := n } (by simpa [hmb] using hc) hb
        simp only [] at hg1 hmem1 hbuf1 hdestp1 hlen1
        rw [hr]
        have hL : run_len st1.mem st1.buf st1.buflen = run_len m (st.buf + 1) n := by
          rw [hmem1, hbuf1, hlen1]
          exact run_len_congr _ _ _ _ (fun x hx => hm x (by omega))
        have hLn := run_len_le m (st.buf + 1) n
        obtain ⟨t1, t2, t3, t4, t5, -, -, -, -⟩ := record_run_table env st1
        rw [hL, hg1, hdestp1, hbuf1, hmem1] at t4
        rw [hL, hg1] at t3 t5
        rw [hg1] at t1
        have hR1buf := record_run_buf env st1
        have hR1len := record_run_buflen env st1
        have hR1mem := record_run_mem env st1
        have hR1destp := record_run_destp env st1
        rw [hL, hbuf1] at hR1buf
        rw [hL, hlen1] at hR1len
        rw [hmem1] at hR1mem
        rw [hdestp1] at hR1destp
        have hR1rep : (record_run env st1).g.dos_report_unix_offset =
            st.g.dos_report_unix_offset := by
          have : (record_run env st1).g.dos_report_unix_offset =
              st1.g.dos_report_unix_offset := rfl
          rw [this, hg1]
        have hbase1 : 1 ≤ (if st.g.inp_map_idx = 0 then 1 else st.g.inp_map_idx) := by
          split <;> omega
        have hR1pos : 0 < (record_run env st1).g.inp_map_idx := by omega
        have hR1ne : (record_run env st1).g.inp_map_idx ≠ 0 := by omega
        obtain ⟨f1, f2, -⟩ := strip_loop_frame env fuel (record_run env st1) hR1pos
        obtain ⟨i1, i2, i3, i4⟩ := ih (record_run env st1) ⟨hb.1, by rw [hR1rep]; exact hb.2⟩
          (by rw [hR1destp, hR1buf]; omega) (by rw [hR1len]; omega)
          (by
            intro x hx
            rw [hR1mem]
            exact hm x (by rw [hR1buf] at hx; omega))
          (by omega)
        clear ih
        generalize hLdef : run_len m (st.buf + 1) n = L at *
        generalize hbase : (if st.g.inp_map_idx = 0 then 1 else st.g.inp_map_idx) = base at *
        generalize hR1 : record_run env st1 = R1 at *
        rw [hR1buf, hR1len] at i1 i2 i3 i4
        rw [if_neg hR1ne] at i2 i4
        have hall : ∀ x, x < L + 1 → m (st.buf + x) = CR := by
          intro x hx
          rcases Nat.eq_zero_or_pos x with hx0 | hxp
          · rw [hx0]; simpa using hc
          · apply run_len_all_cr m (st.buf + 1) n (st.buf + x) (by omega)
            rw [hLdef]; omega
        have hstop : n - L = 0 ∨ m (st.buf + (L + 1)) ≠ CR := by
          by_cases hlt : L < n
          · right
            have := run_len_stop m (st.buf + 1) n (by rw [hLdef]; exact hlt)
            rw [hLdef] at this
            rwa [show st.buf + (L + 1) = st.buf + 1 + L by omega]
          · left; omega
        have hsplit : n + 1 = (L + 1) + (n - L) := by omega
        have hcrs := crs_in_run m st.buf (L + 1) (n - L) hall
        have hruns := runs_in_run m st.buf L (n - L) hall hstop
        rw [← hsplit] at hcrs hruns
        rw [show st.buf + 1 + L = st.buf + (L + 1) by omega] at i1 i2 i3 i4 t4
        refine ⟨?_, ?_, ?_, ?_⟩
        · rw [i1, t3, hcrs.1]; push_cast; omega
        · rw [i2, t1, hruns]
          simp only [Nat.add_one_ne_zero, if_false]
          split <;> (push_cast; omega)
        · rw [i3, hruns]
          simp only [Nat.add_one_ne_zero, if_false]
          split
          · rename_i hz
            rw [i2, if_pos hz, t2]
          · rfl
        · intro a k hrun
          rcases max_run_run m st.buf n L a k hLn hall
            (by rcases hstop with h | h
                · left; omega
                · exact Or.inr h) hrun with ⟨ha, hk⟩ | ⟨hgt, hrun'⟩
          · subst ha hk
            simp only [Nat.sub_self, runs_in, count_runs, kept_in, crs_in, chunk, List.filter_nil,
              List.length_nil, List.count_nil, Nat.cast_zero, add_zero]
            rw [f1 base (by omega)]
            have hadd := f2
            rw [t1] at hadd
            have hlf : lf_shift st.mem (st.buf + (L + 1)) = lf_shift m (st.buf + (L + 1)) := by
              unfold lf_shift; rw [hm _ (by omega)]
            rw [hadd, t4, t5, hlf]
            refine ⟨by omega, by push_cast; omega⟩
          · obtain ⟨j1, j2⟩ := i4 a k hrun'
            have hstop' : m (st.buf + (L + 1)) ≠ CR := by
              rcases hstop with h | h
              · obtain ⟨-, h2, h3, -⟩ := hrun; omega
              · exact h
            have hsplit' : a - st.buf = (L + 1) + (a - (st.buf + (L + 1))) := by omega
            have hcrs' := crs_in_run m st.buf (L + 1) (a - (st.buf + (L + 1))) hall
            have hruns' := runs_in_run m st.buf L (a - (st.buf + (L + 1))) hall (Or.inr hstop')
            rw [← hsplit'] at hcrs' hruns'
            rw [hruns', hcrs'.1, hcrs'.2]
            rw [t1] at j1 j2
            rw [hR1destp] at j1
            rw [t3] at j2
            constructor
            · rw [← j1]; congr 2; push_cast; omega
            · rw [show base + ((runs_in m (st.buf + (L + 1)) (a - (st.buf + (L + 1))) + 1 : Nat) : Int)
                  + 1 = base + 1 + (runs_in m (st.buf + (L + 1)) (a - (st.buf + (L + 1))) : Int) + 1
                  by push_cast; omega, j2]
              push_cast; omega
      · -- another byte is copied
        have hc' : st.mem st.buf ≠ CR := by rw [hmb]; exact hc
        rw [strip_body_other env { st with buflen := n } hc']
        obtain ⟨i1, i2, i3, i4⟩ := ih
          { st with
            buflen := n
            mem := store st.mem st.destp (st.mem st.buf)
            destp := st.destp + 1
            buf := st.buf + 1
            bytes_left := st.bytes_left + 1 }
          hb (by simp only []; omega) (by simp only []; omega)
          (by
            intro x hx
            simp only [] at hx ⊢
            unfold store
            rw [if_neg (by omega)]
            exact hm x (by omega))
          hi
        simp only [] at i1 i2 i3 i4
        rw [crs_in_succ_other m _ _ hc, runs_in_succ_other m _ _ hc]
        refine ⟨i1, i2, i3, ?_⟩
        intro a k hrun
        obtain ⟨hge, hrun'⟩ := max_run_other m st.buf n a k hc hrun
        obtain ⟨j1, j2⟩ := i4 a k hrun'
        have hsplit : a - st.buf = (a - (st.buf + 1)) + 1 := by omega
        rw [hsplit, crs_in_succ_other m _ _ hc, runs_in_succ_other m _ _ hc,
          kept_in_succ_other m _ _ hc]
        refine ⟨?_, j2⟩
        rw [j1]; push_cast; omega

theorem count_runs_split (m : Mem) (n1 n2 p : Nat) (prev : Bool) :
    count_runs m (n1 + n2) p prev =
      count_runs m n1 p prev
        + count_runs m n2 (p + n1) (if n1 = 0 then prev else decide (m (p + n1 - 1) = CR)) := by
  induction n1 generalizing p prev with
  | zero => simp [count_runs]
  | succ n1 ih =>
    rw [show n1 + 1 + n2 = (n1 + n2) + 1 by omega, count_runs, count_runs, ih]
    rw [show p + 1 + n1 = p + (n1 + 1) by omega]
    simp only [Nat.add_one_ne_zero, if_false]
    by_cases h0 : n1 = 0
    · subst h0
      simp
      omega
    · rw [if_neg h0, show p + (n1 + 1) - 1 = p + n1 by omega]
      omega

/-- A run of the region is counted after the runs that begin before it. -/
theorem runs_before_lt (m : Mem) (p n a k : Nat) (h : max_run m p n a k) :
    runs_in m p (a - p) + 1 ≤ runs_in m p n := by
  obtain ⟨h1, h2, h3, h4, h5, h6⟩ := h
  have ha : m a = CR := by simpa using h4 0 (by omega)
  unfold runs_in
  obtain ⟨r, hr⟩ : ∃ r, n = (a - p) + (r + 1) := ⟨n - (a - p) - 1, by omega⟩
  rw [hr, count_runs_split, count_runs]
  have hprev : (if a - p = 0 then false else decide (m (p + (a - p) - 1) = CR)) = false := by
    rcases h5 with h5 | h5
    · rw [if_pos (by omega)]
    · by_cases hz : a - p = 0
      · rw [if_pos hz]
      · rw [if_neg hz, show p + (a - p) - 1 = a - 1 by omega]
        simpa using h5
  rw [hprev, show p + (a - p) = a by omega]
  simp only [ha, and_self, if_true]
  omega

/-! ## One table entry per CR run -/

theorem classify_fields (mem : Mem) (buf buflen : Nat) (g : Globals) :
    (classify mem buf buflen g).dos_report_unix_offset = g.dos_report_unix_offset
    ∧ (classify mem buf buflen g).dos_stripped_crs = g.dos_stripped_crs
    ∧ (classify mem buf buflen g).inp_map_idx = g.inp_map_idx
    ∧ (classify mem buf buflen g).dos_pos_map_used = g.dos_pos_map_used
    ∧ (classify mem buf buflen g).out_map_idx = g.out_map_idx
    ∧ (classify mem buf buflen g).dos_pos_map = g.dos_pos_map := by
  unfold classify
  split <;> exact ⟨rfl, rfl, rfl, rfl, rfl, rfl⟩

theorem new_file_reset_fields (env : Env) (g : Globals) :
    (new_file_reset env g).dos_report_unix_offset = g.dos_report_unix_offset
    ∧ (0 ≤ g.inp_map_idx → 0 ≤ (new_file_reset env g).inp_map_idx)
    ∧ (env.totalcc = 0 → (new_file_reset env g).inp_map_idx = 0
        ∧ (new_file_reset env g).dos_stripped_crs = 0
        ∧ (new_file_reset env g).out_map_idx = 1
        ∧ (new_file_reset env g).dos_pos_map_used = 0) := by
  unfold new_file_reset
  split
  · exact ⟨rfl, fun _ => le_refl _, fun _ => ⟨rfl, rfl, rfl, rfl⟩⟩
  · rename_i h
    exact ⟨rfl, fun h => h, fun h0 => absurd h0 h⟩

/-- The result of a call on a DOS text file, as the loop leaves it. -/
theorem undossify_input_dos_text (env : Env) (g : Globals) (mem : Mem) (buf buflen : Nat)
    (hO : env.O_BINARY ≠ 0)
    (ht : (classify mem buf buflen (new_file_reset env g)).dos_file_type = File_type.DOS_TEXT) :
    (undossify_input env g mem buf buflen).g =
      (strip_loop env buflen
        { mem := mem, buf := buf, destp := buf, buflen := buflen, bytes_left := 0,
          g := classify mem buf buflen (new_file_reset env g) }).g := by
  unfold undossify_input strip
  rw [if_neg hO, if_pos ht]

/-- C8: on a DOS text file with the bookkeeping active, every maximal run
`[a, a + k)` of CR bytes of the chunk gets one table entry: counting from
`base` (1 for a table that was empty, where the sentinel takes index 0, and
`inp_map_idx` otherwise), the run is recorded at index `base` plus the number
of runs before it, the entry after it carries `add` = the CR count before the
run plus `k`, and after the call `inp_map_idx = dos_pos_map_used` is `base`
plus the number of runs of the chunk, while `dos_stripped_crs` has grown by
the number of CRs of the chunk.  Examples: "A CR CR CR B CR LF" as first chunk
yields "A B LF" and the entries (0,0), (1,0), (3,3), (3,4); "A CR CR CR B" as
second chunk after "CR LF" yields "A B" and moves `inp_map_idx` from 2 to 3
with `add` = 1 + 3. -/
theorem cr_run_one_entry (env : Env) (g : Globals) (mem : Mem) (buf buflen a k : Nat)
    (hO : env.O_BINARY ≠ 0)
    (ht : (classify mem buf buflen (new_file_reset env g)).dos_file_type = File_type.DOS_TEXT)
    (hb : env.out_byte ≠ 0 ∧ g.dos_report_unix_offset = 0)
    (hi : 0 ≤ g.inp_map_idx)
    (hrun : max_run mem buf buflen a k) :
    (undossify_input env g mem buf buflen).g.inp_map_idx =
        (if (new_file_reset env g).inp_map_idx = 0 then 1 else (new_file_reset env g).inp_map_idx)
          + (runs_in mem buf buflen : Int)
    ∧ (undossify_input env g mem buf buflen).g.dos_pos_map_used =
        (undossify_input env g mem buf buflen).g.inp_map_idx
    ∧ ((undossify_input env g mem buf buflen).g.dos_pos_map
          ((if (new_file_reset env g).inp_map_idx = 0 then 1
            else (new_file_reset env g).inp_map_idx)
            + (runs_in mem buf (a - buf) : Int) + 1)).add =
        (new_file_reset env g).dos_stripped_crs + (crs_in mem buf (a - buf) : Int) + (k : Int)
    ∧ (undossify_input env g mem buf buflen).g.dos_stripped_crs =
        (new_file_reset env g).dos_stripped_crs + (crs_in mem buf buflen : Int)
    ∧ 1 ≤ runs_in mem buf buflen
    ∧ (chunk (undossify_input env_dos (initial blank_table) (memOf a_crs_b_crlf 0) 0 7).mem 0 3
          = [65, 66, LF]
        ∧ table_prefix (undossify_input env_dos (initial blank_table)
            (memOf a_crs_b_crlf 0) 0 7).g 4 = [⟨0, 0⟩, ⟨1, 0⟩, ⟨3, 3⟩, ⟨3, 4⟩]
        ∧ (undossify_input env_dos (initial blank_table)
            (memOf a_crs_b_crlf 0) 0 7).g.inp_map_idx = 3)
    ∧ ((undossify_input env_dos (initial blank_table) (memOf crlf 0) 0 2).g.inp_map_idx = 2
        ∧ chunk (undossify_input env_dos_later
            (undossify_input env_dos (initial blank_table) (memOf crlf 0) 0 2).g
            (memOf a_crs_b 0) 0 5).mem 0 2 = [65, 66]
        ∧ (undossify_input env_dos_later
            (undossify_input env_dos (initial blank_table) (memOf crlf 0) 0 2).g
            (memOf a_crs_b 0) 0 5).g.inp_map_idx = 3
        ∧ ((undossify_input env_dos_later
            (undossify_input env_dos (initial blank_table) (memOf crlf 0) 0 2).g
            (memOf a_crs_b 0) 0 5).g.dos_pos_map 3).add = 4) := by
  obtain ⟨c1, c2, c3, c4, -, -⟩ := classify_fields mem buf buflen (new_file_reset env g)
  obtain ⟨n1, n2, -⟩ := new_file_reset_fields env g
  obtain ⟨t1, t2, t3, t4⟩ := strip_loop_table env mem buflen
    { mem := mem, buf := buf, destp := buf, buflen := buflen, bytes_left := 0,
      g := classify mem buf buflen (new_file_reset env g) }
    ⟨hb.1, by simp only []; rw [c1, n1]; exact hb.2⟩ (le_refl _) (le_refl _)
    (fun _ _ => rfl) (by simp only []; rw [c3]; exact n2 hi)
  simp only [] at t1 t2 t3 t4
  rw [c2] at t1
  rw [c3] at t2
  rw [c3, c2] at t4
  -- the chunk has at least one run
  have hruns : 1 ≤ runs_in mem buf buflen := by
    have := runs_before_lt mem buf buflen a k hrun
    omega
  have hne : runs_in mem buf buflen ≠ 0 := by omega
  rw [if_neg hne] at t2 t3
  rw [undossify_input_dos_text env g mem buf buflen hO ht]
  refine ⟨t2, t3, (t4 a k hrun).2, t1, hruns, by decide, by decide⟩

theorem cr_run_one_entry_witness :
    (env_dos.O_BINARY ≠ 0
      ∧ (classify (memOf a_crs_b_crlf 0) 0 7
          (new_file_reset env_dos (initial blank_table))).dos_file_type = File_type.DOS_TEXT
      ∧ (env_dos.out_byte ≠ 0 ∧ (initial blank_table).dos_report_unix_offset = 0)
      ∧ 0 ≤ (initial blank_table).inp_map_idx
      ∧ max_run (memOf a_crs_b_crlf 0) 0 7 1 3)
    ∧ (undossify_input env_dos (initial blank_table) (memOf a_crs_b_crlf 0) 0 7).g.inp_map_idx =
        (if (new_file_reset env_dos (initial blank_table)).inp_map_idx = 0 then 1
          else (new_file_reset env_dos (initial blank_table)).inp_map_idx)
          + (runs_in (memOf a_crs_b_crlf 0) 0 7 : Int)
    ∧ runs_in (memOf a_crs_b_crlf 0) 0 7 = 2 :=
  ⟨⟨by decide, by decide, by decide, by decide, by decide⟩,
   (cr_run_one_entry env_dos (initial blank_table) (memOf a_crs_b_crlf 0) 0 7 1 3
      (by decide) (by decide) (by decide) (by decide) (by decide)).1,
   by decide⟩

/-! ## Order of the recorded positions within one chunk -/

theorem strip_body_ordered (env : Env) (st : Strip) (n : Nat) (hn : st.buflen = n + 1)
    (hb : env.out_byte ≠ 0 ∧ st.g.dos_report_unix_offset = 0) (h : table_ordered env st) :
    table_ordered env (strip_body env { st with buflen := n }) := by
  by_cases hc : st.mem st.buf = CR
  · obtain ⟨st1, hr, hg1, hmem1, hbuf1, hdestp1, hlen1, -⟩ :=
      strip_body_run env { st with buflen := n } hc hb
    simp only [] at hg1 hmem1 hbuf1 hdestp1 hlen1
    rw [hr]
    obtain ⟨t1, -, -, t4, -, t6, t7, -, -⟩ := record_run_table env st1
    have hR1buf := record_run_buf env st1
    have hR1len := record_run_buflen env st1
    have hR1mem := record_run_mem env st1
    have hR1destp := record_run_destp env st1
    have hLn := run_len_le st1.mem st1.buf st1.buflen
    have hstop := run_len_stop st1.mem st1.buf st1.buflen
    have hlf : lf_shift st1.mem (st1.buf + run_len st1.mem st1.buf st1.buflen) ≤ 1 := by
      unfold lf_shift; split <;> omega
    generalize run_len st1.mem st1.buf st1.buflen = L at *
    generalize lf_shift st1.mem (st1.buf + L) = lf at *
    rw [hg1] at t1 t4 t6 t7
    rw [hdestp1] at t4 t6 hR1destp
    generalize hR1 : record_run env st1 = R1 at *
    intro _
    have hwp : write_pos env R1 = (st.destp : Int) - (env.bufbeg : Int) + (env.totalcc : Int) := by
      unfold write_pos; rw [hR1destp]
    refine ⟨?_, ?_, ?_⟩
    · intro i hi1 hi2
      by_cases hz : st.g.inp_map_idx = 0
      · rw [if_pos hz] at t1 t4 t6
        have : i = 1 := by omega
        subst this
        rw [t4, show (1 : Int) + 1 = 1 + 1 from rfl, t6]
        omega
      · rw [if_neg hz] at t1 t4 t6
        obtain ⟨t7a, -⟩ := t7 hz
        obtain ⟨o1, o2, o3⟩ := h hz
        by_cases hlast : i = st.g.inp_map_idx
        · subst hlast
          rw [t4, t6]; omega
        · by_cases hprev : i + 1 = st.g.inp_map_idx
          · have hic : i = st.g.inp_map_idx - 1 := by omega
            rw [hprev, t4, t7a i (by omega), hic]
            have := o3 (by omega) hc
            unfold write_pos at this
            omega
          · rw [t7a i (by omega), t7a (i + 1) (by omega)]
            exact o1 i hi1 (by omega)
    · rw [t1, hwp]
      simp only [add_sub_cancel_right]
      rw [t4]; omega
    · intro hlen hcr
      exfalso
      rw [hR1len] at hlen
      rw [hR1mem, hR1buf] at hcr
      exact hstop (by omega) hcr
  · rw [strip_body_other env { st with buflen := n } hc]
    intro hne
    simp only [] at hne ⊢
    obtain ⟨o1, o2, o3⟩ := h hne
    refine ⟨o1, ?_, ?_⟩
    · unfold write_pos at o2 ⊢
      simp only []
      push_cast
      omega
    · intro _ _
      unfold write_pos at o2 ⊢
      simp only []
      push_cast
      omega

theorem strip_body_keeps (env : Env) (st : Strip) (hd : st.destp ≤ st.buf)
    (hi : 0 ≤ st.g.inp_map_idx) :
    (strip_body env st).destp ≤ (strip_body env st).buf
    ∧ 0 ≤ (strip_body env st).g.inp_map_idx
    ∧ (strip_body env st).buflen ≤ st.buflen := by
  by_cases hc : st.mem st.buf = CR
  · obtain ⟨k, hk, -, h2, -, h4, h5, -⟩ := strip_body_cr env st hc
    refine ⟨by omega, ?_, by omega⟩
    rcases strip_body_globals env st with hg | ⟨-, -, st1, hr, hg1, -⟩
    · rw [hg]; exact hi
    · rw [hr]
      obtain ⟨t1, -⟩ := record_run_table env st1
      rw [t1, hg1]
      split <;> omega
  · rw [strip_body_other env st hc]
    exact ⟨by simp only []; omega, hi, le_refl _⟩

theorem strip_loop_ordered (env : Env) (fuel : Nat) (st : Strip)
    (hb : env.out_byte ≠ 0 ∧ st.g.dos_report_unix_offset = 0)
    (hd : st.destp ≤ st.buf) (hi : 0 ≤ st.g.inp_map_idx) (h : table_ordered env st) :
    table_ordered env (strip_loop env fuel st) := by
  induction fuel generalizing st with
  | zero => exact h
  | succ fuel ih =>
    rcases Nat.eq_zero_or_pos st.buflen with h0 | hlen
    · rw [strip_loop_done env _ st h0]; exact h
    · obtain ⟨n, hn⟩ : ∃ n, st.buflen = n + 1 := ⟨st.buflen - 1, by omega⟩
      rw [strip_loop_step env fuel n st hn]
      obtain ⟨k1, k2, -⟩ := strip_body_keeps env { st with buflen := n } hd hi
      apply ih _ ⟨hb.1, by rw [(strip_body_config env _).1]; exact hb.2⟩ k1 k2
      exact strip_body_ordered env st n hn hb h

/-! ## The forward search -/

/-- The forward search stops at the first index whose `pos` exceeds the
offset, or at `used`. -/
theorem search_up_eq (map : Int → dos_map) (used byteno : Int) (fuel : Nat) (start j : Int)
    (h1 : start ≤ j + 1) (h2 : j + 1 ≤ used)
    (hle : ∀ i, start ≤ i → i ≤ j → (map i).pos ≤ byteno)
    (hstop : j + 1 = used ∨ byteno < (map (j + 1)).pos)
    (hf : (j + 1 - start).toNat ≤ fuel) :
    search_up map used byteno fuel start = j + 1 := by
  induction fuel generalizing start with
  | zero =>
    rw [search_up]
    omega
  | succ fuel ih =>
    rw [search_up]
    by_cases he : start = j + 1
    · rw [if_neg]
      · exact he
      · rintro ⟨c1, c2⟩
        rcases hstop with h | h
        · omega
        · rw [he] at c2; omega
    · have hlt : start ≤ j := by omega
      rw [if_pos ⟨by omega, by have := hle start (le_refl _) hlt; omega⟩]
      exact ih (start + 1) (by omega) (fun i hi1 hi2 => hle i (by omega) hi2) (by omega)

theorem ordered_chain (f : Int → Int) (N : Int)
    (h : ∀ i, 1 ≤ i → i < N → f i ≤ f (i + 1)) (i : Int) (d : Nat)
    (hi : 1 ≤ i) (hN : i + d ≤ N) : f i ≤ f (i + d) := by
  induction d with
  | zero => simp
  | succ d ih =>
    have h1 := ih (by push_cast at hN ⊢; omega)
    have h2 := h (i + d) (by omega) (by push_cast at hN ⊢; omega)
    rw [show i + ((d + 1 : Nat) : Int) = i + d + 1 by push_cast; omega]
    omega

/-! ## Translating the position recorded for a run -/

theorem strip_body_buflen_le (env : Env) (st : Strip) :
    (strip_body env st).buflen ≤ st.buflen := by
  by_cases hc : st.mem st.buf = CR
  · obtain ⟨k, -, -, -, -, -, h5, -⟩ := strip_body_cr env st hc
    omega
  · rw [strip_body_other env st hc]

/-- With `buflen` iterations allowed the stripping loop ends through its loop
test, with `buflen = 0`. -/
theorem strip_loop_exit (env : Env) (fuel : Nat) (st : Strip) (hf : st.buflen ≤ fuel) :
    (strip_loop env fuel st).buflen = 0 := by
  induction fuel generalizing st with
  | zero => rw [strip_loop]; omega
  | succ fuel ih =>
    rcases Nat.eq_zero_or_pos st.buflen with h0 | hlen
    · rw [strip_loop_done env _ st h0]; exact h0
    · obtain ⟨n, hn⟩ : ∃ n, st.buflen = n + 1 := ⟨st.buflen - 1, by omega⟩
      rw [strip_loop_step env fuel n st hn]
      apply ih
      have := strip_body_buflen_le env { st with buflen := n }
      simp only [] at this
      omega

/-- Allowing more than `buflen` iterations changes nothing. -/
theorem strip_loop_fuel (env : Env) (f1 f2 : Nat) (st : Strip)
    (h1 : st.buflen ≤ f1) (h2 : st.buflen ≤ f2) :
    strip_loop env f1 st = strip_loop env f2 st := by
  induction f1 generalizing f2 st with
  | zero =>
    have h0 : st.buflen = 0 := by omega
    rw [strip_loop_done env _ st h0, strip_loop_done env _ st h0]
  | succ f1 ih =>
    rcases Nat.eq_zero_or_pos st.buflen with h0 | hlen
    · rw [strip_loop_done env _ st h0, strip_loop_done env _ st h0]
    · obtain ⟨n, hn⟩ : ∃ n, st.buflen = n + 1 := ⟨st.buflen - 1, by omega⟩
      obtain ⟨f2', hf2⟩ : ∃ f, f2 = f + 1 := ⟨f2 - 1, by omega⟩
      rw [hf2, strip_loop_step env f1 n st hn, strip_loop_step env f2' n st hn]
      have := strip_body_buflen_le env { st with buflen := n }
      simp only [] at this
      exact ih f2' _ (by omega) (by omega)

/-- With `used - start` iterations allowed the forward search ends through its
loop test. -/
theorem search_up_exit (map : Int → dos_map) (used byteno : Int) (fuel : Nat) (start : Int)
    (hf : (used - start).toNat ≤ fuel) :
    ¬ (search_up map used byteno fuel start < used
        ∧ byteno ≥ (map (search_up map used byteno fuel start)).pos) := by
  induction fuel generalizing start with
  | zero =>
    rw [search_up]
    rintro ⟨h, -⟩
    omega
  | succ fuel ih =>
    rw [search_up]
    by_cases hc : start < used ∧ byteno ≥ (map start).pos
    · rw [if_pos hc]
      exact ih (start + 1) (by omega)
    · rw [if_neg hc]
      exact hc

/-- With `start - 1` iterations allowed the backward search ends through its
loop test. -/
theorem search_down_exit (map : Int → dos_map) (byteno : Int) (fuel : Nat) (start : Int)
    (hf : (start - 1).toNat ≤ fuel) :
    ¬ (search_down map byteno fuel start > 1
        ∧ byteno < (map (search_down map byteno fuel start - 1)).pos) := by
  induction fuel generalizing start with
  | zero =>
    rw [search_down]
    rintro ⟨h, -⟩
    omega
  | succ fuel ih =>
    rw [search_down]
    by_cases hc : start > 1 ∧ byteno < (map (start - 1)).pos
    · rw [if_pos hc]
      exact ih (start - 1) (by omega)
    · rw [if_neg hc]
      exact hc

/-! ## The classification of a file -/

theorem guess_type_ne_unknown (mem : Mem) (buf buflen : Nat) :
    guess_type mem buf buflen ≠ File_type.UNKNOWN := by
  unfold guess_type
  rw [guess_type_loop_eq]
  split
  · decide
  · split <;> decide

theorem classify_type (mem : Mem) (buf buflen : Nat) (g : Globals) :
    (classify mem buf buflen g).dos_file_type ≠ File_type.UNKNOWN
    ∧ (g.dos_file_type ≠ File_type.UNKNOWN →
        (classify mem buf buflen g).dos_file_type = g.dos_file_type) := by
  unfold classify
  by_cases h : g.dos_file_type = File_type.UNKNOWN
  · rw [if_pos h]
    exact ⟨guess_type_ne_unknown mem buf buflen, fun hne => absurd h hne⟩
  · rw [if_neg h]
    exact ⟨h, fun _ => rfl⟩

/-- The classification a call ends with is the one its guessing step chose. -/
theorem undossify_input_type (env : Env) (g : Globals) (mem : Mem) (buf buflen : Nat)
    (hO : env.O_BINARY ≠ 0) :
    (undossify_input env g mem buf buflen).g.dos_file_type =
      (classify mem buf buflen (new_file_reset env g)).dos_file_type := by
  unfold undossify_input strip
  rw [if_neg hO]
  split
  · exact (strip_loop_config env buflen _).2.1
  · rfl

theorem new_file_reset_later (env : Env) (g : Globals) (h : env.totalcc ≠ 0) :
    new_file_reset env g = g := by
  unfold new_file_reset
  rw [if_neg h]

/-- C11: on a DOS build the classification is never UNKNOWN after a call of
`undossify_input`, and a later call for the same file (`totalcc ≠ 0`) leaves
it as it is whatever its chunk holds; when it is UNIX_TEXT or DOS_BINARY that
later call returns `buflen` and leaves the memory untouched, CR-LF pairs
included. -/
theorem classification_decided_once (env1 env2 : Env) (g : Globals) (mem1 mem2 : Mem)
    (buf1 n1 buf2 n2 : Nat)
    (h1 : env1.O_BINARY ≠ 0) (h2 : env2.O_BINARY ≠ 0) (hlater : env2.totalcc ≠ 0) :
    (undossify_input env1 g mem1 buf1 n1).g.dos_file_type ≠ File_type.UNKNOWN
    ∧ (undossify_input env2 (undossify_input env1 g mem1 buf1 n1).g mem2 buf2 n2).g.dos_file_type
        = (undossify_input env1 g mem1 buf1 n1).g.dos_file_type
    ∧ ((undossify_input env1 g mem1 buf1 n1).g.dos_file_type = File_type.UNIX_TEXT
        ∨ (undossify_input env1 g mem1 buf1 n1).g.dos_file_type = File_type.DOS_BINARY →
      (undossify_input env2 (undossify_input env1 g mem1 buf1 n1).g mem2 buf2 n2).ret = n2
      ∧ (undossify_input env2 (undossify_input env1 g mem1 buf1 n1).g mem2 buf2 n2).mem
          = mem2) := by
  have hne : (undossify_input env1 g mem1 buf1 n1).g.dos_file_type ≠ File_type.UNKNOWN := by
    rw [undossify_input_type env1 g mem1 buf1 n1 h1]
    exact (classify_type mem1 buf1 n1 _).1
  generalize (undossify_input env1 g mem1 buf1 n1).g = g1 at hne ⊢
  have hkeep : (classify mem2 buf2 n2 (new_file_reset env2 g1)).dos_file_type =
      g1.dos_file_type := by
    rw [new_file_reset_later env2 g1 hlater]
    exact (classify_type mem2 buf2 n2 g1).2 hne
  refine ⟨hne, ?_, ?_⟩
  · rw [undossify_input_type env2 g1 mem2 buf2 n2 h2, hkeep]
  · intro ht
    have hnd : (classify mem2 buf2 n2 (new_file_reset env2 g1)).dos_file_type ≠
        File_type.DOS_TEXT := by
      rw [hkeep]
      rcases ht with h | h <;> rw [h] <;> decide
    unfold undossify_input strip
    rw [if_neg h2, if_neg hnd]
    exact ⟨rfl, rfl⟩

theorem classification_decided_once_witness :
    (env_dos.O_BINARY ≠ 0 ∧ env_dos_later.O_BINARY ≠ 0 ∧ env_dos_later.totalcc ≠ 0)
    ∧ (undossify_input env_dos (initial blank_table) (memOf unix_text 0) 0 5).g.dos_file_type
        = File_type.UNIX_TEXT
    ∧ hasCrLf (memOf dos_text 0) 0 7
    ∧ (undossify_input env_dos_later
        (undossify_input env_dos (initial blank_table) (memOf unix_text 0) 0 5).g
        (memOf dos_text 0) 0 7).g.dos_file_type
      = (undossify_input env_dos (initial blank_table) (memOf unix_text 0) 0 5).g.dos_file_type
    ∧ (undossify_input env_dos_later
        (undossify_input env_dos (initial blank_table) (memOf unix_text 0) 0 5).g
        (memOf dos_text 0) 0 7).ret = 7 :=
  ⟨⟨by decide, by decide, by decide⟩, by decide, by decide,
   (classification_decided_once env_dos env_dos_later (initial blank_table)
      (memOf unix_text 0) (memOf dos_text 0) 0 5 0 7
      (by decide) (by decide) (by decide)).2.1,
   ((classification_decided_once env_dos env_dos_later (initial blank_table)
      (memOf unix_text 0) (memOf dos_text 0) 0 5 0 7
      (by decide) (by decide) (by decide)).2.2 (Or.inl (by decide))).1⟩

/-! ## The CR count -/

theorem strip_body_crs_le (env : Env) (st : Strip) :
    st.g.dos_stripped_crs ≤ (strip_body env st).g.dos_stripped_crs := by
  rcases strip_body_globals env st with hg | ⟨-, -, st1, hr, hg1, -⟩
  · rw [hg]
  · rw [hr]
    obtain ⟨-, -, t3, -⟩ := record_run_table env st1
    rw [t3, hg1]
    omega

theorem strip_loop_crs_le (env : Env) (fuel : Nat) (st : Strip) :
    st.g.dos_stripped_crs ≤ (strip_loop env fuel st).g.dos_stripped_crs := by
  induction fuel generalizing st with
  | zero => exact le_refl _
  | succ fuel ih =>
    rcases Nat.eq_zero_or_pos st.buflen with h0 | hlen
    · rw [strip_loop_done env _ st h0]
    · obtain ⟨n, hn⟩ : ∃ n, st.buflen = n + 1 := ⟨st.buflen - 1, by omega⟩
      rw [strip_loop_step env fuel n st hn]
      have h1 := strip_body_crs_le env { st with buflen := n }
      have h2 := ih (strip_body env { st with buflen := n })
      simp only [] at h1
      omega

/-- With the bookkeeping active the loop adds the number of CRs of the rest
of the chunk to `dos_stripped_crs`. -/
theorem strip_loop_crs (env : Env) (m : Mem) (fuel : Nat) (st : Strip)
    (hb : env.out_byte ≠ 0 ∧ st.g.dos_report_unix_offset = 0)
    (hd : st.destp ≤ st.buf) (hf : st.buflen ≤ fuel)
    (hm : ∀ x, st.buf ≤ x → st.mem x = m x) :
    (strip_loop env fuel st).g.dos_stripped_crs =
      st.g.dos_stripped_crs + (crs_in m st.buf st.buflen : Int) := by
  induction fuel generalizing st with
  | zero =>
    have h0 : st.buflen = 0 := by omega
    rw [strip_loop_done env _ st h0, h0]
    simp [crs_in, chunk]
  | succ fuel ih =>
    rcases Nat.eq_zero_or_pos st.buflen with h0 | hlen
    · rw [strip_loop_done env _ st h0, h0]
      simp [crs_in, chunk]
    · obtain ⟨n, hn⟩ : ∃ n, st.buflen = n + 1 := ⟨st.buflen - 1, by omega⟩
      rw [strip_loop_step env fuel n st hn, hn]
      have hmb : st.mem st.buf = m st.buf := hm _ (le_refl _)
      by_cases hc : m st.buf = CR
      · obtain ⟨st1, hr, hg1, hmem1, hbuf1, hdestp1, hlen1, -⟩ :=
          strip_body_run env { st with buflen := n } (by simpa [hmb] using hc) hb
        simp only [] at hg1 hmem1 hbuf1 hdestp1 hlen1
        rw [hr]
        have hL : run_len st1.mem st1.buf st1.buflen = run_len m (st.buf + 1) n := by
          rw [hmem1, hbuf1, hlen1]
          exact run_len_congr _ _ _ _ (fun x hx => hm x (by omega))
        have hLn := run_len_le m (st.buf + 1) n
        obtain ⟨-, -, t3, -⟩ := record_run_table env st1
        rw [hL, hg1] at t3
        have hR1buf := record_run_buf env st1
        have hR1len := record_run_buflen env st1
        have hR1mem := record_run_mem env st1
        have hR1destp := record_run_destp env st1
        rw [hL, hbuf1] at hR1buf
        rw [hL, hlen1] at hR1len
        rw [hmem1] at hR1mem
        rw [hdestp1] at hR1destp
        have hR1rep : (record_run env st1).g.dos_report_unix_offset =
            st.g.dos_report_unix_offset := by
          have : (record_run env st1).g.dos_report_unix_offset =
              st1.g.dos_report_unix_offset := rfl
          rw [this, hg1]
        have i1 := ih (record_run env st1) ⟨hb.1, by rw [hR1rep]; exact hb.2⟩
          (by rw [hR1destp, hR1buf]; omega) (by rw [hR1len]; omega)
          (by
            intro x hx
            rw [hR1mem]
            exact hm x (by rw [hR1buf] at hx; omega))
        clear ih
        have hall : ∀ x, x < run_len m (st.buf + 1) n + 1 → m (st.buf + x) = CR := by
          intro x hx
          rcases Nat.eq_zero_or_pos x with hx0 | hxp
          · rw [hx0]; simpa using hc
          · exact run_len_all_cr m (st.buf + 1) n (st.buf + x) (by omega) (by omega)
        have hcrs := (crs_in_run m st.buf (run_len m (st.buf + 1) n + 1)
          (n - run_len m (st.buf + 1) n) hall).1
        rw [show run_len m (st.buf + 1) n + 1 + (n - run_len m (st.buf + 1) n) = n + 1 by omega]
          at hcrs
        rw [i1, t3, hR1buf, hR1len, hcrs,
          show st.buf + 1 + run_len m (st.buf + 1) n = st.buf + (run_len m (st.buf + 1) n + 1)
            by omega]
        push_cast
        omega
      · have hc' : st.mem st.buf ≠ CR := by rw [hmb]; exact hc
        rw [strip_body_other env { st with buflen := n } hc']
        have i1 := ih
          { st with
            buflen := n
            mem := store st.mem st.destp (st.mem st.buf)
            destp := st.destp + 1
            buf := st.buf + 1
            bytes_left := st.bytes_left + 1 }
          hb (by simp only []; omega) (by simp only []; omega)
          (by
            intro x hx
            simp only [] at hx ⊢
            unfold store
            rw [if_neg (by omega)]
            exact hm x (by omega))
        simp only [] at i1
        rw [crs_in_succ_other m _ _ hc]
        exact i1

/-- One call on a DOS text file with the bookkeeping active: the CR count
grows by the number of CRs of the chunk, which is the number of bytes the
call removes. -/
theorem undossify_input_crs (env : Env) (g : Globals) (mem : Mem) (buf buflen : Nat)
    (hO : env.O_BINARY ≠ 0)
    (ht : (classify mem buf buflen (new_file_reset env g)).dos_file_type = File_type.DOS_TEXT)
    (hb : env.out_byte ≠ 0 ∧ g.dos_report_unix_offset = 0) :
    (undossify_input env g mem buf buflen).g.dos_stripped_crs =
        (new_file_reset env g).dos_stripped_crs + (crs_in mem buf buflen : Int)
    ∧ buflen - (undossify_input env g mem buf buflen).ret = crs_in mem buf buflen
    ∧ (undossify_input env g mem buf buflen).g.dos_report_unix_offset = 0
    ∧ (undossify_input env g mem buf buflen).g.dos_file_type = File_type.DOS_TEXT := by
  obtain ⟨c1, c2, -⟩ := classify_fields mem buf buflen (new_file_reset env g)
  obtain ⟨n1, -⟩ := new_file_reset_fields env g
  have hcrs := strip_loop_crs env mem buflen
    { mem := mem, buf := buf, destp := buf, buflen := buflen, bytes_left := 0,
      g := classify mem buf buflen (new_file_reset env g) }
    ⟨hb.1, by simp only []; rw [c1, n1]; exact hb.2⟩ (le_refl _) (le_refl _) (fun _ _ => rfl)
  obtain ⟨-, b2, -⟩ := strip_loop_bytes env buflen
    { mem := mem, buf := buf, destp := buf, buflen := buflen, bytes_left := 0,
      g := classify mem buf buflen (new_file_reset env g) } (le_refl _) (le_refl _)
  obtain ⟨g1, g2, -⟩ := strip_loop_config env buflen
    { mem := mem, buf := buf, destp := buf, buflen := buflen, bytes_left := 0,
      g := classify mem buf buflen (new_file_reset env g) }
  simp only [] at hcrs b2 g1 g2
  rw [c2] at hcrs
  rw [c1, n1, hb.2] at g1
  rw [ht] at g2
  have hret : (undossify_input env g mem buf buflen).ret =
      (strip_loop env buflen
        { mem := mem, buf := buf, destp := buf, buflen := buflen, bytes_left := 0,
          g := classify mem buf buflen (new_file_reset env g) }).bytes_left := by
    unfold undossify_input strip
    rw [if_neg hO, if_pos ht]
  rw [undossify_input_dos_text env g mem buf buflen hO ht, hret, b2]
  refine ⟨hcrs, ?_, g1, g2⟩
  have := kept_add_crs mem buf buflen
  unfold kept_in at this
  omega

theorem classify_known (mem : Mem) (buf buflen : Nat) (g : Globals)
    (h : g.dos_file_type = File_type.DOS_TEXT) : classify mem buf buflen g = g := by
  unfold classify
  rw [if_neg (by rw [h]; decide)]

/-- The later chunks of a DOS text file, with the bookkeeping active. -/
theorem feed_later_crs (g : Globals) (cs : List Call)
    (ht : g.dos_file_type = File_type.DOS_TEXT) (hr : g.dos_report_unix_offset = 0)
    (hO : ∀ c ∈ cs, c.env.O_BINARY ≠ 0 ∧ c.env.out_byte ≠ 0)
    (hl : ∀ c ∈ cs, c.env.totalcc ≠ 0) :
    (feed g cs).dos_stripped_crs = g.dos_stripped_crs + (crs_of cs : Int)
    ∧ removed g cs = crs_of cs := by
  induction cs generalizing g with
  | nil => simp [feed, removed, crs_of]
  | cons c cs ih =>
    obtain ⟨hOc, hbc⟩ := hO c (List.mem_cons_self _ _)
    have hlc := hl c (List.mem_cons_self _ _)
    have hcl : classify c.mem c.buf c.buflen (new_file_reset c.env g) = g := by
      rw [new_file_reset_later c.env g hlc, classify_known _ _ _ g ht]
    obtain ⟨k1, k2, k3, k4⟩ := undossify_input_crs c.env g c.mem c.buf c.buflen hOc
      (by rw [hcl]; exact ht) ⟨hbc, hr⟩
    rw [new_file_reset_later c.env g hlc] at k1
    obtain ⟨i1, i2⟩ := ih (undossify_input c.env g c.mem c.buf c.buflen).g k4 k3
      (fun c' hc' => hO c' (List.mem_cons_of_mem _ hc'))
      (fun c' hc' => hl c' (List.mem_cons_of_mem _ hc'))
    simp only [feed, removed, crs_of]
    rw [i1, i2, k1, k2]
    exact ⟨by push_cast; omega, rfl⟩

/-- C12 as stated fails: with `out_byte = 0` the three CRs of
"a CR LF b CR CR LF" are removed (7 bytes in, 4 out) while `dos_stripped_crs`
stays 0. -/
theorem stripped_crs_not_counted :
    (classify (memOf dos_text 0) 0 7 (new_file_reset env_quiet (initial blank_table))).dos_file_type
        = File_type.DOS_TEXT
    ∧ (undossify_input env_quiet (initial blank_table) (memOf dos_text 0) 0 7).ret = 4
    ∧ chunk (undossify_input env_quiet (initial blank_table) (memOf dos_text 0) 0 7).mem 0 4
        = [97, LF, 98, LF]
    ∧ (undossify_input env_quiet (initial blank_table) (memOf dos_text 0) 0 7).g.dos_stripped_crs
        = 0
    ∧ (undossify_input env_quiet (initial blank_table) (memOf dos_text 0) 0 7).g.dos_stripped_crs
        ≠ 3 := by
  decide

/-- C12, amended: with the offset bookkeeping active (`out_byte` set,
`dos_report_unix_offset` clear), for the chunks of one DOS text file fed to
`undossify_input` on a DOS build, the first with `totalcc = 0` and the others
with `totalcc ≠ 0`, `dos_stripped_crs` after the calls is the number of bytes
the calls removed, which is the number of CR bytes of the chunks; and, with or
without the bookkeeping, a call with `totalcc ≠ 0` never decreases it. -/
theorem stripped_crs_total (g0 : Globals) (c0 : Call) (cs : List Call)
    (h0 : c0.env.totalcc = 0) (hr : g0.dos_report_unix_offset = 0)
    (hO : ∀ c ∈ c0 :: cs, c.env.O_BINARY ≠ 0 ∧ c.env.out_byte ≠ 0)
    (hl : ∀ c ∈ cs, c.env.totalcc ≠ 0)
    (ht : (classify c0.mem c0.buf c0.buflen (new_file_reset c0.env g0)).dos_file_type
      = File_type.DOS_TEXT) :
    (feed g0 (c0 :: cs)).dos_stripped_crs = (removed g0 (c0 :: cs) : Int)
    ∧ removed g0 (c0 :: cs) = crs_of (c0 :: cs)
    ∧ ∀ (env : Env) (g : Globals) (mem : Mem) (buf buflen : Nat), env.totalcc ≠ 0 →
        g.dos_stripped_crs ≤ (undossify_input env g mem buf buflen).g.dos_stripped_crs := by
  obtain ⟨hOc, hbc⟩ := hO c0 (List.mem_cons_self _ _)
  obtain ⟨k1, k2, k3, k4⟩ := undossify_input_crs c0.env g0 c0.mem c0.buf c0.buflen hOc ht
    ⟨hbc, hr⟩
  rw [((new_file_reset_fields c0.env g0).2.2 h0).2.1] at k1
  obtain ⟨i1, i2⟩ := feed_later_crs (undossify_input c0.env g0 c0.mem c0.buf c0.buflen).g cs
    k4 k3 (fun c' hc' => hO c' (List.mem_cons_of_mem _ hc')) hl
  refine ⟨?_, ?_, ?_⟩
  · simp only [feed, removed]
    rw [i1, i2, k1, k2]
    push_cast
    omega
  · simp only [removed, crs_of]
    rw [i2, k2]
  · intro env g mem buf buflen hlater
    unfold undossify_input strip
    split
    · exact le_refl _
    · rw [new_file_reset_later env g hlater]
      have hc : (classify mem buf buflen g).dos_stripped_crs = g.dos_stripped_crs :=
        (classify_fields mem buf buflen g).2.1
      split
      · have := strip_loop_crs_le env buflen
          { mem := mem, buf := buf, destp := buf, buflen := buflen, bytes_left := 0,
            g := classify mem buf buflen g }
        simp only [] at this ⊢
        omega
      · simp only []
        omega


theorem stripped_crs_total_witness :
    (call_first.env.totalcc = 0 ∧ (initial blank_table).dos_report_unix_offset = 0
      ∧ (∀ c ∈ [call_first, call_later], c.env.O_BINARY ≠ 0 ∧ c.env.out_byte ≠ 0)
      ∧ (∀ c ∈ [call_later], c.env.totalcc ≠ 0)
      ∧ (classify call_first.mem call_first.buf call_first.buflen
          (new_file_reset call_first.env (initial blank_table))).dos_file_type
          = File_type.DOS_TEXT)
    ∧ (feed (initial blank_table) [call_first, call_later]).dos_stripped_crs
        = (removed (initial blank_table) [call_first, call_later] : Int)
    ∧ removed (initial blank_table) [call_first, call_later] = 6 :=
  ⟨⟨by decide, by decide, by decide, by decide, by decide⟩,
   (stripped_crs_total (initial blank_table) call_first [call_later]
      (by decide) (by decide) (by decide) (by decide) (by decide)).1,
   by decide⟩

/-! ## The sentinel and the order of the whole table -/

theorem strip_body_write_pos (env : Env) (st : Strip) :
    write_pos env st ≤ write_pos env (strip_body env st) := by
  unfold write_pos
  by_cases hc : st.mem st.buf = CR
  · obtain ⟨k, -, -, h2, -⟩ := strip_body_cr env st hc
    rw [h2]
  · rw [strip_body_other env st hc]
    simp only []
    push_cast
    omega

theorem strip_body_started (env : Env) (st : Strip)
    (h : table_started st.g) (hw : 0 ≤ write_pos env st) :
    table_started (strip_body env st).g := by
  rcases strip_body_globals env st with hg | ⟨-, -, st1, hr, hg1, -, -, hdestp1, -⟩
  · rw [hg]; exact h
  · rw [hr]
    obtain ⟨t1, t2, -, t4, -, -, t7, t8, -⟩ := record_run_table env st1
    have hlf : 0 ≤ (lf_shift st1.mem (st1.buf + run_len st1.mem st1.buf st1.buflen) : Int) := by
      positivity
    have hw1 : 0 ≤ (st1.destp : Int) - (env.bufbeg : Int) + (env.totalcc : Int) := by
      rw [hdestp1]; exact hw
    rw [hg1] at t1 t4 t7 t8
    obtain ⟨-, h2⟩ := h
    refine ⟨t2, Or.inr ?_⟩
    rcases h2 with hz | ⟨hge, hs, hp⟩
    · rw [if_pos hz] at t1 t4
      obtain ⟨t8a, -⟩ := t8 hz
      exact ⟨by omega, t8a, by rw [t4]; omega⟩
    · have hne : st.g.inp_map_idx ≠ 0 := by omega
      rw [if_neg hne] at t1
      obtain ⟨t7a, -⟩ := t7 hne
      exact ⟨by omega, by rw [t7a 0 (by omega)]; exact hs, by rw [t7a 1 (by omega)]; exact hp⟩

theorem strip_loop_started (env : Env) (fuel : Nat) (st : Strip)
    (h : table_started st.g) (hw : 0 ≤ write_pos env st) :
    table_started (strip_loop env fuel st).g := by
  induction fuel generalizing st with
  | zero => exact h
  | succ fuel ih =>
    rcases Nat.eq_zero_or_pos st.buflen with h0 | hlen
    · rw [strip_loop_done env _ st h0]; exact h
    · obtain ⟨n, hn⟩ : ∃ n, st.buflen = n + 1 := ⟨st.buflen - 1, by omega⟩
      rw [strip_loop_step env fuel n st hn]
      have hw' : 0 ≤ write_pos env { st with buflen := n } := hw
      exact ih _ (strip_body_started env { st with buflen := n } h hw')
        (le_trans hw' (strip_body_write_pos env _))

theorem table_behind_mono (g : Globals) (P Q : Int) (h : table_behind g P) (hle : P ≤ Q) :
    table_behind g Q := by
  obtain ⟨h1, h2, h3⟩ := h
  refine ⟨h1, by omega, fun hne => ?_⟩
  obtain ⟨o1, o2⟩ := h3 hne
  exact ⟨o1, by omega⟩

/-- After an iteration of the loop the last confirmed entry does not lie
behind the write position, unless the iteration recorded a run, in which case
the byte read last is a CR. -/
theorem strip_body_behind (env : Env) (m : Mem) (st : Strip) (n : Nat)
    (hb : env.out_byte ≠ 0 ∧ st.g.dos_report_unix_offset = 0)
    (hm : ∀ x, st.buf ≤ x → st.mem x = m x) (h : table_ordered env st) :
    (strip_body env { st with buflen := n }).g.inp_map_idx ≠ 0 →
      ((strip_body env { st with buflen := n }).g.dos_pos_map
          ((strip_body env { st with buflen := n }).g.inp_map_idx - 1)).pos
        ≤ write_pos env (strip_body env { st with buflen := n })
      ∨ m ((strip_body env { st with buflen := n }).buf - 1) = CR := by
  intro hne
  by_cases hc : st.mem st.buf = CR
  · right
    obtain ⟨st1, hr, -, hmem1, hbuf1, -, hlen1, -⟩ :=
      strip_body_run env { st with buflen := n } hc hb
    simp only [] at hmem1 hbuf1 hlen1
    rw [hr, record_run_buf, hbuf1]
    rcases Nat.eq_zero_or_pos (run_len st1.mem (st.buf + 1) st1.buflen) with hz | hp
    · rw [hz, ← hm _ (by omega)]
      exact hc
    · rw [← hm _ (by omega), ← hmem1]
      exact run_len_all_cr st1.mem (st.buf + 1) st1.buflen _ (by omega) (by omega)
  · left
    rw [strip_body_other env { st with buflen := n } hc] at hne ⊢
    simp only [] at hne ⊢
    obtain ⟨-, o2, -⟩ := h hne
    unfold write_pos at o2 ⊢
    simp only []
    push_cast
    omega

theorem strip_loop_behind (env : Env) (m : Mem) (fuel : Nat) (st : Strip)
    (hb : env.out_byte ≠ 0 ∧ st.g.dos_report_unix_offset = 0)
    (hd : st.destp ≤ st.buf) (hi : 0 ≤ st.g.inp_map_idx) (hf : st.buflen ≤ fuel)
    (hm : ∀ x, st.buf ≤ x → st.mem x = m x) (ho : table_ordered env st)
    (hs : st.g.inp_map_idx ≠ 0 →
      (st.g.dos_pos_map (st.g.inp_map_idx - 1)).pos ≤ write_pos env st
      ∨ m (st.buf - 1) = CR) :
    (strip_loop env fuel st).g.inp_map_idx ≠ 0 →
      ((strip_loop env fuel st).g.dos_pos_map ((strip_loop env fuel st).g.inp_map_idx - 1)).pos
        ≤ write_pos env (strip_loop env fuel st)
      ∨ m (st.buf + st.buflen - 1) = CR := by
  induction fuel generalizing st with
  | zero =>
    have h0 : st.buflen = 0 := by omega
    rw [strip_loop_done env _ st h0, h0]
    exact hs
  | succ fuel ih =>
    rcases Nat.eq_zero_or_pos st.buflen with h0 | hlen
    · rw [strip_loop_done env _ st h0, h0]
      exact hs
    · obtain ⟨n, hn⟩ : ∃ n, st.buflen = n + 1 := ⟨st.buflen - 1, by omega⟩
      rw [strip_loop_step env fuel n st hn]
      obtain ⟨k1, k2, k3⟩ := strip_body_keeps env { st with buflen := n } hd hi
      have hbody := strip_body_behind env m st n hb hm ho
      have hord := strip_body_ordered env st n hn hb ho
      have hend : (strip_body env { st with buflen := n }).buf
          + (strip_body env { st with buflen := n }).buflen = st.buf + st.buflen := by
        by_cases hc : st.mem st.buf = CR
        · obtain ⟨k, hk, -, -, -, e4, e5, -⟩ := strip_body_cr env { st with buflen := n } hc
          simp only [] at hk e4 e5
          rw [e4, e5, hn]; omega
        · rw [strip_body_other env { st with buflen := n } hc]
          simp only []
          omega
      have hmem : ∀ x, (strip_body env { st with buflen := n }).buf ≤ x →
          (strip_body env { st with buflen := n }).mem x = m x := by
        intro x hx
        by_cases hc : st.mem st.buf = CR
        · obtain ⟨k, -, e1, -, -, e4, -, -⟩ := strip_body_cr env { st with buflen := n } hc
          simp only [] at e1 e4
          rw [e1]
          exact hm x (by rw [e4] at hx; omega)
        · rw [strip_body_other env { st with buflen := n } hc] at hx ⊢
          simp only [] at hx ⊢
          unfold store
          rw [if_neg (by omega)]
          exact hm x (by omega)
      have := ih (strip_body env { st with buflen := n })
        ⟨hb.1, by rw [(strip_body_config env _).1]; exact hb.2⟩ k1 k2
        (by simp only [] at k3; omega) hmem hord hbody
      rw [hend] at this
      exact this

theorem table_started_sorted (g : Globals) (hs : table_started g)
    (ho : g.inp_map_idx ≠ 0 → ∀ i, 1 ≤ i → i < g.inp_map_idx →
      (g.dos_pos_map i).pos ≤ (g.dos_pos_map (i + 1)).pos) :
    table_sorted g := by
  obtain ⟨hu, hcase⟩ := hs
  rcases hcase with hz | ⟨hge, hsent, hp1⟩
  · refine ⟨?_, ?_⟩
    · intro i hi0 hi1
      omega
    · intro hne
      omega
  · have o1 := ho (by omega)
    refine ⟨?_, fun _ => hsent⟩
    intro i hi0 hi1
    by_cases hi : i = 0
    · subst hi
      rw [hsent]
      exact hp1
    · exact o1 i (by omega) (by omega)

/-- One call on a DOS text file with the bookkeeping active, entered with a
table that does not reach behind the offset the chunk begins at: the table it
leaves is sorted, and it does not reach behind the offset the output ends at
when the chunk does not end with a CR. -/
theorem strip_behind (c : Call) (g : Globals)
    (hb : c.env.out_byte ≠ 0) (hr : g.dos_report_unix_offset = 0)
    (ht : g.dos_file_type = File_type.DOS_TEXT)
    (hP : table_behind g c.start_pos) :
    (strip c.env c.mem c.buf c.buflen g).g.dos_file_type = File_type.DOS_TEXT
    ∧ (strip c.env c.mem c.buf c.buflen g).g.dos_report_unix_offset = 0
    ∧ table_sorted (strip c.env c.mem c.buf c.buflen g).g
    ∧ (ends_inside c → table_behind (strip c.env c.mem c.buf c.buflen g).g c.end_pos) := by
  have e : (strip c.env c.mem c.buf c.buflen g).g =
      (strip_loop c.env c.buflen
        { mem := c.mem, buf := c.buf, destp := c.buf, buflen := c.buflen, bytes_left := 0,
          g := g }).g := by
    unfold strip
    rw [if_pos ht]
  obtain ⟨hs, hP0, hP1⟩ := hP
  have hw : write_pos c.env
      { mem := c.mem, buf := c.buf, destp := c.buf, buflen := c.buflen, bytes_left := 0,
        g := g } = c.start_pos := rfl
  have ho : table_ordered c.env
      { mem := c.mem, buf := c.buf, destp := c.buf, buflen := c.buflen, bytes_left := 0,
        g := g } := by
    intro hne
    obtain ⟨o1, o2⟩ := hP1 hne
    rw [hw]
    exact ⟨o1, by simp only []; omega, fun _ _ => o2⟩
  have hi : 0 ≤ g.inp_map_idx := by
    rcases hs.2 with h | ⟨h, -⟩ <;> omega
  have hsta := strip_loop_started c.env c.buflen
    { mem := c.mem, buf := c.buf, destp := c.buf, buflen := c.buflen, bytes_left := 0, g := g }
    hs (by rw [hw]; exact hP0)
  have hord := strip_loop_ordered c.env c.buflen
    { mem := c.mem, buf := c.buf, destp := c.buf, buflen := c.buflen, bytes_left := 0, g := g }
    ⟨hb, hr⟩ (le_refl _) hi ho
  have hbeh : (strip_loop c.env c.buflen
        { mem := c.mem, buf := c.buf, destp := c.buf, buflen := c.buflen, bytes_left := 0,
          g := g }).g.inp_map_idx ≠ 0 →
      ((strip_loop c.env c.buflen
          { mem := c.mem, buf := c.buf, destp := c.buf, buflen := c.buflen, bytes_left := 0,
            g := g }).g.dos_pos_map
        ((strip_loop c.env c.buflen
          { mem := c.mem, buf := c.buf, destp := c.buf, buflen := c.buflen, bytes_left := 0,
            g := g }).g.inp_map_idx - 1)).pos
        ≤ write_pos c.env (strip_loop c.env c.buflen
          { mem := c.mem, buf := c.buf, destp := c.buf, buflen := c.buflen, bytes_left := 0,
            g := g })
      ∨ (c.buflen ≠ 0 ∧ c.mem (c.buf + c.buflen - 1) = CR) := by
    by_cases hz : c.buflen = 0
    · rw [strip_loop_done c.env _ _ hz]
      intro hne
      exact Or.inl (by rw [hw]; exact (hP1 hne).2)
    · intro hne
      rcases strip_loop_behind c.env c.mem c.buflen
        { mem := c.mem, buf := c.buf, destp := c.buf, buflen := c.buflen, bytes_left := 0,
          g := g }
        ⟨hb, hr⟩ (le_refl _) hi (le_refl _) (fun _ _ => rfl) ho
        (fun hne => Or.inl (by rw [hw]; exact (hP1 hne).2)) hne with h | h
      · exact Or.inl h
      · exact Or.inr ⟨hz, h⟩
  obtain ⟨b1, -⟩ := strip_loop_bytes c.env c.buflen
    { mem := c.mem, buf := c.buf, destp := c.buf, buflen := c.buflen, bytes_left := 0, g := g }
    (le_refl _) (le_refl _)
  obtain ⟨g1, g2, -⟩ := strip_loop_config c.env c.buflen
    { mem := c.mem, buf := c.buf, destp := c.buf, buflen := c.buflen, bytes_left := 0, g := g }
  have hwe : write_pos c.env (strip_loop c.env c.buflen
      { mem := c.mem, buf := c.buf, destp := c.buf, buflen := c.buflen, bytes_left := 0,
        g := g }) = c.end_pos := by
    unfold write_pos Call.end_pos Call.start_pos kept_in
    rw [b1]
    push_cast
    omega
  simp only [] at b1 g1 g2
  rw [e]
  generalize (strip_loop c.env c.buflen
    { mem := c.mem, buf := c.buf, destp := c.buf, buflen := c.buflen, bytes_left := 0,
      g := g }) = R at hsta hord hbeh hwe g1 g2 ⊢
  have hE : 0 ≤ c.end_pos := by
    unfold Call.end_pos
    omega
  refine ⟨by rw [g2]; exact ht, by rw [g1]; exact hr,
    table_started_sorted R.g hsta (fun hne => (hord hne).1), ?_⟩
  intro hin
  refine ⟨hsta, hE, fun hne => ⟨(hord hne).1, ?_⟩⟩
  rcases hbeh hne with h | ⟨hz, h⟩
  · rw [← hwe]; exact h
  · exact absurd h (hin hz)

/-- The offset `end_pos` is the offset the chunk begins at plus the length the
call returns, when the file is DOS text. -/
theorem end_pos_eq (c : Call) (g : Globals) (hO : c.env.O_BINARY ≠ 0)
    (ht : (classify c.mem c.buf c.buflen (new_file_reset c.env g)).dos_file_type
      = File_type.DOS_TEXT) :
    c.end_pos = c.start_pos + ((undossify_input c.env g c.mem c.buf c.buflen).ret : Int) := by
  obtain ⟨-, b2, -⟩ := strip_loop_bytes c.env c.buflen
    { mem := c.mem, buf := c.buf, destp := c.buf, buflen := c.buflen, bytes_left := 0,
      g := classify c.mem c.buf c.buflen (new_file_reset c.env g) } (le_refl _) (le_refl _)
  simp only [] at b2
  have hret : (undossify_input c.env g c.mem c.buf c.buflen).ret =
      (strip_loop c.env c.buflen
        { mem := c.mem, buf := c.buf, destp := c.buf, buflen := c.buflen, bytes_left := 0,
          g := classify c.mem c.buf c.buflen (new_file_reset c.env g) }).bytes_left := by
    unfold undossify_input strip
    rw [if_neg hO, if_pos ht]
  rw [hret, b2]
  unfold Call.end_pos kept_in
  push_cast
  omega

/-- The later calls of a DOS text file with the bookkeeping active, each
continuing the one before: the table stays sorted. -/
theorem feed_sorted (g : Globals) (cs : List Call) (P : Int)
    (ht : g.dos_file_type = File_type.DOS_TEXT) (hr : g.dos_report_unix_offset = 0)
    (hO : ∀ c ∈ cs, c.env.O_BINARY ≠ 0 ∧ c.env.out_byte ≠ 0)
    (hl : ∀ c ∈ cs, c.env.totalcc ≠ 0)
    (hP : table_behind g P)
    (hfirst : ∀ d rest, cs = d :: rest → P ≤ d.start_pos)
    (hch : List.Chain' continues cs) :
    table_sorted (feed g cs) := by
  induction cs generalizing g P with
  | nil => exact table_started_sorted g hP.1 (fun hne => (hP.2.2 hne).1)
  | cons c cs ih =>
    obtain ⟨hOc, hbc⟩ := hO c (List.mem_cons_self _ _)
    have hlc := hl c (List.mem_cons_self _ _)
    have e : undossify_input c.env g c.mem c.buf c.buflen = strip c.env c.mem c.buf c.buflen g := by
      unfold undossify_input
      rw [if_neg hOc, new_file_reset_later c.env g hlc, classify_known _ _ _ g ht]
    obtain ⟨s1, s2, s3, s4⟩ := strip_behind c g hbc hr ht
      (table_behind_mono g P _ hP (hfirst c cs rfl))
    simp only [feed]
    rw [e]
    cases cs with
    | nil => exact s3
    | cons d rest =>
      obtain ⟨⟨hin, hle⟩, hch1⟩ := List.chain'_cons.1 hch
      exact ih (strip c.env c.mem c.buf c.buflen g).g c.end_pos s1 s2
        (fun x hx => hO x (List.mem_cons_of_mem _ hx))
        (fun x hx => hl x (List.mem_cons_of_mem _ hx))
        (s4 hin)
        (fun d1 rest1 h1 => by
          have : d = d1 := (List.cons.inj h1).1
          rw [← this]; exact hle)
        hch1

/-- C14 as stated fails: after "line1 CR LF line2 CR LF line3" the provisional
entry 3 and the last confirmed entry 2 both have `pos = 12`; the provisional
`pos` is not one byte greater. -/
theorem provisional_not_one_ahead :
    (undossify_input env_dos (initial blank_table) (memOf crlf_lines 0) 0 19).g.dos_pos_map_used
        = 3
    ∧ ((undossify_input env_dos (initial blank_table) (memOf crlf_lines 0) 0 19).g.dos_pos_map
          3).pos = 12
    ∧ ((undossify_input env_dos (initial blank_table) (memOf crlf_lines 0) 0 19).g.dos_pos_map
          (3 - 1)).pos = 12
    ∧ ((undossify_input env_dos (initial blank_table) (memOf crlf_lines 0) 0 19).g.dos_pos_map
          3).pos
      ≠ ((undossify_input env_dos (initial blank_table) (memOf crlf_lines 0) 0 19).g.dos_pos_map
          (3 - 1)).pos + 1 := by
  decide

/-- C14, amended: after the bookkeeping of a CR run (lines 136-174, entered
with `inp_map_idx ≥ 0`) the provisional entry, index `dos_pos_map_used`, has
`pos` = write position + 1, and the last confirmed entry, index
`dos_pos_map_used - 1`, has `pos` = write position or write position + 1; for
a run that ends inside the chunk the provisional `pos` is one byte greater than
the confirmed one when the byte after the run is not LF and equal to it when
that byte is LF.  The bookkeeping of the next run (entered with the globals
this one left) writes its confirmed position into that provisional entry and
appends one new provisional entry. -/
theorem provisional_entry (env env2 : Env) (st st2 : Strip)
    (hi : 0 ≤ st.g.inp_map_idx) (hnext : st2.g = (record_run env st).g) :
    (record_run env st).g.dos_pos_map_used = (record_run env st).g.inp_map_idx
    ∧ ((record_run env st).g.dos_pos_map (record_run env st).g.dos_pos_map_used).pos
        = write_pos env st + 1
    ∧ (((record_run env st).g.dos_pos_map ((record_run env st).g.dos_pos_map_used - 1)).pos
          = write_pos env st
        ∨ ((record_run env st).g.dos_pos_map ((record_run env st).g.dos_pos_map_used - 1)).pos
          = write_pos env st + 1)
    ∧ ((record_run env st).buflen ≠ 0 → st.mem (record_run env st).buf ≠ LF →
        ((record_run env st).g.dos_pos_map (record_run env st).g.dos_pos_map_used).pos
          = ((record_run env st).g.dos_pos_map
              ((record_run env st).g.dos_pos_map_used - 1)).pos + 1)
    ∧ ((record_run env st).buflen ≠ 0 → st.mem (record_run env st).buf = LF →
        ((record_run env st).g.dos_pos_map (record_run env st).g.dos_pos_map_used).pos
          = ((record_run env st).g.dos_pos_map
              ((record_run env st).g.dos_pos_map_used - 1)).pos)
    ∧ (record_run env2 st2).g.dos_pos_map_used = (record_run env st).g.dos_pos_map_used + 1
    ∧ (((record_run env2 st2).g.dos_pos_map (record_run env st).g.dos_pos_map_used).pos
          = write_pos env2 st2
        ∨ ((record_run env2 st2).g.dos_pos_map (record_run env st).g.dos_pos_map_used).pos
          = write_pos env2 st2 + 1)
    ∧ ((record_run env2 st2).g.dos_pos_map ((record_run env st).g.dos_pos_map_used + 1)).pos
        = write_pos env2 st2 + 1 := by
  obtain ⟨t1, t2, -, t4, -, t6, -⟩ := record_run_table env st
  obtain ⟨s1, s2, -, s4, -, s6, -⟩ := record_run_table env2 st2
  have hbuf := record_run_buf env st
  have hbase : 1 ≤ (if st.g.inp_map_idx = 0 then 1 else st.g.inp_map_idx) := by
    split <;> omega
  have hne : st2.g.inp_map_idx ≠ 0 := by rw [hnext, t1]; omega
  rw [if_neg hne] at s1 s4 s6
  rw [hnext] at s1 s4 s6
  rw [s2, s1, t2, t1]
  rw [t1] at s4 s6
  simp only [add_sub_cancel_right]
  rw [t4, t6, s4, s6, hbuf]
  unfold write_pos lf_shift
  refine ⟨trivial, rfl, ?_, ?_, ?_, trivial, ?_, rfl⟩
  · split
    · right; omega
    · left; omega
  · intro _ h
    rw [if_neg h]; omega
  · intro _ h
    rw [if_pos h]; omega
  · split
    · right; omega
    · left; omega

theorem provisional_entry_witness :
    (0 ≤ at_first_cr.g.inp_map_idx ∧ at_second_cr.g = (record_run env_dos at_first_cr).g)
    ∧ (record_run env_dos at_first_cr).g.dos_pos_map_used = 2
    ∧ ((record_run env_dos at_first_cr).g.dos_pos_map
        (record_run env_dos at_first_cr).g.dos_pos_map_used).pos
        = write_pos env_dos at_first_cr + 1
    ∧ (record_run env_dos at_second_cr).g.dos_pos_map_used
        = (record_run env_dos at_first_cr).g.dos_pos_map_used + 1 :=
  ⟨⟨by decide, rfl⟩, by decide,
   (provisional_entry env_dos env_dos at_first_cr at_second_cr (by decide) rfl).2.1,
   (provisional_entry env_dos env_dos at_first_cr at_second_cr (by decide) rfl).2.2.2.2.2.1⟩

/-! ## The look-ahead behind a run that ends the chunk -/

/-- C15 fails on the code for a run that ends the chunk: in the 4-byte chunk
CR, LF, "a", CR the second run is the last byte, two bytes are written before
it and no byte of the chunk follows it, so the rule gives `pos = 2`; line 169
looks at the byte stored behind the chunk and, when that is LF, records
`pos = 3`.  (The entry after it carries `add = 2` in both cases.) -/
theorem recorded_position_past_chunk :
    chunk (memOf cr_at_end LF) 0 4 = cr_at_end
    ∧ max_run (memOf cr_at_end LF) 0 4 3 1
    ∧ kept_in (memOf cr_at_end LF) 0 3 = 2
    ∧ (undossify_input env_dos (initial blank_table) (memOf cr_at_end LF) 0 4).g.dos_file_type
        = File_type.DOS_TEXT
    ∧ table_prefix (undossify_input env_dos (initial blank_table) (memOf cr_at_end LF) 0 4).g 4
        = [⟨0, 0⟩, ⟨1, 0⟩, ⟨3, 1⟩, ⟨3, 2⟩]
    ∧ ((undossify_input env_dos (initial blank_table) (memOf cr_at_end LF) 0 4).g.dos_pos_map
        2).pos ≠ 2 := by
  decide

/-- C16 fails on the code: two memories that hold the same 4-byte chunk CR,
LF, "a", CR and differ only in the byte behind it (LF or "x") give different
tables, (.., (3,1), (3,2)) and (.., (2,1), (3,2)), and different translations
of offset 2 (3 and 4): the call reads the byte at index 4 of a chunk of
length 4. -/
theorem lookahead_reads_past_chunk :
    chunk (memOf cr_at_end LF) 0 4 = chunk (memOf cr_at_end 120) 0 4
    ∧ memOf cr_at_end LF 4 ≠ memOf cr_at_end 120 4
    ∧ table_prefix (undossify_input env_dos (initial blank_table) (memOf cr_at_end LF) 0 4).g 4
        = [⟨0, 0⟩, ⟨1, 0⟩, ⟨3, 1⟩, ⟨3, 2⟩]
    ∧ table_prefix (undossify_input env_dos (initial blank_table) (memOf cr_at_end 120) 0 4).g 4
        = [⟨0, 0⟩, ⟨1, 0⟩, ⟨2, 1⟩, ⟨3, 2⟩]
    ∧ (dossified_pos env_dos
        (undossify_input env_dos (initial blank_table) (memOf cr_at_end LF) 0 4).g 2).1 = 3
    ∧ (dossified_pos env_dos
        (undossify_input env_dos (initial blank_table) (memOf cr_at_end 120) 0 4).g 2).1 = 4 := by
  decide

/-- The writes of `undossify_input` stay inside the chunk. -/
theorem undossify_input_writes_inside (env : Env) (g : Globals) (mem : Mem) (buf buflen a : Nat)
    (ha : a < buf ∨ buf + buflen ≤ a) :
    (undossify_input env g mem buf buflen).mem a = mem a := by
  unfold undossify_input strip
  split
  · rfl
  · split
    · exact (strip_loop_bytes env buflen
        { mem := mem, buf := buf, destp := buf, buflen := buflen, bytes_left := 0,
          g := classify mem buf buflen (new_file_reset env g) }
        (le_refl _) (le_refl _)).2.2.2.1 a ha
    · rfl

/-- C17 fails on the code: after "line1 CR LF line2 CR LF line3"
(`dos_pos_map_used = 3`) the calls `dossified_pos (12)`, `dossified_pos (13)`
leave the cursor at 3 and then at 4; the second call returns 13 plus the `add`
of entry 4, which the file never wrote. -/
theorem cursor_leaves_table :
    (undossify_input env_dos (initial blank_table) (memOf crlf_lines 0) 0 19).g.dos_pos_map_used
        = 3
    ∧ (dossified_seq env_dos
        (undossify_input env_dos (initial blank_table) (memOf crlf_lines 0) 0 19).g
        [12]).2.out_map_idx = 3
    ∧ (dossified_seq env_dos
        (undossify_input env_dos (initial blank_table) (memOf crlf_lines 0) 0 19).g
        [12, 13]).2.out_map_idx = 4
    ∧ (dossified_seq env_dos
        (undossify_input env_dos (initial blank_table) (memOf crlf_lines 0) 0 19).g
        [12, 13]).1 = [14, 13 + (blank_table 4).add]
    ∧ ¬ (dossified_seq env_dos
        (undossify_input env_dos (initial blank_table) (memOf crlf_lines 0) 0 19).g
        [12, 13]).2.out_map_idx
      ≤ (undossify_input env_dos (initial blank_table) (memOf crlf_lines 0) 0 19).g.dos_pos_map_used
      := by
  decide


/-- The rule of lines 161-174 for a run `[a, a + k)` that ends inside the
chunk: its entry has `pos` = (write pointer at the run) - `bufbeg` + `totalcc`,
plus one exactly when the byte after the run is LF, and the entry after it
carries the CR count including the run. -/
theorem recorded_position_inside (env : Env) (g : Globals) (mem : Mem) (buf buflen a k : Nat)
    (hO : env.O_BINARY ≠ 0)
    (ht : (classify mem buf buflen (new_file_reset env g)).dos_file_type = File_type.DOS_TEXT)
    (hb : env.out_byte ≠ 0 ∧ g.dos_report_unix_offset = 0)
    (hi : 0 ≤ g.inp_map_idx)
    (hrun : max_run mem buf buflen a k) (_hin : a + k < buf + buflen) :
    ((undossify_input env g mem buf buflen).g.dos_pos_map
        ((if (new_file_reset env g).inp_map_idx = 0 then 1
          else (new_file_reset env g).inp_map_idx) + (runs_in mem buf (a - buf) : Int))).pos
      = ((buf + kept_in mem buf (a - buf) : Nat) : Int) - (env.bufbeg : Int) + (env.totalcc : Int)
          + (if mem (a + k) = LF then 1 else 0)
    ∧ ((undossify_input env g mem buf buflen).g.dos_pos_map
        ((if (new_file_reset env g).inp_map_idx = 0 then 1
          else (new_file_reset env g).inp_map_idx) + (runs_in mem buf (a - buf) : Int) + 1)).add
      = (new_file_reset env g).dos_stripped_crs + (crs_in mem buf (a - buf) : Int) + (k : Int) := by
  obtain ⟨c1, c2, c3, -⟩ := classify_fields mem buf buflen (new_file_reset env g)
  obtain ⟨n1, n2, -⟩ := new_file_reset_fields env g
  obtain ⟨-, -, -, t4⟩ := strip_loop_table env mem buflen
    { mem := mem, buf := buf, destp := buf, buflen := buflen, bytes_left := 0,
      g := classify mem buf buflen (new_file_reset env g) }
    ⟨hb.1, by simp only []; rw [c1, n1]; exact hb.2⟩ (le_refl _) (le_refl _)
    (fun _ _ => rfl) (by simp only []; rw [c3]; exact n2 hi)
  simp only [] at t4
  rw [c3, c2] at t4
  obtain ⟨p1, p2⟩ := t4 a k hrun
  rw [undossify_input_dos_text env g mem buf buflen hO ht]
  refine ⟨?_, p2⟩
  rw [p1]
  unfold lf_shift
  split <;> (push_cast; omega)

/-! ## The variant with an explicit buffer beginning -/

theorem record_run_mthread_eq (env : Env) (st : Strip) :
    record_run_mthread env env.bufbeg st = record_run env st := rfl

theorem strip_body_mthread_eq (env : Env) (st : Strip) :
    strip_body_mthread env env.bufbeg st = strip_body env st := by
  unfold strip_body_mthread strip_body
  rw [record_run_mthread_eq]

theorem strip_loop_mthread_eq (env : Env) (fuel : Nat) (st : Strip) :
    strip_loop_mthread env env.bufbeg fuel st = strip_loop env fuel st := by
  induction fuel generalizing st with
  | zero => rfl
  | succ fuel ih =>
    rw [strip_loop_mthread, strip_loop]
    split
    · rfl
    · rw [strip_body_mthread_eq, ih]

/-- C18: called with the global `bufbeg` as third argument,
`undossify_input_mthread` returns the same length and leaves the same memory
and the same globals (classification, `dos_stripped_crs`, table, `inp_map_idx`,
`out_map_idx`, `dos_pos_map_used`, `dos_pos_map_size`) as `undossify_input`,
for every state, memory, buffer and length.  With another third argument the
recorded positions differ, as for the chunk CR, LF and the argument 1. -/
theorem undossify_input_mthread_refines (env : Env) (g : Globals) (mem : Mem)
    (buf buflen : Nat) :
    undossify_input_mthread env g mem buf buflen env.bufbeg
      = undossify_input env g mem buf buflen
    ∧ (undossify_input_mthread env g mem buf buflen env.bufbeg).ret
        = (undossify_input env g mem buf buflen).ret
    ∧ (undossify_input_mthread env g mem buf buflen env.bufbeg).mem
        = (undossify_input env g mem buf buflen).mem
    ∧ (undossify_input_mthread env g mem buf buflen env.bufbeg).g
        = (undossify_input env g mem buf buflen).g
    ∧ table_prefix (undossify_input_mthread env_dos (initial blank_table) (memOf crlf 0) 0 2 1).g 3
        = [⟨0, 0⟩, ⟨0, 0⟩, ⟨0, 1⟩]
    ∧ table_prefix (undossify_input env_dos (initial blank_table) (memOf crlf 0) 0 2).g 3
        = [⟨0, 0⟩, ⟨1, 0⟩, ⟨1, 1⟩] := by
  have e : undossify_input_mthread env g mem buf buflen env.bufbeg
      = undossify_input env g mem buf buflen := by
    unfold undossify_input_mthread undossify_input strip classify new_file_reset
    simp only [strip_loop_mthread_eq]
  refine ⟨e, by rw [e], by rw [e], by rw [e], by decide, by decide⟩

/-! ## The capacity of the table -/

theorem record_run_size (env : Env) (st : Strip) :
    (record_run env st).g.dos_pos_map_size = grown_size st.g := rfl

theorem record_run_capacity (env : Env) (st : Strip) (h : capacity_ok st.g) :
    run_in_bounds st.g = true ∧ capacity_ok (record_run env st).g := by
  obtain ⟨h1, h2, h3⟩ := h
  obtain ⟨t1, -⟩ := record_run_table env st
  have hs := record_run_size env st
  constructor
  · unfold run_in_bounds record_run_writes grown_size
    by_cases hz : st.g.inp_map_idx = 0
    · simp only [hz, if_true]
      rcases h2 with h2 | h2
      · simp [h2]
      · have : ¬ (0 ≥ st.g.dos_pos_map_size - 1) := by omega
        simp only [this, if_false]
        simp
        omega
    · have hge : 2 ≤ st.g.inp_map_idx := by omega
      have hlt := h3 hz
      simp only [hz, if_false, List.nil_append]
      by_cases hg : st.g.inp_map_idx ≥ st.g.dos_pos_map_size - 1
      · simp only [hg, if_true, ne_eq, not_false_eq_true]
        simp
        omega
      · simp only [hg, if_false]
        simp
        omega
  · unfold capacity_ok
    rw [t1, hs]
    unfold grown_size
    by_cases hz : st.g.inp_map_idx = 0
    · simp only [hz, if_true]
      rcases h2 with h2 | h2
      · simp [h2]
      · have : ¬ (0 ≥ st.g.dos_pos_map_size - 1) := by omega
        simp only [this, if_false]
        refine ⟨Or.inr (by norm_num), Or.inr h2, fun _ => by omega⟩
    · have hge : 2 ≤ st.g.inp_map_idx := by omega
      have hlt := h3 hz
      have h1000 : 1000 ≤ st.g.dos_pos_map_size := by omega
      simp only [hz, if_false]
      by_cases hg : st.g.inp_map_idx ≥ st.g.dos_pos_map_size - 1
      · simp only [hg, if_true, ne_eq, not_false_eq_true]
        refine ⟨Or.inr (by omega), Or.inr (by omega), fun _ => by omega⟩
      · simp only [hg, if_false]
        refine ⟨Or.inr (by omega), Or.inr h1000, fun _ => by omega⟩

theorem strip_body_capacity (env : Env) (st : Strip) (h : capacity_ok st.g) :
    capacity_ok (strip_body env st).g := by
  rcases strip_body_globals env st with hg | ⟨-, -, st1, hr, hg1, -⟩
  · rw [hg]; exact h
  · rw [hr]
    exact (record_run_capacity env st1 (by rw [hg1]; exact h)).2

theorem strip_loop_capacity (env : Env) (fuel : Nat) (st : Strip) (h : capacity_ok st.g) :
    strip_loop_in_bounds env fuel st = true ∧ capacity_ok (strip_loop env fuel st).g := by
  induction fuel generalizing st with
  | zero => exact ⟨rfl, h⟩
  | succ fuel ih =>
    rcases Nat.eq_zero_or_pos st.buflen with h0 | hlen
    · rw [strip_loop_done env _ st h0]
      refine ⟨?_, h⟩
      rw [strip_loop_in_bounds, h0]
    · obtain ⟨n, hn⟩ : ∃ n, st.buflen = n + 1 := ⟨st.buflen - 1, by omega⟩
      rw [strip_loop_step env fuel n st hn]
      obtain ⟨i1, i2⟩ := ih (strip_body env { st with buflen := n })
        (strip_body_capacity env { st with buflen := n } h)
      refine ⟨?_, i2⟩
      rw [strip_loop_in_bounds, hn]
      simp only [Bool.and_eq_true]
      refine ⟨?_, i1⟩
      split
      · exact (record_run_capacity env st h).1
      · rfl

theorem undossify_input_capacity (env : Env) (g : Globals) (mem : Mem) (buf buflen : Nat)
    (h : capacity_ok g) :
    undossify_input_in_bounds env g mem buf buflen = true
    ∧ capacity_ok (undossify_input env g mem buf buflen).g := by
  have hr : capacity_ok (classify mem buf buflen (new_file_reset env g)) := by
    obtain ⟨-, -, c3, -⟩ := classify_fields mem buf buflen (new_file_reset env g)
    have hsz : (classify mem buf buflen (new_file_reset env g)).dos_pos_map_size
        = g.dos_pos_map_size := by
      unfold classify new_file_reset
      split <;> split <;> rfl
    unfold capacity_ok
    rw [c3, hsz]
    unfold new_file_reset
    split
    · exact ⟨Or.inl rfl, h.2.1, fun hne => absurd rfl hne⟩
    · exact h
  unfold undossify_input_in_bounds undossify_input strip
  by_cases hO : env.O_BINARY = 0
  · rw [if_pos hO, if_pos hO]
    exact ⟨rfl, h⟩
  · rw [if_neg hO, if_neg hO]
    by_cases ht : (classify mem buf buflen (new_file_reset env g)).dos_file_type
        = File_type.DOS_TEXT
    · rw [if_pos ht, if_pos ht]
      exact strip_loop_capacity env buflen _ hr
    · rw [if_neg ht, if_neg ht]
      exact ⟨rfl, hr⟩

theorem reachable_capacity (g : Globals) (h : Reachable g) : capacity_ok g := by
  induction h with
  | start tbl => exact ⟨Or.inl rfl, Or.inl rfl, fun hne => absurd rfl hne⟩
  | binary env g _ ih =>
    unfold dos_binary
    split
    · exact ih
    · exact ih
  | unix_offsets env g _ ih =>
    unfold dos_unix_byte_offsets
    split
    · exact ih
    · exact ih
  | undossify env g mem buf buflen _ ih =>
    exact (undossify_input_capacity env g mem buf buflen ih).2
  | position env g byteno _ ih =>
    unfold dossified_pos
    split
    · exact ih
    · split
      · exact ih
      · exact ih

/-- C19: in every state reachable from the initial values by calls of the
functions of dosbuf.c (file resets included), `inp_map_idx` is 0 or at least
2 and the capacity is 0 or at least 1000, and every table write that a call of
`undossify_input` makes while recording a CR run is at an index `i` with
`0 ≤ i < dos_pos_map_size`, the capacity being the one lines 143-149 leave
(1000 on first growth, `2 * inp_map_idx` afterwards). -/
theorem table_writes_in_bounds (g : Globals) (h : Reachable g)
    (env : Env) (mem : Mem) (buf buflen : Nat) :
    (g.inp_map_idx = 0 ∨ 2 ≤ g.inp_map_idx)
    ∧ (g.dos_pos_map_size = 0 ∨ 1000 ≤ g.dos_pos_map_size)
    ∧ (g.inp_map_idx ≠ 0 → g.inp_map_idx < g.dos_pos_map_size)
    ∧ undossify_input_in_bounds env g mem buf buflen = true := by
  obtain ⟨h1, h2, h3⟩ := reachable_capacity g h
  exact ⟨h1, h2, h3, (undossify_input_capacity env g mem buf buflen (reachable_capacity g h)).1⟩

theorem table_writes_in_bounds_witness :
    Reachable (undossify_input env_dos (initial blank_table) (memOf crlf_lines 0) 0 19).g
    ∧ (undossify_input env_dos (initial blank_table) (memOf crlf_lines 0) 0 19).g.inp_map_idx = 3
    ∧ (undossify_input env_dos (initial blank_table) (memOf crlf_lines 0) 0 19).g.dos_pos_map_size
        = 1000
    ∧ run_in_bounds { initial blank_table with inp_map_idx := 1, dos_pos_map_size := 2 } = false
    ∧ undossify_input_in_bounds env_dos
        (undossify_input env_dos (initial blank_table) (memOf crlf_lines 0) 0 19).g
        (memOf dos_text 0) 0 7 = true :=
  ⟨Reachable.undossify _ _ _ _ _ (Reachable.start _), by decide, by decide, by decide,
   (table_writes_in_bounds _
      (Reachable.undossify env_dos (initial blank_table) (memOf crlf_lines 0) 0 19
        (Reachable.start blank_table))
      env_dos (memOf dos_text 0) 0 7).2.2.2⟩

/-! ## Stripping chunk by chunk -/

/-- The bytes a call on a DOS text file leaves: the chunk without its CRs. -/
theorem undossify_input_bytes (env : Env) (g : Globals) (mem : Mem) (buf buflen : Nat)
    (hO : env.O_BINARY ≠ 0)
    (ht : (classify mem buf buflen (new_file_reset env g)).dos_file_type = File_type.DOS_TEXT) :
    chunk (undossify_input env g mem buf buflen).mem buf (undossify_input env g mem buf buflen).ret
        = (chunk mem buf buflen).filter (fun b => decide (b ≠ CR))
    ∧ (undossify_input env g mem buf buflen).ret
        = ((chunk mem buf buflen).filter (fun b => decide (b ≠ CR))).length := by
  obtain ⟨-, h2, h3, -⟩ := strip_loop_bytes env buflen
    { mem := mem, buf := buf, destp := buf, buflen := buflen, bytes_left := 0,
      g := classify mem buf buflen (new_file_reset env g) } (Nat.le_refl _) (Nat.le_refl _)
  simp only [Nat.zero_add] at h2 h3
  unfold undossify_input strip
  rw [if_neg hO, if_pos ht]
  simp only []
  rw [h2, h3]
  exact ⟨rfl, rfl⟩

/-- C20: for a file that is DOS text, on a DOS build and for every setting of
`out_byte` and `dos_report_unix_offset`, the bytes `undossify_input` leaves
for a chunk `c1` followed by the bytes it leaves for the next chunk `c2`
(called with the globals the first call left, `totalcc ≠ 0`) are the bytes it
leaves for one chunk holding `c1 ++ c2`, and the returned lengths add up,
wherever the chunks are cut. -/
theorem strip_compositional (env1 env2 env12 : Env) (g : Globals) (mem1 mem2 mem12 : Mem)
    (buf1 n1 buf2 n2 buf12 : Nat)
    (hO1 : env1.O_BINARY ≠ 0) (hO2 : env2.O_BINARY ≠ 0) (hO12 : env12.O_BINARY ≠ 0)
    (ht1 : (classify mem1 buf1 n1 (new_file_reset env1 g)).dos_file_type = File_type.DOS_TEXT)
    (hl2 : env2.totalcc ≠ 0)
    (ht12 : (classify mem12 buf12 (n1 + n2) (new_file_reset env12 g)).dos_file_type
      = File_type.DOS_TEXT)
    (hcat : chunk mem12 buf12 (n1 + n2) = chunk mem1 buf1 n1 ++ chunk mem2 buf2 n2) :
    chunk (undossify_input env1 g mem1 buf1 n1).mem buf1 (undossify_input env1 g mem1 buf1 n1).ret
        ++ chunk (undossify_input env2 (undossify_input env1 g mem1 buf1 n1).g mem2 buf2 n2).mem
            buf2 (undossify_input env2 (undossify_input env1 g mem1 buf1 n1).g mem2 buf2 n2).ret
      = chunk (undossify_input env12 g mem12 buf12 (n1 + n2)).mem buf12
          (undossify_input env12 g mem12 buf12 (n1 + n2)).ret
    ∧ (undossify_input env1 g mem1 buf1 n1).ret
        + (undossify_input env2 (undossify_input env1 g mem1 buf1 n1).g mem2 buf2 n2).ret
      = (undossify_input env12 g mem12 buf12 (n1 + n2)).ret := by
  have hg1 : (undossify_input env1 g mem1 buf1 n1).g.dos_file_type = File_type.DOS_TEXT := by
    rw [undossify_input_type env1 g mem1 buf1 n1 hO1, ht1]
  have ht2 : (classify mem2 buf2 n2
      (new_file_reset env2 (undossify_input env1 g mem1 buf1 n1).g)).dos_file_type
      = File_type.DOS_TEXT := by
    rw [new_file_reset_later env2 _ hl2, classify_known _ _ _ _ hg1]
    exact hg1
  obtain ⟨a1, a2⟩ := undossify_input_bytes env1 g mem1 buf1 n1 hO1 ht1
  obtain ⟨b1, b2⟩ := undossify_input_bytes env2 _ mem2 buf2 n2 hO2 ht2
  obtain ⟨c1, c2⟩ := undossify_input_bytes env12 g mem12 buf12 (n1 + n2) hO12 ht12
  rw [a1, b1, c1, a2, b2, c2, hcat, List.filter_append, List.length_append]
  exact ⟨rfl, rfl⟩

theorem strip_compositional_witness :
    (env_dos_later.O_BINARY ≠ 0
      ∧ (classify (memOf split_left 0) 0 3
          (new_file_reset env_dos_later after_crlf)).dos_file_type = File_type.DOS_TEXT
      ∧ env_dos_later.totalcc ≠ 0
      ∧ (classify (memOf (split_left ++ split_right) 0) 0 (3 + 3)
          (new_file_reset env_dos_later after_crlf)).dos_file_type = File_type.DOS_TEXT
      ∧ chunk (memOf (split_left ++ split_right) 0) 0 (3 + 3)
          = chunk (memOf split_left 0) 0 3 ++ chunk (memOf split_right 0) 0 3)
    ∧ (undossify_input env_dos_later after_crlf (memOf split_left 0) 0 3).ret
        + (undossify_input env_dos_later
            (undossify_input env_dos_later after_crlf (memOf split_left 0) 0 3).g
            (memOf split_right 0) 0 3).ret
      = (undossify_input env_dos_later after_crlf (memOf (split_left ++ split_right) 0) 0
          (3 + 3)).ret
    ∧ (undossify_input env_dos_later after_crlf (memOf (split_left ++ split_right) 0) 0
          (3 + 3)).ret = 3 :=
  ⟨⟨by decide, by decide, by decide, by decide, by decide⟩,
   (strip_compositional env_dos_later env_dos_later env_dos_later after_crlf
      (memOf split_left 0) (memOf split_right 0) (memOf (split_left ++ split_right) 0)
      0 3 0 3 0 (by decide) (by decide) (by decide) (by decide) (by decide) (by decide)
      (by decide)).2,
   by decide⟩

/-- The indices listed by `record_run_writes` are all the bookkeeping of a run
changes: every other table entry is left as it was. -/
theorem record_run_writes_cover (env : Env) (st : Strip) (i : Int)
    (h : i ∉ record_run_writes st.g) :
    (record_run env st).g.dos_pos_map i = st.g.dos_pos_map i := by
  unfold record_run_writes at h
  by_cases hz : st.g.inp_map_idx = 0
  · simp only [hz, if_true, List.mem_append, List.mem_cons, List.mem_singleton,
      List.not_mem_nil, or_false, not_or] at h
    have h0 : i ≠ 0 := by omega
    have h1 : i ≠ 1 := by omega
    have h2 : i ≠ 2 := by omega
    simp [record_run, hz, setPos, setAdd, h0, h1, h2]
  · simp only [hz, if_false, List.nil_append, List.mem_cons, List.mem_singleton,
      List.not_mem_nil, or_false, not_or] at h
    have h1 : i ≠ st.g.inp_map_idx := by omega
    have h2 : i ≠ st.g.inp_map_idx + 1 := by omega
    simp [record_run, hz, setPos, setAdd, h1, h2]

theorem strip_body_mthread_env (env : Env) (b : Nat) (st : Strip) :
    strip_body_mthread env b st = strip_body { env with bufbeg := b } st := rfl

/-- The loop of the variant is the loop of `undossify_input` run with the
third argument in the place of `bufbeg`. -/
theorem strip_loop_mthread_env (env : Env) (b fuel : Nat) (st : Strip) :
    strip_loop_mthread env b fuel st = strip_loop { env with bufbeg := b } fuel st := by
  induction fuel generalizing st with
  | zero => rfl
  | succ fuel ih =>
    rw [strip_loop_mthread, strip_loop]
    split
    · rfl
    · rw [strip_body_mthread_env, ih]

/-- With `buflen` iterations allowed the loop of the variant ends through its
loop test. -/
theorem strip_loop_mthread_exit (env : Env) (b fuel : Nat) (st : Strip)
    (hf : st.buflen ≤ fuel) : (strip_loop_mthread env b fuel st).buflen = 0 := by
  rw [strip_loop_mthread_env]
  exact strip_loop_exit _ fuel st hf

end Dosbuf
